import Mathlib

set_option linter.unusedSectionVars false

/-!
Verification of the Leonardo-heap smoothsort implementation (smoothsort.h)
and the binary quicksort implementation (binaryquicksort.h).

The C++ sources are shallowly embedded: iterators become natural-number
indices into an `Array`, the `std::bitset<46>` of tree orders becomes a
natural number below `2 ^ 46`, `size_t` arithmetic becomes `Nat`
arithmetic (truncated subtraction, as in the unsigned C++ type), and the
comparator is the strict order of an arbitrary linear order.  Loops whose
C++ form can diverge on malformed inputs (the shift loops over the shape
bitvector, and the leftward walk of the rectify pass) are embedded with
explicit fuel returning `Option`, so that divergence is observable as
`none`; all other loops are embedded by structural recursion.
-/

namespace Smoothsort

/-- Number of Leonardo numbers in the precomputed table (source constant
`kNumLeonardoNumbers`). -/
def kNumLeonardoNumbers : Nat := 46

/-- The precomputed Leonardo number table from the source
(`kLeonardoNumbers`), with the 46 literal values below `2 ^ 32`. -/
def kLeonardoNumbers : List Nat :=
  [1, 1, 3, 5, 9, 15, 25, 41, 67, 109, 177, 287, 465, 753,
   1219, 1973, 3193, 5167, 8361, 13529, 21891, 35421, 57313, 92735,
   150049, 242785, 392835, 635621, 1028457, 1664079, 2692537,
   4356617, 7049155, 11405773, 18454929, 29860703, 48315633, 78176337,
   126491971, 204668309, 331160281, 535828591, 866988873, 1402817465,
   2269806339, 3672623805]

/-- Table lookup `kLeonardoNumbers[i]`.  Out-of-bounds reads (undefined
behaviour in C++) are modelled as 0. -/
def L (i : Nat) : Nat := kLeonardoNumbers.getD i 0

/-- The mathematical Leonardo recurrence, for comparison with the table. -/
def leonardo : Nat → Nat
  | 0 => 1
  | 1 => 1
  | k + 2 => leonardo (k + 1) + leonardo k + 1

/-- A `HeapShape` (source struct): the `std::bitset<46>` of tree orders,
encoded as a natural number below `2 ^ 46`, and the order of the smallest
(rightmost) tree. -/
structure HeapShape where
  trees : Nat
  smallestTreeSize : Nat
  deriving Repr, DecidableEq

/-- Bit test `b[i]` on the bitset encoding. -/
def bsTest (b i : Nat) : Bool := b / 2 ^ i % 2 = 1

/-- Shift left by `k` on a 46-bit bitset: bits shifted beyond the width
are discarded, as for `std::bitset<46>`. -/
def bsShl (b k : Nat) : Nat := b * 2 ^ k % 2 ^ 46

/-- Setting bit 0 to true. -/
def bsSet0 (b : Nat) : Nat := b / 2 * 2 + 1

/-- Setting bit 1 to true. -/
def bsSet1 (b : Nat) : Nat := b % 2 + b / 4 * 4 + 2

/-- Clearing bit 0. -/
def bsClear0 (b : Nat) : Nat := b / 2 * 2

/-- Iterator to the second child of a tree root (source `SecondChild`):
one step before the root. -/
def SecondChild (root : Nat) : Nat := root - 1

/-- Iterator to the first child of a tree root (source `FirstChild`):
the second child, then `L (size - 2)` further steps back. -/
def FirstChild (root size : Nat) : Nat := SecondChild root - L (size - 2)

variable {α : Type} [LinearOrder α] [Inhabited α]

/-- Array read `*itr`, with a default for the (C++-undefined)
out-of-bounds case. -/
def aget (a : Array α) (i : Nat) : α := a.getD i default

/-- In-place swap `std::iter_swap` of two positions. -/
def aswap (a : Array α) (i j : Nat) : Array α :=
  (a.setD i (aget a j)).setD j (aget a i)

/-- Iterator to the larger child of a tree root (source `LargerChild`):
the second child when `comp(*first, *second)` holds, the first child
otherwise. -/
def LargerChild (a : Array α) (root size : Nat) : Nat :=
  if aget a (FirstChild root size) < aget a (SecondChild root) then
    SecondChild root
  else
    FirstChild root size

/-- Bubble-down rebalancing of one Leonardo tree (source
`RebalanceSingleHeap`).  The loop is structural recursion on the order,
which strictly decreases to the larger child's order. -/
def RebalanceSingleHeap (a : Array α) (root : Nat) : Nat → Array α
  | 0 => a
  | 1 => a
  | size + 2 =>
    let first := FirstChild root (size + 2)
    let second := SecondChild root
    if aget a first < aget a second then
      if aget a root < aget a second then
        RebalanceSingleHeap (aswap a root second) second size
      else a
    else
      if aget a root < aget a first then
        RebalanceSingleHeap (aswap a root first) first (size + 1)
      else a

/-- One run of the shift loop in the rectify pass
(`do ... trees >>= 1; ++smallestTreeSize ... while (!trees[0])`): shifts
at least once and continues until bit 0 is set.  When the bitvector has no
further set bit the C++ loop never exits; this is modelled by fuel
exhaustion returning `none` (46 shifts empty a 46-bit bitset). -/
def nextTreeAux : Nat → Nat → Nat → Option (Nat × Nat)
  | 0, _, _ => none
  | fuel + 1, trees, size =>
    let t := trees / 2
    let s := size + 1
    if bsTest t 0 then some (t, s) else nextTreeAux fuel t s

/-- The shift loop with its natural fuel, the bitset width. -/
def nextTree (trees size : Nat) : Option (Nat × Nat) :=
  nextTreeAux 46 trees size

/-- The leftward walk of the rectify pass (source `LeonardoHeapRectify`
loop), by fuel recursion; each non-breaking iteration strictly decreases
`itr`, so fuel `e` always suffices (proved below), and `none` marks the
fuel-exhaustion / inner-loop-divergence cases that are unreachable from
valid shapes. -/
def LeonardoHeapRectifyAux (b : Nat) :
    Nat → Array α → Nat → Nat → Nat → Option (Array α)
  | 0, _, _, _, _ => none
  | fuel + 1, a, itr, trees, size =>
    if itr - b = L size - 1 then some (RebalanceSingleHeap a itr size)
    else
      let toCompare :=
        if size > 1 then
          let lc := LargerChild a itr size
          if aget a itr < aget a lc then lc else itr
        else itr
      let prior := itr - L size
      if aget a toCompare < aget a prior then
        match nextTree trees size with
        | none => none
        | some (t, s) =>
          LeonardoHeapRectifyAux b fuel (aswap a itr prior) prior t s
      else some (RebalanceSingleHeap a itr size)

/-- Source `LeonardoHeapRectify`: rectify the implicit Leonardo heap on
the range from `b` (inclusive) to `e` (exclusive) after the element at
`e - 1` was appended. -/
def LeonardoHeapRectify (a : Array α) (b e : Nat) (shape : HeapShape) :
    Option (Array α) :=
  LeonardoHeapRectifyAux b e a (e - 1) shape.trees shape.smallestTreeSize

/-- The shape-update part of `LeonardoHeapAdd`: one of the four cases,
checked in the source's priority order. -/
def addShape (shape : HeapShape) : HeapShape :=
  if !(bsTest shape.trees 0) then
    { trees := bsSet0 shape.trees, smallestTreeSize := 1 }
  else if bsTest shape.trees 1 && bsTest shape.trees 0 then
    { trees := bsSet0 (shape.trees / 4),
      smallestTreeSize := shape.smallestTreeSize + 2 }
  else if shape.smallestTreeSize = 1 then
    { trees := bsSet0 (bsShl shape.trees 1), smallestTreeSize := 0 }
  else
    { trees := bsSet0 (bsShl shape.trees (shape.smallestTreeSize - 1)),
      smallestTreeSize := 1 }

/-- The finality test of `LeonardoHeapAdd` (`isLast`), on the updated
shape: whether the new or merged rightmost tree already occupies its
final position, so that a full rectify is warranted.  `std::distance`
on iterators is signed; a negative distance compares as a huge unsigned
value in the source's `size_t` cast, hence the explicit `e + 1 ≤ heapEnd`
conjunct in the default case. -/
def addIsLast (s1 : HeapShape) (e heapEnd : Nat) : Bool :=
  match s1.smallestTreeSize with
  | 0 => e + 1 == heapEnd
  | 1 => e + 1 == heapEnd || (e + 2 == heapEnd && !(bsTest s1.trees 1))
  | _ => decide (e + 1 ≤ heapEnd) &&
      decide (heapEnd - (e + 1) < L (s1.smallestTreeSize - 1) + 1)

/-- Source `LeonardoHeapAdd`: add the element at index `e` to the
implicit Leonardo heap on the range from `b` to `e`, inside the full
range ending at `heapEnd`. -/
def LeonardoHeapAdd (a : Array α) (b e heapEnd : Nat) (shape : HeapShape) :
    Option (Array α × HeapShape) :=
  let s1 := addShape shape
  if addIsLast s1 e heapEnd then
    match LeonardoHeapRectify a b (e + 1) s1 with
    | none => none
    | some a2 => some (a2, s1)
  else
    some (RebalanceSingleHeap a e s1.smallestTreeSize, s1)

/-- The shift loop of `LeonardoHeapRemove`'s first case
(`do ... while (trees.any() && !trees[0])`): guarded by `any()`, it
terminates within 46 shifts on any 46-bit bitset. -/
def dropTreesAux : Nat → Nat → Nat → Nat × Nat
  | 0, trees, size => (trees, size)
  | fuel + 1, trees, size =>
    let t := trees / 2
    let s := size + 1
    if t ≠ 0 ∧ !(bsTest t 0) then dropTreesAux fuel t s else (t, s)

/-- Source `LeonardoHeapRemove`: dequeue the element at `e - 1` from the
implicit Leonardo heap on the range from `b` to `e`. -/
def LeonardoHeapRemove (a : Array α) (b e : Nat) (shape : HeapShape) :
    Option (Array α × HeapShape) :=
  if shape.smallestTreeSize ≤ 1 then
    let ts := dropTreesAux 46 shape.trees shape.smallestTreeSize
    some (a, { trees := ts.1, smallestTreeSize := ts.2 })
  else
    let heapOrder := shape.smallestTreeSize
    let shape2 : HeapShape :=
      { trees := bsSet1 (bsSet0 (bsShl (bsClear0 shape.trees) 2)),
        smallestTreeSize := shape.smallestTreeSize - 2 }
    let leftHeap := FirstChild (e - 1) heapOrder
    let rightHeap := SecondChild (e - 1)
    let allButLast : HeapShape :=
      { trees := shape2.trees / 2,
        smallestTreeSize := shape2.smallestTreeSize + 1 }
    match LeonardoHeapRectify a b (leftHeap + 1) allButLast with
    | none => none
    | some a1 =>
      match LeonardoHeapRectify a1 b (rightHeap + 1) shape2 with
      | none => none
      | some a2 => some (a2, shape2)

/-- The first `Smoothsort` loop: `count` successive `LeonardoHeapAdd`
calls starting at index `itr`. -/
def buildLoop (b heapEnd : Nat) :
    Nat → Array α → Nat → HeapShape → Option (Array α × HeapShape)
  | 0, a, _, shape => some (a, shape)
  | count + 1, a, itr, shape =>
    match LeonardoHeapAdd a b itr heapEnd shape with
    | none => none
    | some (a1, s1) => buildLoop b heapEnd count a1 (itr + 1) s1

/-- The second `Smoothsort` loop: `count` successive `LeonardoHeapRemove`
calls, on ranges shrinking from `b + count` down to `b + 1`. -/
def extractLoop (b : Nat) :
    Nat → Array α → HeapShape → Option (Array α × HeapShape)
  | 0, a, shape => some (a, shape)
  | count + 1, a, shape =>
    match LeonardoHeapRemove a b (b + count + 1) shape with
    | none => none
    | some (a1, s1) => extractLoop b count a1 s1

/-- Source `Smoothsort(begin, end, comp)`: the two-phase driver, with the
empty/singleton early exit.  `none` would mark divergence of an inner
loop; it is proved below never to occur. -/
def smoothsort (a : Array α) : Option (Array α) :=
  if a.size ≤ 1 then some a
  else
    match buildLoop 0 a.size a.size a 0 ⟨0, 0⟩ with
    | none => none
    | some (a1, s1) =>
      match extractLoop 0 a.size a1 s1 with
      | none => none
      | some (a2, _) => some a2

/-- C7 (counterexample): on the all-equal array the two children of the
order-2 tree rooted at index 2 hold equivalent values, yet `LargerChild`
returns the first child (index 0), not the second child (index 1): the
comparison `comp(*first, *second)` is false on ties, selecting `first`. -/
theorem claim_C7_counterexample :
    aget (#[5, 5, 5] : Array Nat) (FirstChild 2 2) =
      aget (#[5, 5, 5] : Array Nat) (SecondChild 2) ∧
    LargerChild (#[5, 5, 5] : Array Nat) 2 2 ≠ SecondChild 2 := by
  decide

/-- C7 (amended): `LargerChild root order comp` is a function of its
inputs (it is a definition, hence deterministic), and when the two
children hold equivalent values under the comparator it returns the
iterator to the FIRST child. -/
theorem claim_C7 {α : Type} [LinearOrder α] [Inhabited α]
    (a : Array α) (root size : Nat)
    (h : aget a (FirstChild root size) = aget a (SecondChild root)) :
    LargerChild a root size = FirstChild root size := by
  unfold LargerChild
  rw [h]
  simp

/-- C7 (witness): the amended theorem applied at the concrete tie. -/
theorem claim_C7_witness :
    aget (#[5, 5, 5] : Array Nat) (FirstChild 2 2) =
      aget (#[5, 5, 5] : Array Nat) (SecondChild 2) ∧
    LargerChild (#[5, 5, 5] : Array Nat) 2 2 = FirstChild 2 2 :=
  ⟨by decide, claim_C7 (#[5, 5, 5] : Array Nat) 2 2 (by decide)⟩

/-- C9 (counterexample): the sequence length 4294967295 = 2 ^ 32 - 1 is
representable in the platform size type (on every platform with at least
32-bit `size_t`), yet every entry of the table is strictly smaller, so the
table has no Leonardo number at least that large to partition against. -/
theorem claim_C9_counterexample :
    kLeonardoNumbers.all (fun x => decide (x < 4294967295)) = true := by
  decide

/-- C9 (amended): the table satisfies the Leonardo recurrence - entry 0
is 1, entry 1 is 1, and every entry at index k with 2 ≤ k < 46 is the sum
of the two preceding entries plus one - and the 46-entry table contains
exactly the Leonardo numbers below 2 ^ 32: every entry is below 2 ^ 32
and the next number of the recurrence already exceeds 2 ^ 32, so the
table covers the sizes the source documents (sequences with 32-bit
sizes), not every size representable in a platform size type. -/
theorem claim_C9 :
    kLeonardoNumbers.getD 0 0 = 1 ∧
    kLeonardoNumbers.getD 1 0 = 1 ∧
    (∀ k < 46, 2 ≤ k →
      kLeonardoNumbers.getD k 0 =
        kLeonardoNumbers.getD (k - 1) 0 + kLeonardoNumbers.getD (k - 2) 0 + 1) ∧
    kLeonardoNumbers.length = kNumLeonardoNumbers ∧
    (∀ x ∈ kLeonardoNumbers, x < 2 ^ 32) ∧
    2 ^ 32 < kLeonardoNumbers.getD 45 0 + kLeonardoNumbers.getD 44 0 + 1 := by
  decide

theorem size_setD (a : Array α) (i : Nat) (v : α) : (a.setD i v).size = a.size :=
  Array.size_setD ..

theorem aget_setD_self (a : Array α) (i : Nat) (v : α) (h : i < a.size) :
    aget (a.setD i v) i = v := by
  simp [aget, Array.setD, Array.getD, h]

theorem aget_setD_ne (a : Array α) (i j : Nat) (v : α) (hj : j ≠ i) :
    aget (a.setD i v) j = aget a j := by
  unfold aget Array.setD
  split
  · simp only [Array.getD, Array.size_set]
    split
    · exact Array.get_set_ne a _ v (by assumption) (fun hh => hj hh.symm)
    · rfl
  · rfl

theorem size_aswap (a : Array α) (i j : Nat) : (aswap a i j).size = a.size := by
  simp [aswap, size_setD]

theorem aget_aswap_fst (a : Array α) (i j : Nat) (hi : i < a.size) :
    aget (aswap a i j) i = aget a j := by
  unfold aswap
  by_cases hij : i = j
  · subst hij
    rw [aget_setD_self _ _ _ (by simpa [size_setD] using hi)]
  · rw [aget_setD_ne _ _ _ _ (fun hh => hij hh), aget_setD_self _ _ _ hi]

theorem aget_aswap_snd (a : Array α) (i j : Nat) (hj : j < a.size) :
    aget (aswap a i j) j = aget a i := by
  unfold aswap
  rw [aget_setD_self _ _ _ (by simpa [size_setD] using hj)]

theorem aget_aswap_other (a : Array α) (i j k : Nat) (hk1 : k ≠ i) (hk2 : k ≠ j) :
    aget (aswap a i j) k = aget a k := by
  unfold aswap
  rw [aget_setD_ne _ _ _ _ hk2, aget_setD_ne _ _ _ _ hk1]

theorem toList_setD (a : Array α) (i : Nat) (v : α) (h : i < a.size) :
    (a.setD i v).toList = a.toList.set i v := by
  simp [Array.setD, h]

theorem aget_eq_toList_get (a : Array α) (i : Nat) (h : i < a.size) :
    aget a i = a.toList.get ⟨i, by simpa using h⟩ := by
  simp [aget, Array.getD, h]

theorem get_cons_set_perm {β : Type} (t : List β) :
    ∀ (j : Nat) (hj : j < t.length) (c : β),
      (t.get ⟨j, hj⟩ :: t.set j c).Perm (c :: t) := by
  induction t with
  | nil => intro j hj c; simp at hj
  | cons d t' ih =>
    intro j hj c
    cases j with
    | zero => exact List.Perm.swap c d t'
    | succ n =>
      have hn : n < t'.length := by simpa using Nat.lt_of_succ_lt_succ hj
      have e : ((d :: t').get ⟨n + 1, hj⟩ :: (d :: t').set (n + 1) c) =
          (t'.get ⟨n, hn⟩ :: d :: t'.set n c) := by simp
      rw [e]
      exact ((List.Perm.swap d _ _).trans
        (List.Perm.cons d (ih n hn c))).trans (List.Perm.swap c d t')

theorem set_set_perm {β : Type} (l : List β) :
    ∀ (i j : Nat) (hi : i < l.length) (hj : j < l.length),
      ((l.set i (l.get ⟨j, hj⟩)).set j (l.get ⟨i, hi⟩)).Perm l := by
  induction l with
  | nil => intro i j hi; simp at hi
  | cons c t ih =>
    intro i j hi hj
    cases i with
    | zero =>
      cases j with
      | zero => simp
      | succ n =>
        have hn : n < t.length := by simpa using Nat.lt_of_succ_lt_succ hj
        have : (((c :: t).set 0 ((c :: t).get ⟨n + 1, hj⟩)).set (n + 1)
            ((c :: t).get ⟨0, hi⟩)) = t.get ⟨n, hn⟩ :: t.set n c := by simp
        rw [this]
        exact get_cons_set_perm t n hn c
    | succ m =>
      have hm : m < t.length := by simpa using Nat.lt_of_succ_lt_succ hi
      cases j with
      | zero =>
        have : (((c :: t).set (m + 1) ((c :: t).get ⟨0, hj⟩)).set 0
            ((c :: t).get ⟨m + 1, hi⟩)) = t.get ⟨m, hm⟩ :: t.set m c := by simp
        rw [this]
        exact get_cons_set_perm t m hm c
      | succ n =>
        have hn : n < t.length := by simpa using Nat.lt_of_succ_lt_succ hj
        have : (((c :: t).set (m + 1) ((c :: t).get ⟨n + 1, hj⟩)).set (n + 1)
            ((c :: t).get ⟨m + 1, hi⟩)) =
            c :: ((t.set m (t.get ⟨n, hn⟩)).set n (t.get ⟨m, hm⟩)) := by simp
        rw [this]
        exact List.Perm.cons c (ih m n hm hn)

theorem aswap_perm (a : Array α) (i j : Nat) (hi : i < a.size) (hj : j < a.size) :
    (aswap a i j).toList.Perm a.toList := by
  unfold aswap
  rw [toList_setD _ _ _ (by simpa [size_setD] using hj), toList_setD _ _ _ hi,
    aget_eq_toList_get _ _ hi, aget_eq_toList_get _ _ hj]
  exact set_set_perm a.toList i j (by simpa using hi) (by simpa using hj)

theorem SecondChild_eq (r : Nat) : SecondChild r = r - 1 := rfl

theorem FirstChild_eq (r k : Nat) : FirstChild r (k + 2) = r - 1 - L k := by
  simp [FirstChild, SecondChild]

theorem L_pos : ∀ k < 46, 1 ≤ L k := by decide

theorem L_rec : ∀ k < 44, L (k + 2) = L (k + 1) + L k + 1 := by decide

theorem L_one : L 0 = 1 ∧ L 1 = 1 := by decide

/-- Max-heap property of the implicit Leonardo tree of order `k` rooted
at index `r`: for orders at least 2, the root dominates both children
and both child trees are heaps.  Orders 0 and 1 are leaves. -/
def IsHeap (a : Array α) : Nat → Nat → Prop
  | 0, _ => True
  | 1, _ => True
  | k + 2, r =>
    aget a (SecondChild r) ≤ aget a r ∧
    aget a (FirstChild r (k + 2)) ≤ aget a r ∧
    IsHeap a k (SecondChild r) ∧
    IsHeap a (k + 1) (FirstChild r (k + 2))

instance decIsHeap (a : Array α) : ∀ (k r : Nat), Decidable (IsHeap a k r)
  | 0, _ => .isTrue trivial
  | 1, _ => .isTrue trivial
  | k + 2, r =>
    have := decIsHeap a k (SecondChild r)
    have := decIsHeap a (k + 1) (FirstChild r (k + 2))
    inferInstanceAs (Decidable (_ ∧ _ ∧ _ ∧ _))

/-- A heap predicate only inspects the positions of the tree's span,
which is the `L k` indices ending at the root. -/
theorem isHeap_congr (a a' : Array α) :
    ∀ (k r : Nat), k ≤ 45 → L k ≤ r + 1 →
      (∀ i, r + 1 - L k ≤ i → i ≤ r → aget a' i = aget a i) →
      IsHeap a k r → IsHeap a' k r
  | 0, _ => by intro _ _ _ _; trivial
  | 1, _ => by intro _ _ _ _; trivial
  | k + 2, r => by
    intro hk hr hcong hh
    obtain ⟨h1, h2, h3, h4⟩ := hh
    have hrec := L_rec k (by omega)
    have hp0 := L_pos k (by omega)
    have hp1 := L_pos (k + 1) (by omega)
    have hp2 := L_pos (k + 2) (by omega)
    refine ⟨?_, ?_, ?_, ?_⟩
    · rw [hcong (SecondChild r) (by simp only [SecondChild_eq]; omega)
        (by simp only [SecondChild_eq]; omega), hcong r (by omega) (by omega)]
      exact h1
    · rw [hcong (FirstChild r (k + 2)) (by simp only [FirstChild_eq, SecondChild_eq]; omega)
        (by simp only [FirstChild_eq, SecondChild_eq]; omega), hcong r (by omega) (by omega)]
      exact h2
    · exact isHeap_congr a a' k (SecondChild r) (by omega)
        (by simp only [SecondChild_eq]; omega)
        (fun i hi1 hi2 => hcong i (by simp only [SecondChild_eq] at *; omega)
          (by simp only [SecondChild_eq] at *; omega)) h3
    · exact isHeap_congr a a' (k + 1) (FirstChild r (k + 2)) (by omega)
        (by simp only [FirstChild_eq, SecondChild_eq]; omega)
        (fun i hi1 hi2 => hcong i (by simp only [FirstChild_eq, SecondChild_eq] at *; omega)
          (by simp only [FirstChild_eq, SecondChild_eq] at *; omega)) h4

/-- In a heap, the root dominates every value of the tree's span. -/
theorem isHeap_le_root (a : Array α) :
    ∀ (k r : Nat), k ≤ 45 → L k ≤ r + 1 → IsHeap a k r →
      ∀ i, r + 1 - L k ≤ i → i ≤ r → aget a i ≤ aget a r
  | 0, r => by
    intro _ _ _ i hi1 hi2
    have : L 0 = 1 := L_one.1
    have : i = r := by omega
    subst this; exact le_refl _
  | 1, r => by
    intro _ _ _ i hi1 hi2
    have : L 1 = 1 := L_one.2
    have : i = r := by omega
    subst this; exact le_refl _
  | k + 2, r => by
    intro hk hr hh i hi1 hi2
    obtain ⟨h1, h2, h3, h4⟩ := hh
    have hrec := L_rec k (by omega)
    have hp0 := L_pos k (by omega)
    have hp1 := L_pos (k + 1) (by omega)
    rcases Nat.lt_or_ge i r with hlt | hge
    · rcases le_or_lt (r - L k) i with hsc | hfc
      · -- inside the second child's span
        have := isHeap_le_root a k (SecondChild r) (by omega)
          (by simp only [SecondChild_eq]; omega) h3 i
          (by simp only [SecondChild_eq]; omega) (by simp only [SecondChild_eq]; omega)
        exact le_trans this h1
      · -- inside the first child's span
        have := isHeap_le_root a (k + 1) (FirstChild r (k + 2)) (by omega)
          (by simp only [FirstChild_eq, SecondChild_eq]; omega) h4 i
          (by simp only [FirstChild_eq, SecondChild_eq]; omega)
          (by simp only [FirstChild_eq, SecondChild_eq]; omega)
        exact le_trans this h2
    · have : i = r := by omega
      subst this; exact le_refl _

theorem largerChild_val (a : Array α) (r k : Nat) :
    aget a (LargerChild a r k) =
      max (aget a (FirstChild r k)) (aget a (SecondChild r)) := by
  unfold LargerChild
  split
  · rw [max_eq_right (le_of_lt (by assumption))]
  · rw [max_eq_left (le_of_not_lt (by assumption))]

/-- Value left at the root of a tree after one bubble-down pass: the
maximum of the old root and (for orders at least 2) the two child roots. -/
def maxTop (a : Array α) : Nat → Nat → α
  | 0, r => aget a r
  | 1, r => aget a r
  | k + 2, r =>
    max (aget a r) (max (aget a (FirstChild r (k + 2))) (aget a (SecondChild r)))

theorem size_rebalance (a : Array α) : ∀ (k r : Nat),
    (RebalanceSingleHeap a r k).size = a.size
  | 0, _ => rfl
  | 1, _ => rfl
  | k + 2, r => by
    unfold RebalanceSingleHeap
    dsimp only
    split_ifs
    · rw [size_rebalance (aswap a r (SecondChild r)) k, size_aswap]
    · rfl
    · rw [size_rebalance (aswap a r (FirstChild r (k + 2))) (k + 1), size_aswap]
    · rfl

theorem rebalance_perm (a : Array α) : ∀ (k r : Nat), r < a.size →
    (RebalanceSingleHeap a r k).toList.Perm a.toList
  | 0, _ => fun _ => List.Perm.refl _
  | 1, _ => fun _ => List.Perm.refl _
  | k + 2, r => by
    intro hsz
    unfold RebalanceSingleHeap
    dsimp only
    split_ifs
    · refine (rebalance_perm _ k (SecondChild r) ?_).trans
        (aswap_perm a r (SecondChild r) hsz ?_)
      · rw [size_aswap]
        simp only [SecondChild_eq]
        omega
      · simp only [SecondChild_eq]
        omega
    · exact List.Perm.refl _
    · refine (rebalance_perm _ (k + 1) (FirstChild r (k + 2)) ?_).trans
        (aswap_perm a r (FirstChild r (k + 2)) hsz ?_)
      · rw [size_aswap]
        simp only [FirstChild_eq]
        omega
      · simp only [FirstChild_eq]
        omega
    · exact List.Perm.refl _

theorem rebalance_outside (a : Array α) : ∀ (k r i : Nat), k ≤ 45 → L k ≤ r + 1 →
    (i + L k ≤ r ∨ r < i) → aget (RebalanceSingleHeap a r k) i = aget a i
  | 0, _, _ => fun _ _ _ => rfl
  | 1, _, _ => fun _ _ _ => rfl
  | k + 2, r, i => by
    intro hk hr hout
    have hrec := L_rec k (by omega)
    have hp0 := L_pos k (by omega)
    have hp1 := L_pos (k + 1) (by omega)
    unfold RebalanceSingleHeap
    dsimp only
    split_ifs
    · rw [rebalance_outside _ k (SecondChild r) i (by omega)
        (by simp only [SecondChild_eq]; omega)
        (by simp only [SecondChild_eq]; omega)]
      exact aget_aswap_other a r (SecondChild r) i
        (by omega) (by simp only [SecondChild_eq]; omega)
    · rfl
    · rw [rebalance_outside _ (k + 1) (FirstChild r (k + 2)) i (by omega)
        (by simp only [FirstChild_eq, SecondChild_eq]; omega)
        (by simp only [FirstChild_eq, SecondChild_eq]; omega)]
      exact aget_aswap_other a r (FirstChild r (k + 2)) i
        (by omega) (by simp only [FirstChild_eq, SecondChild_eq]; omega)
    · rfl

theorem rebalance_root (a : Array α) : ∀ (k r : Nat), k ≤ 45 → L k ≤ r + 1 →
    r < a.size → aget (RebalanceSingleHeap a r k) r = maxTop a k r
  | 0, _ => fun _ _ _ => rfl
  | 1, _ => fun _ _ _ => rfl
  | k + 2, r => by
    intro hk hr hsz
    have hrec := L_rec k (by omega)
    have hp0 := L_pos k (by omega)
    have hp1 := L_pos (k + 1) (by omega)
    unfold RebalanceSingleHeap
    dsimp only
    split_ifs with h1 h2 h3
    · rw [rebalance_outside _ k (SecondChild r) r (by omega)
        (by simp only [SecondChild_eq]; omega)
        (by simp only [SecondChild_eq]; omega),
        aget_aswap_fst a r (SecondChild r) hsz]
      simp only [maxTop]
      rw [max_eq_right (le_of_lt h1), max_eq_right (le_of_lt h2)]
    · simp only [maxTop]
      rw [max_eq_right (le_of_lt h1), max_eq_left (le_of_not_lt h2)]
    · rw [rebalance_outside _ (k + 1) (FirstChild r (k + 2)) r (by omega)
        (by simp only [FirstChild_eq, SecondChild_eq]; omega)
        (by simp only [FirstChild_eq, SecondChild_eq]; omega),
        aget_aswap_fst a r (FirstChild r (k + 2)) hsz]
      simp only [maxTop]
      rw [max_eq_left (le_of_not_lt h1), max_eq_right (le_of_lt h3)]
    · simp only [maxTop]
      rw [max_eq_left (le_of_not_lt h1), max_eq_left (le_of_not_lt h3)]

theorem isHeap_children_first (a : Array α) {k r : Nat} (h : IsHeap a k r)
    (hk2 : 2 ≤ k) : IsHeap a (k - 1) (FirstChild r k) := by
  obtain ⟨k', rfl⟩ : ∃ k', k = k' + 2 := ⟨k - 2, by omega⟩
  exact h.2.2.2

theorem isHeap_children_second (a : Array α) {k r : Nat} (h : IsHeap a k r)
    (hk2 : 2 ≤ k) : IsHeap a (k - 2) (SecondChild r) := by
  obtain ⟨k', rfl⟩ : ∃ k', k = k' + 2 := ⟨k - 2, by omega⟩
  exact h.2.2.1

theorem isHeap_root_first (a : Array α) {k r : Nat} (h : IsHeap a k r)
    (hk2 : 2 ≤ k) : aget a (FirstChild r k) ≤ aget a r := by
  obtain ⟨k', rfl⟩ : ∃ k', k = k' + 2 := ⟨k - 2, by omega⟩
  exact h.2.1

theorem isHeap_root_second (a : Array α) {k r : Nat} (h : IsHeap a k r)
    (hk2 : 2 ≤ k) : aget a (SecondChild r) ≤ aget a r := by
  obtain ⟨k', rfl⟩ : ∃ k', k = k' + 2 := ⟨k - 2, by omega⟩
  exact h.1

theorem isHeap_build (a : Array α) {k r : Nat} (hk2 : 2 ≤ k)
    (h1 : aget a (SecondChild r) ≤ aget a r)
    (h2 : aget a (FirstChild r k) ≤ aget a r)
    (h3 : IsHeap a (k - 2) (SecondChild r))
    (h4 : IsHeap a (k - 1) (FirstChild r k)) : IsHeap a k r := by
  obtain ⟨k', rfl⟩ : ∃ k', k = k' + 2 := ⟨k - 2, by omega⟩
  exact ⟨h1, h2, h3, h4⟩

theorem maxTop_le (a : Array α) (k r : Nat) (M : α) (h0 : aget a r ≤ M)
    (h1 : 2 ≤ k → aget a (FirstChild r k) ≤ M)
    (h2 : 2 ≤ k → aget a (SecondChild r) ≤ M) : maxTop a k r ≤ M := by
  match k with
  | 0 => exact h0
  | 1 => exact h0
  | k + 2 =>
    simp only [maxTop]
    exact max_le h0 (max_le (h1 (by omega)) (h2 (by omega)))

theorem le_maxTop (a : Array α) (k r : Nat) : aget a r ≤ maxTop a k r := by
  match k with
  | 0 => exact le_refl _
  | 1 => exact le_refl _
  | k + 2 => simp only [maxTop]; exact le_max_left _ _

theorem addSubRed1 (m : Nat) : m + 2 - 1 = m + 1 := rfl

theorem addSubRed2 (m : Nat) : m + 2 - 2 = m := rfl

theorem child_spans (k r : Nat) (hk2 : 2 ≤ k) (hk : k ≤ 45) (hr : L k ≤ r + 1) :
    L (k - 1) ≤ FirstChild r k + 1 ∧
    FirstChild r k = r - 1 - L (k - 2) ∧
    SecondChild r = r - 1 ∧
    L (k - 2) ≤ SecondChild r + 1 ∧
    FirstChild r k + L (k - 2) = r - 1 ∧
    1 ≤ L (k - 1) ∧ 1 ≤ L (k - 2) ∧
    L k = L (k - 1) + L (k - 2) + 1 ∧ 3 ≤ L k := by
  obtain ⟨k', rfl⟩ : ∃ k', k = k' + 2 := ⟨k - 2, by omega⟩
  have h1 := L_rec k' (by omega)
  have h2 := L_pos k' (by omega)
  have h3 := L_pos (k' + 1) (by omega)
  rw [addSubRed1, addSubRed2, FirstChild_eq, SecondChild_eq]
  omega

theorem rebalance_isHeap (a : Array α) : ∀ (k r : Nat), k ≤ 45 → L k ≤ r + 1 →
    r < a.size →
    (2 ≤ k → IsHeap a (k - 1) (FirstChild r k)) →
    (2 ≤ k → IsHeap a (k - 2) (SecondChild r)) →
    IsHeap (RebalanceSingleHeap a r k) k r
  | 0, r => fun _ _ _ _ _ => trivial
  | 1, r => fun _ _ _ _ _ => trivial
  | k + 2, r => by
    intro hk hr hsz hfcH hscH
    have hfc' : IsHeap a (k + 1) (FirstChild r (k + 2)) := hfcH (by omega)
    have hsc' : IsHeap a k (SecondChild r) := hscH (by omega)
    obtain ⟨sp1, sp2, sp3, sp4, sp5, sp6, sp7, sp8, sp9⟩ :=
      child_spans (k + 2) r (by omega) hk hr
    simp only [addSubRed1, addSubRed2] at sp1 sp2 sp4 sp5 sp6 sp7 sp8
    unfold RebalanceSingleHeap
    dsimp only
    split_ifs with hA hB hC
    · -- second child is larger and the root is smaller: swap down to it
      set sc := SecondChild r with hscdef
      set a1 := aswap a r sc with ha1
      have hszsc : sc < a.size := by omega
      have e2 : aget a1 r = aget a sc := aget_aswap_fst a r sc hsz
      have e1 : aget a1 sc = aget a r := aget_aswap_snd a r sc hszsc
      have eo : ∀ i, i ≠ r → i ≠ sc → aget a1 i = aget a i := fun i h1 h2 =>
        aget_aswap_other a r sc i h1 h2
      have hLsc : L k ≤ sc + 1 := by omega
      have hsub1 : 2 ≤ k → IsHeap a1 (k - 1) (FirstChild sc k) := by
        intro h2k
        obtain ⟨cs1, cs2, cs3, cs4, cs5, cs6, cs7, cs8, cs9⟩ :=
          child_spans k sc h2k (by omega) hLsc
        refine isHeap_congr a a1 (k - 1) (FirstChild sc k) (by omega) cs1 ?_
          (isHeap_children_first a hsc' h2k)
        intro i hi1 hi2
        exact eo i (by omega) (by omega)
      have hsub2 : 2 ≤ k → IsHeap a1 (k - 2) (SecondChild sc) := by
        intro h2k
        obtain ⟨cs1, cs2, cs3, cs4, cs5, cs6, cs7, cs8, cs9⟩ :=
          child_spans k sc h2k (by omega) hLsc
        refine isHeap_congr a a1 (k - 2) (SecondChild sc) (by omega) cs4 ?_
          (isHeap_children_second a hsc' h2k)
        intro i hi1 hi2
        exact eo i (by omega) (by omega)
      have hrecH := rebalance_isHeap a1 k sc (by omega) hLsc
        (by rw [ha1, size_aswap]; omega) hsub1 hsub2
      have hout : ∀ i, (i + L k ≤ sc ∨ sc < i) →
          aget (RebalanceSingleHeap a1 sc k) i = aget a1 i := fun i h =>
        rebalance_outside a1 k sc i (by omega) hLsc h
      have eroot : aget (RebalanceSingleHeap a1 sc k) r = aget a sc := by
        rw [hout r (Or.inr (by omega))]; exact e2
      refine isHeap_build _ (by omega) ?_ ?_ ?_ ?_
      · show aget (RebalanceSingleHeap a1 sc k) (SecondChild r) ≤ _
        rw [← hscdef, eroot, rebalance_root a1 k sc (by omega) hLsc
          (by rw [ha1, size_aswap]; omega)]
        refine maxTop_le a1 k sc _ ?_ ?_ ?_
        · rw [e1]; exact le_of_lt hB
        · intro h2k
          obtain ⟨cs1, cs2, cs3, cs4, cs5, cs6, cs7, cs8, cs9⟩ :=
            child_spans k sc h2k (by omega) hLsc
          rw [eo (FirstChild sc k) (by omega) (by omega)]
          exact isHeap_root_first a hsc' h2k
        · intro h2k
          obtain ⟨cs1, cs2, cs3, cs4, cs5, cs6, cs7, cs8, cs9⟩ :=
            child_spans k sc h2k (by omega) hLsc
          rw [eo (SecondChild sc) (by omega) (by omega)]
          exact isHeap_root_second a hsc' h2k
      · show aget (RebalanceSingleHeap a1 sc k) (FirstChild r (k + 2)) ≤ _
        rw [eroot, hout (FirstChild r (k + 2)) (Or.inl (by omega)),
          eo (FirstChild r (k + 2)) (by omega) (by omega)]
        exact le_of_lt hA
      · show IsHeap _ (k + 2 - 2) (SecondChild r)
        simpa only [addSubRed2, ← hscdef] using hrecH
      · show IsHeap _ (k + 2 - 1) (FirstChild r (k + 2))
        simp only [addSubRed1]
        refine isHeap_congr a _ (k + 1) (FirstChild r (k + 2)) (by omega)
          (by omega) ?_ hfc'
        intro i hi1 hi2
        rw [hout i (Or.inl (by omega)), eo i (by omega) (by omega)]
    · -- second child is larger but the root already dominates
      exact isHeap_build _ (by omega) (le_of_not_lt hB)
        (le_trans (le_of_lt hA) (le_of_not_lt hB)) hsc' hfc'
    · -- first child is larger and the root is smaller: swap down to it
      set fc := FirstChild r (k + 2) with hfcdef
      set a1 := aswap a r fc with ha1
      have hszfc : fc < a.size := by omega
      have e2 : aget a1 r = aget a fc := aget_aswap_fst a r fc hsz
      have e1 : aget a1 fc = aget a r := aget_aswap_snd a r fc hszfc
      have eo : ∀ i, i ≠ r → i ≠ fc → aget a1 i = aget a i := fun i h1 h2 =>
        aget_aswap_other a r fc i h1 h2
      have hLfc : L (k + 1) ≤ fc + 1 := by omega
      have hsub1 : 2 ≤ k + 1 → IsHeap a1 (k + 1 - 1) (FirstChild fc (k + 1)) := by
        intro h2k
        obtain ⟨cs1, cs2, cs3, cs4, cs5, cs6, cs7, cs8, cs9⟩ :=
          child_spans (k + 1) fc h2k (by omega) hLfc
        refine isHeap_congr a a1 (k + 1 - 1) (FirstChild fc (k + 1)) (by omega) cs1 ?_
          (isHeap_children_first a hfc' h2k)
        intro i hi1 hi2
        exact eo i (by omega) (by omega)
      have hsub2 : 2 ≤ k + 1 → IsHeap a1 (k + 1 - 2) (SecondChild fc) := by
        intro h2k
        obtain ⟨cs1, cs2, cs3, cs4, cs5, cs6, cs7, cs8, cs9⟩ :=
          child_spans (k + 1) fc h2k (by omega) hLfc
        refine isHeap_congr a a1 (k + 1 - 2) (SecondChild fc) (by omega) cs4 ?_
          (isHeap_children_second a hfc' h2k)
        intro i hi1 hi2
        exact eo i (by omega) (by omega)
      have hrecH := rebalance_isHeap a1 (k + 1) fc (by omega) hLfc
        (by rw [ha1, size_aswap]; omega) hsub1 hsub2
      have hout : ∀ i, (i + L (k + 1) ≤ fc ∨ fc < i) →
          aget (RebalanceSingleHeap a1 fc (k + 1)) i = aget a1 i := fun i h =>
        rebalance_outside a1 (k + 1) fc i (by omega) hLfc h
      have eroot : aget (RebalanceSingleHeap a1 fc (k + 1)) r = aget a fc := by
        rw [hout r (Or.inr (by omega))]; exact e2
      refine isHeap_build _ (by omega) ?_ ?_ ?_ ?_
      · show aget (RebalanceSingleHeap a1 fc (k + 1)) (SecondChild r) ≤ _
        rw [eroot, hout (SecondChild r) (Or.inr (by omega)),
          eo (SecondChild r) (by omega) (by omega)]
        exact le_of_not_lt hA
      · show aget (RebalanceSingleHeap a1 fc (k + 1)) (FirstChild r (k + 2)) ≤ _
        rw [← hfcdef, eroot, rebalance_root a1 (k + 1) fc (by omega) hLfc
          (by rw [ha1, size_aswap]; omega)]
        refine maxTop_le a1 (k + 1) fc _ ?_ ?_ ?_
        · rw [e1]; exact le_of_lt hC
        · intro h2k
          obtain ⟨cs1, cs2, cs3, cs4, cs5, cs6, cs7, cs8, cs9⟩ :=
            child_spans (k + 1) fc h2k (by omega) hLfc
          rw [eo (FirstChild fc (k + 1)) (by omega) (by omega)]
          exact isHeap_root_first a hfc' h2k
        · intro h2k
          obtain ⟨cs1, cs2, cs3, cs4, cs5, cs6, cs7, cs8, cs9⟩ :=
            child_spans (k + 1) fc h2k (by omega) hLfc
          rw [eo (SecondChild fc) (by omega) (by omega)]
          exact isHeap_root_second a hfc' h2k
      · show IsHeap _ (k + 2 - 2) (SecondChild r)
        simp only [addSubRed2]
        refine isHeap_congr a _ k (SecondChild r) (by omega) (by omega) ?_ hsc'
        intro i hi1 hi2
        rw [hout i (Or.inr (by omega)), eo i (by omega) (by omega)]
      · show IsHeap _ (k + 2 - 1) (FirstChild r (k + 2))
        simpa only [addSubRed1, ← hfcdef] using hrecH
    · -- neither child beats the root
      exact isHeap_build _ (by omega) (le_trans (le_of_not_lt hA) (le_of_not_lt hC))
        (le_of_not_lt hC) hsc' hfc'

/-- C6: if both children subtrees of the given root were valid max-heaps
before the call (only the root's value possibly out of place), then on
return from `RebalanceSingleHeap` the subtree rooted at the original
position is a valid max-heap of its order.  The bubble-down loop in the
definition descends to the larger child (order k-2 for the second child,
k-1 for the first) and stops as soon as the current root's value is at
least the larger child's value.  The order bound keeps the walk inside
the Leonardo table and the position bounds keep the tree inside the
array. -/
theorem claim_C6 {β : Type} [LinearOrder β] [Inhabited β] (a : Array β)
    (k r : Nat) (hk : k ≤ 45) (hr : L k ≤ r + 1) (hsz : r < a.size)
    (hfc : 2 ≤ k → IsHeap a (k - 1) (FirstChild r k))
    (hsc : 2 ≤ k → IsHeap a (k - 2) (SecondChild r)) :
    IsHeap (RebalanceSingleHeap a r k) k r :=
  rebalance_isHeap a k r hk hr hsz hfc hsc

/-- C6 (witness): the order-2 tree `[1, 2, 0]` with out-of-place root 0
is rebalanced into a valid max-heap. -/
theorem claim_C6_witness :
    (2 : Nat) ≤ 45 ∧ L 2 ≤ 2 + 1 ∧ 2 < (#[1, 2, 0] : Array Nat).size ∧
    IsHeap (RebalanceSingleHeap (#[1, 2, 0] : Array Nat) 2 2) 2 2 :=
  ⟨by decide, by decide, by decide,
    claim_C6 (#[1, 2, 0] : Array Nat) 2 2 (by decide) (by decide) (by decide)
      (fun _ => by decide) (fun _ => by decide)⟩

/-- Modelled from the words of claim C4: the leftward walk with the stop
rule exactly as the claim states it - the comparison value is the current
root or, for orders above 1, the larger of the root and its larger child,
whichever is bigger; the walk stops unconditionally at the leftmost tree,
and otherwise stops when the next tree's root to the left is NOT SMALLER
than the comparison value, else exchanges the element into the prior
root's position and continues; finally the tree where the walk stopped is
rebalanced. -/
def LeonardoHeapRectifyClaimAux (b : Nat) :
    Nat → Array α → Nat → Nat → Nat → Option (Array α)
  | 0, _, _, _, _ => none
  | fuel + 1, a, itr, trees, size =>
    if itr - b = L size - 1 then some (RebalanceSingleHeap a itr size)
    else
      let v :=
        if 1 < size then
          max (aget a itr) (aget a (LargerChild a itr size))
        else aget a itr
      let prior := itr - L size
      if v ≤ aget a prior then some (RebalanceSingleHeap a itr size)
      else
        match nextTree trees size with
        | none => none
        | some (t, s) =>
          LeonardoHeapRectifyClaimAux b fuel (aswap a itr prior) prior t s

/-- The walk of claim C4, packaged like `LeonardoHeapRectify`. -/
def LeonardoHeapRectifyClaim (a : Array α) (b e : Nat) (shape : HeapShape) :
    Option (Array α) :=
  LeonardoHeapRectifyClaimAux b e a (e - 1) shape.trees shape.smallestTreeSize

/-- Modelled from the words of claim C4 with only the stop rule amended:
the walk stops when the next tree's root to the left is NOT GREATER than
the comparison value, else exchanges and continues. -/
def LeonardoHeapRectifySpecAux (b : Nat) :
    Nat → Array α → Nat → Nat → Nat → Option (Array α)
  | 0, _, _, _, _ => none
  | fuel + 1, a, itr, trees, size =>
    if itr - b = L size - 1 then some (RebalanceSingleHeap a itr size)
    else
      let v :=
        if 1 < size then
          max (aget a itr) (aget a (LargerChild a itr size))
        else aget a itr
      let prior := itr - L size
      if aget a prior ≤ v then some (RebalanceSingleHeap a itr size)
      else
        match nextTree trees size with
        | none => none
        | some (t, s) =>
          LeonardoHeapRectifySpecAux b fuel (aswap a itr prior) prior t s

/-- The amended walk, packaged like `LeonardoHeapRectify`. -/
def LeonardoHeapRectifySpec (a : Array α) (b e : Nat) (shape : HeapShape) :
    Option (Array α) :=
  LeonardoHeapRectifySpecAux b e a (e - 1) shape.trees shape.smallestTreeSize

/-- C4 (counterexample): on the two-tree heap `[5, 1]` (an order-1 tree
rooted at 0 and an order-0 tree rooted at 1), the source walk exchanges
and produces `[1, 5]`, while the walk described by the claim - which
stops because the prior root 5 is not smaller than the comparison value
1 - leaves `[5, 1]`; so the claim's stop rule is the reverse of the
code's. -/
theorem claim_C4_counterexample :
    LeonardoHeapRectify (#[5, 1] : Array Nat) 0 2 ⟨3, 0⟩ = some #[1, 5] ∧
    LeonardoHeapRectifyClaim (#[5, 1] : Array Nat) 0 2 ⟨3, 0⟩ = some #[5, 1] ∧
    LeonardoHeapRectify (#[5, 1] : Array Nat) 0 2 ⟨3, 0⟩ ≠
      LeonardoHeapRectifyClaim (#[5, 1] : Array Nat) 0 2 ⟨3, 0⟩ := by
  refine ⟨by decide, by decide, by decide⟩

theorem rectifyAux_eq_specAux (b : Nat) : ∀ (fuel : Nat) (a : Array α)
    (itr trees size : Nat),
    LeonardoHeapRectifyAux b fuel a itr trees size =
      LeonardoHeapRectifySpecAux b fuel a itr trees size
  | 0, _, _, _, _ => rfl
  | fuel + 1, a, itr, trees, size => by
    unfold LeonardoHeapRectifyAux LeonardoHeapRectifySpecAux
    dsimp only
    by_cases hstop : itr - b = L size - 1
    · rw [if_pos hstop, if_pos hstop]
    · rw [if_neg hstop, if_neg hstop]
      have hv : aget a (if size > 1 then
          (if aget a itr < aget a (LargerChild a itr size)
            then LargerChild a itr size else itr) else itr) =
          (if 1 < size then
            max (aget a itr) (aget a (LargerChild a itr size))
          else aget a itr) := by
        split_ifs with h1 h2
        · rw [max_eq_right (le_of_lt h2)]
        · rw [max_eq_left (le_of_not_lt h2)]
        · rfl
      rw [hv]
      rcases le_or_lt (aget a (itr - L size))
          (if 1 < size then
            max (aget a itr) (aget a (LargerChild a itr size))
          else aget a itr) with hle | hgt
      · rw [if_neg (not_lt_of_le hle), if_pos hle]
      · rw [if_pos hgt, if_neg (not_le_of_lt hgt)]
        cases nextTree trees size with
        | none => rfl
        | some ts =>
          exact rectifyAux_eq_specAux b fuel (aswap a itr (itr - L size))
            (itr - L size) ts.1 ts.2

/-- C4 (amended): `LeonardoHeapRectify` walks leftward tree-by-tree from
the rightmost tree's root; at each step the comparison value is the
current tree's root or, when that tree's order exceeds 1, the larger of
the root and its larger child, whichever is bigger; it stops
unconditionally upon reaching the leftmost tree, stops when the next
tree's root to the left is NOT GREATER than the comparison value,
otherwise exchanges the element into the prior root's position and
continues; finally it rebalances the tree in which the walk stopped.
This is the claim with only the stop-rule direction corrected, and it
holds for every input. -/
theorem claim_C4 {β : Type} [LinearOrder β] [Inhabited β] (a : Array β)
    (b e : Nat) (shape : HeapShape) :
    LeonardoHeapRectify a b e shape = LeonardoHeapRectifySpec a b e shape :=
  rectifyAux_eq_specAux b e a (e - 1) shape.trees shape.smallestTreeSize

/-- The bitvector encoding of a list of tree orders relative to the base
order `k`: the sum of `2 ^ (o - k)` over the orders. -/
def bitsOf (k : Nat) (os : List Nat) : Nat :=
  (os.map (fun o => 2 ^ (o - k))).sum

/-- A `HeapShape` represents a left-packed forest with the ascending
list `os` of tree orders (rightmost, i.e. smallest, first): the bitvector
encodes exactly those orders relative to the smallest tree size, and a nonempty forest starts at the
smallest tree size (bit 0 set), as the source maintains. -/
def RepShape (s : HeapShape) (os : List Nat) : Prop :=
  s.trees = bitsOf s.smallestTreeSize os ∧
  List.Chain' (· < ·) os ∧
  (∀ o ∈ os, s.smallestTreeSize ≤ o) ∧
  (os = [] ∨ os.head? = some s.smallestTreeSize)

instance (s : HeapShape) (os : List Nat) : Decidable (RepShape s os) :=
  inferInstanceAs (Decidable (_ ∧ _ ∧ _ ∧ _))

theorem bitsOf_nil (k : Nat) : bitsOf k [] = 0 := rfl

theorem bitsOf_cons (k o : Nat) (os : List Nat) :
    bitsOf k (o :: os) = 2 ^ (o - k) + bitsOf k os := rfl

theorem bitsOf_factor (j k : Nat) (hjk : k ≤ j) : ∀ (os : List Nat),
    (∀ x ∈ os, j ≤ x) → bitsOf k os = 2 ^ (j - k) * bitsOf j os
  | [] => fun _ => by simp [bitsOf_nil]
  | o :: os => fun h => by
    rw [bitsOf_cons, bitsOf_cons, Nat.mul_add,
      bitsOf_factor j k hjk os (fun x hx => h x (List.mem_cons_of_mem _ hx)),
      ← Nat.pow_add]
    have ho := h o (List.mem_cons_self o os)
    congr 2
    omega

theorem bitsOf_shift (k : Nat) (os : List Nat) (h : ∀ x ∈ os, k + 1 ≤ x) :
    bitsOf k os = 2 * bitsOf (k + 1) os := by
  rw [bitsOf_factor (k + 1) k (by omega) os h]
  norm_num

theorem bitsOf_head (k : Nat) (os : List Nat) (h : ∀ x ∈ os, k + 1 ≤ x) :
    bitsOf k (k :: os) = 2 * bitsOf (k + 1) os + 1 := by
  rw [bitsOf_cons, bitsOf_shift k os h, Nat.sub_self]
  omega

theorem chain_lt_head {o : Nat} {os : List Nat}
    (h : List.Chain' (· < ·) (o :: os)) : ∀ x ∈ os, o < x := by
  have hp := List.chain'_iff_pairwise.mp h
  exact fun x hx => (List.pairwise_cons.mp hp).1 x hx

theorem bitsOf_lt (k : Nat) : ∀ (os : List Nat), List.Chain' (· < ·) os →
    (∀ o ∈ os, k ≤ o ∧ o ≤ 45) → bitsOf k os < 2 ^ (46 - k)
  | [] => fun _ _ => by
    simp only [bitsOf_nil]
    exact Nat.pos_pow_of_pos _ (by omega)
  | o :: os => fun hch h => by
    have ho := h o (List.mem_cons_self o os)
    have hrest : ∀ x ∈ os, o + 1 ≤ x := fun x hx => chain_lt_head hch x hx
    have hB : bitsOf (o + 1) os < 2 ^ (45 - o) := by
      have := bitsOf_lt (o + 1) os (List.Chain'.tail hch)
        (fun x hx => ⟨hrest x hx, (h x (List.mem_cons_of_mem _ hx)).2⟩)
      rw [show 46 - (o + 1) = 45 - o by omega] at this
      exact this
    rw [bitsOf_cons, bitsOf_factor (o + 1) k (by omega) os hrest]
    have e2 : 2 ^ (o + 1 - k) = 2 ^ (o - k) * 2 := by
      rw [← Nat.pow_succ]
      congr 1
      omega
    have e3 : 2 ^ (o + 1 - k) * 2 ^ (45 - o) = 2 ^ (46 - k) := by
      rw [← Nat.pow_add]
      congr 1
      omega
    have hmul : 2 ^ (o + 1 - k) * (bitsOf (o + 1) os + 1) ≤
        2 ^ (o + 1 - k) * 2 ^ (45 - o) := Nat.mul_le_mul_left _ (by omega)
    rw [Nat.mul_add, Nat.mul_one, e3] at hmul
    have hx1 : 1 ≤ 2 ^ (o - k) := Nat.pos_pow_of_pos _ (by omega)
    omega

/-- Modelled from the words of claim C5 (and spec section 4.5): the four
forest-reshaping cases on the ascending list of tree orders, checked in
the claim's priority order - empty forest gives a tree of order 1; two
smallest trees of adjacent orders merge into one of order two higher;
a smallest tree of order 1 gets an order-0 singleton appended; otherwise
an order-1 singleton is appended. -/
def addOrders : List Nat → List Nat
  | [] => [1]
  | [k0] => if k0 = 1 then [0, k0] else [1, k0]
  | k0 :: k1 :: rest =>
    if k1 = k0 + 1 then (k0 + 2) :: rest
    else if k0 = 1 then 0 :: k0 :: k1 :: rest
    else 1 :: k0 :: k1 :: rest

theorem rep_parity (s : HeapShape) (os : List Nat) (h : RepShape s os) :
    (os = [] ∧ s.trees = 0) ∨
    (os.head? = some s.smallestTreeSize ∧
      s.trees = 2 * bitsOf (s.smallestTreeSize + 1) os.tail + 1) := by
  obtain ⟨h1, h2, h3, h4⟩ := h
  rcases h4 with h4 | h4
  · subst h4
    exact Or.inl ⟨rfl, h1⟩
  · right
    refine ⟨h4, ?_⟩
    match os, h4 with
    | k :: rest, h4 =>
      have hk : k = s.smallestTreeSize := by simpa using h4
      subst hk
      rw [h1, List.tail_cons]
      exact bitsOf_head _ rest (fun x hx => chain_lt_head h2 x hx)

theorem rep_test0 (s : HeapShape) (os : List Nat) (h : RepShape s os) :
    bsTest s.trees 0 = (os ≠ [] : Bool) := by
  rcases rep_parity s os h with ⟨h1, h2⟩ | ⟨h1, h2⟩
  · subst h1
    simp [h2, bsTest]
  · have : os ≠ [] := by
      intro hh
      rw [hh] at h1
      simp at h1
    simp [h2, bsTest, this]
    omega

theorem rep_test1 (s : HeapShape) (os : List Nat) (h : RepShape s os) :
    bsTest s.trees 1 =
      (os.tail.head? = some (s.smallestTreeSize + 1) : Bool) := by
  have h2ch := h.2.1
  rcases rep_parity s os h with ⟨h1, h2⟩ | ⟨h1, h2⟩
  · subst h1
    simp [h2, bsTest]
  · match os, h1 with
    | k :: rest, h1 =>
      have hk : k = s.smallestTreeSize := by simpa using h1
      subst hk
      rw [List.tail_cons] at h2 ⊢
      rcases rest with _ | ⟨r1, rest2⟩
      · simp [h2, bsTest, bitsOf_nil]
      · have hr1 : s.smallestTreeSize + 1 ≤ r1 :=
          chain_lt_head h2ch r1 (List.mem_cons_self _ _)
        rcases Nat.eq_or_lt_of_le hr1 with he | hlt
        · -- bit 1 is set: the second order is adjacent
          have : bitsOf (s.smallestTreeSize + 1) (r1 :: rest2) =
              2 * bitsOf (s.smallestTreeSize + 2) rest2 + 1 := by
            rw [← he]
            exact bitsOf_head _ rest2
              (fun x hx => by
                have := chain_lt_head (List.Chain'.tail h2ch) x hx
                omega)
          rw [h2, this]
          simp [bsTest, ← he]
          omega
        · -- bit 1 is clear: the second order is at least two higher
          have : bitsOf (s.smallestTreeSize + 1) (r1 :: rest2) =
              2 * bitsOf (s.smallestTreeSize + 2) (r1 :: rest2) := by
            refine bitsOf_shift _ _ ?_
            intro x hx
            rcases List.mem_cons.mp hx with rfl | hx2
            · omega
            · have := chain_lt_head (List.Chain'.tail h2ch) x hx2
              omega
          rw [h2, this]
          have : r1 ≠ s.smallestTreeSize + 1 := by omega
          simp [bsTest, this]
          omega

theorem bsSet0_even (b : Nat) (h : b % 2 = 0) : bsSet0 b = b + 1 := by
  unfold bsSet0
  omega

theorem addOrders_nonadj (k : Nat) (rest : List Nat)
    (h : rest.head? ≠ some (k + 1)) :
    addOrders (k :: rest) = (if k = 1 then 0 else 1) :: k :: rest := by
  rcases rest with _ | ⟨r1, rest2⟩
  · simp only [addOrders]
    split_ifs <;> rfl
  · have : r1 ≠ k + 1 := by
      intro hh
      exact h (by simp [hh])
    simp only [addOrders, if_neg this]
    split_ifs <;> rfl

theorem addOrders_adj (k : Nat) (rest2 : List Nat) :
    addOrders (k :: (k + 1) :: rest2) = (k + 2) :: rest2 := by
  simp [addOrders]

theorem addShape_rep (s : HeapShape) (os : List Nat) (h : RepShape s os)
    (hb : ∀ o ∈ os, o ≤ 45)
    (hgap : List.Chain' (fun a b => a + 2 ≤ b) os.tail)
    (h0 : os.head? = some 0 → os.tail.head? = some 1) :
    RepShape (addShape s) (addOrders os) := by
  obtain ⟨t, m⟩ := s
  have hrep := h
  obtain ⟨c1, c2, c3, c4⟩ := h
  simp only at c1 c3 c4 hgap h0 ⊢
  unfold addShape
  rw [rep_test0 _ os hrep, rep_test1 _ os hrep]
  simp only
  rcases os with _ | ⟨k, rest⟩
  · -- empty forest: a new tree of order 1
    rw [if_pos (by simp)]
    have ht : t = 0 := by simpa [bitsOf_nil] using c1
    refine ⟨?_, ?_, ?_, ?_⟩ <;>
      simp [addOrders, ht, bsSet0, bitsOf_cons, bitsOf_nil]
  · have hk : k = m := by
      rcases c4 with c4 | c4
      · simp at c4
      · simpa using c4
    subst hk
    rw [if_neg (by simp)]
    simp only [List.tail_cons] at hgap ⊢
    have hrestlb : ∀ x ∈ rest, k + 1 ≤ x := fun x hx => chain_lt_head c2 x hx
    by_cases hadj : rest.head? = some (k + 1)
    · -- the two smallest orders are adjacent: merge them
      match rest, hadj with
      | r1 :: rest2, hadj =>
        have hr1 : r1 = k + 1 := by simpa using hadj
        subst hr1
        rw [if_pos (by simp), addOrders_adj]
        have hgap2 : ∀ x ∈ rest2, k + 3 ≤ x := by
          rcases rest2 with _ | ⟨r2, rest3⟩
          · intro x hx
            simp at hx
          · have hr2 : k + 1 + 2 ≤ r2 := (List.chain'_cons.mp hgap).1
            intro x hx
            rcases List.mem_cons.mp hx with rfl | hx3
            · omega
            · have hch : List.Chain' (· < ·) (r2 :: rest3) :=
                List.Chain'.tail (List.Chain'.tail c2)
              have := chain_lt_head hch x hx3
              omega
        have hB : t = 4 * bitsOf (k + 2) rest2 + 3 := by
          rw [c1, bitsOf_head k ((k + 1) :: rest2) (by
              intro x hx
              rcases List.mem_cons.mp hx with rfl | hx2
              · omega
              · have := hgap2 x hx2; omega),
            bitsOf_head (k + 1) rest2 (by
              intro x hx
              have := hgap2 x hx
              omega)]
          have he : bitsOf (k + 1 + 1) rest2 = bitsOf (k + 2) rest2 := rfl
          omega
        have hshift : bitsOf (k + 2) rest2 = 2 * bitsOf (k + 3) rest2 := by
          have := bitsOf_shift (k + 2) rest2 (fun x hx => by have := hgap2 x hx; omega)
          have he : bitsOf (k + 2 + 1) rest2 = bitsOf (k + 3) rest2 := rfl
          omega
        refine ⟨?_, ?_, ?_, ?_⟩
        · show bsSet0 (t / 4) = bitsOf (k + 2) ((k + 2) :: rest2)
          rw [hB, bitsOf_head (k + 2) rest2 (by
              intro x hx
              have := hgap2 x hx
              omega)]
          have h4 : (4 * bitsOf (k + 2) rest2 + 3) / 4 = bitsOf (k + 2) rest2 := by
            omega
          rw [h4, bsSet0_even _ (by omega)]
          have he2 : bitsOf (k + 2 + 1) rest2 = bitsOf (k + 3) rest2 := rfl
          omega
        · refine List.chain'_cons'.mpr ⟨?_, List.Chain'.tail (List.Chain'.tail c2)⟩
          intro y hy
          rcases rest2 with _ | ⟨r2, rest3⟩
          · simp at hy
          · have := hgap2 r2 (List.mem_cons_self _ _)
            simp at hy
            omega
        · show ∀ o ∈ (k + 2) :: rest2, k + 2 ≤ o
          intro o ho
          rcases List.mem_cons.mp ho with rfl | ho2
          · omega
          · have := hgap2 o ho2
            omega
        · simp
    · -- not adjacent: append a singleton of order 0 or 1
      rw [if_neg (by simp [hadj]), addOrders_nonadj k rest hadj]
      have hanylb : ∀ x ∈ k :: rest, k ≤ x := c3
      by_cases hk1 : k = 1
      · subst hk1
        rw [if_pos rfl, if_pos rfl]
        have hall1 : ∀ x ∈ (1 : Nat) :: rest, 1 ≤ x := by
          intro x hx
          rcases List.mem_cons.mp hx with rfl | hx2
          · omega
          · have := hrestlb x hx2; omega
        have hlt : bitsOf 1 (1 :: rest) < 2 ^ 45 := by
          have := bitsOf_lt 1 (1 :: rest) c2
            (fun o ho => ⟨hall1 o ho, hb o ho⟩)
          simpa using this
        have hsh : bitsOf 0 (1 :: rest) = 2 * bitsOf 1 (1 :: rest) := by
          have := bitsOf_shift 0 (1 :: rest) hall1
          have he : bitsOf (0 + 1) (1 :: rest) = bitsOf 1 (1 :: rest) := rfl
          omega
        have hshl : bsShl t 1 = bitsOf 0 (1 :: rest) := by
          unfold bsShl
          rw [c1, Nat.mod_eq_of_lt (by omega), hsh]
          omega
        refine ⟨?_, ?_, ?_, ?_⟩
        · show bsSet0 (bsShl t 1) = bitsOf 0 (0 :: 1 :: rest)
          rw [hshl, bsSet0_even _ (by omega),
            bitsOf_head 0 (1 :: rest) hall1]
          have he : bitsOf (0 + 1) (1 :: rest) = bitsOf 1 (1 :: rest) := rfl
          omega
        · exact List.chain'_cons.mpr ⟨by simp, c2⟩
        · show ∀ o ∈ (0 : Nat) :: 1 :: rest, 0 ≤ o
          intro o _
          omega
        · simp
      · rw [if_neg hk1, if_neg hk1]
        have hk2 : 2 ≤ k := by
          rcases Nat.lt_or_ge k 2 with hlt | hge
          · interval_cases k
            · exact absurd (by simpa using h0 (by simp)) hadj
            · exact absurd rfl hk1
          · exact hge
        have hall1 : ∀ x ∈ k :: rest, 1 ≤ x := by
          intro x hx
          rcases List.mem_cons.mp hx with rfl | hx2
          · omega
          · have := hrestlb x hx2; omega
        have hfac : bitsOf 1 (k :: rest) = 2 ^ (k - 1) * bitsOf k (k :: rest) := by
          refine bitsOf_factor k 1 (by omega) _ ?_
          intro x hx
          rcases List.mem_cons.mp hx with rfl | hx2
          · omega
          · have := hrestlb x hx2; omega
        have hlt : bitsOf 1 (k :: rest) < 2 ^ 45 := by
          have := bitsOf_lt 1 (k :: rest) c2
            (fun o ho => ⟨hall1 o ho, hb o ho⟩)
          simpa using this
        have hsh : bitsOf 1 (k :: rest) = 2 * bitsOf 2 (k :: rest) := by
          have := bitsOf_shift 1 (k :: rest) (by
            intro x hx
            rcases List.mem_cons.mp hx with rfl | hx2
            · omega
            · have := hrestlb x hx2; omega)
          have he : bitsOf (1 + 1) (k :: rest) = bitsOf 2 (k :: rest) := rfl
          omega
        have hshl : bsShl t (k - 1) = bitsOf 1 (k :: rest) := by
          unfold bsShl
          rw [c1, Nat.mul_comm (bitsOf k (k :: rest)) (2 ^ (k - 1)), ← hfac]
          exact Nat.mod_eq_of_lt (by omega)
        refine ⟨?_, ?_, ?_, ?_⟩
        · show bsSet0 (bsShl t (k - 1)) = bitsOf 1 (1 :: k :: rest)
          rw [hshl, bsSet0_even _ (by omega),
            bitsOf_head 1 (k :: rest) (by
              intro x hx
              rcases List.mem_cons.mp hx with rfl | hx2
              · omega
              · have := hrestlb x hx2; omega)]
          have he : bitsOf (1 + 1) (k :: rest) = bitsOf 2 (k :: rest) := rfl
          omega
        · exact List.chain'_cons.mpr ⟨by simpa using hk2, c2⟩
        · show ∀ o ∈ (1 : Nat) :: k :: rest, 1 ≤ o
          intro o ho
          rcases List.mem_cons.mp ho with rfl | ho2
          · omega
          · exact hall1 o ho2
        · simp

/-- The source's `isLast` criterion expressed on the ascending order
list: the remaining-element count below which `isLast` holds.  One
element suffices for a rightmost order-0 tree (it merges with the
order-1 tree beside it) and for an order-1 tree with an adjacent order-2
neighbour; otherwise an order-1 tree needs two (an order-0 singleton
must appear first); and for a rightmost tree of order `k` at least 2 the
source demands room for an order-(k - 1) sibling plus one element,
`L (k - 1) + 1`, IGNORING any adjacent order-(k + 1) left neighbour -
only the order-1 case of the `switch` consults the neighbour.  Claim
C5's own criterion, which counts the adjacent route for every order, is
`claimNeed` below; the two differ exactly on a rightmost tree of order
at least 2 with an adjacent neighbour. -/
def mergeNeed (os1 : List Nat) : Nat :=
  match os1 with
  | [] => 1
  | k :: rest =>
    match k with
    | 0 => 1
    | 1 => if rest.head? = some 2 then 1 else 2
    | _ => L (k - 1) + 1

/-- The source's finality test on the order list: fewer remaining
unprocessed elements than `mergeNeed`. -/
def addIsFinalSpec (os1 : List Nat) (e heapEnd : Nat) : Prop :=
  heapEnd - (e + 1) < mergeNeed os1

instance (os1 : List Nat) (e heapEnd : Nat) :
    Decidable (addIsFinalSpec os1 e heapEnd) :=
  inferInstanceAs (Decidable (_ < _))

/-- Modelled from the words of claim C5 alone: the number of further
elements needed before the new or merged rightmost tree could take part
in the next possible merge, where - by the claim's own case (2) - a
merge fires as soon as the two smallest orders are adjacent.  A
rightmost tree of order `k` whose left neighbour has order `k + 1` is
therefore merged by the very next insert and needs one element
regardless of `k`; without such a neighbour an order-1 tree needs two
elements and an order-`k` tree (`k` at least 2) needs an order-(k - 1)
sibling plus one element. -/
def claimNeed (os1 : List Nat) : Nat :=
  match os1 with
  | [] => 1
  | k :: rest =>
    if rest.head? = some (k + 1) then 1
    else
      match k with
      | 0 => 1
      | 1 => 2
      | _ => L (k - 1) + 1

/-- The claim's literal finality criterion: fewer remaining unprocessed
elements than the next possible merge needs (`claimNeed`). -/
def addIsFinalClaim (os1 : List Nat) (e heapEnd : Nat) : Prop :=
  heapEnd - (e + 1) < claimNeed os1

instance (os1 : List Nat) (e heapEnd : Nat) :
    Decidable (addIsFinalClaim os1 e heapEnd) :=
  inferInstanceAs (Decidable (_ < _))

theorem addOrders_ne_nil (os : List Nat) : addOrders os ≠ [] := by
  rcases os with _ | ⟨k0, _ | ⟨k1, rest⟩⟩ <;> simp [addOrders] <;> split_ifs <;> simp

theorem addIsLast_iff_spec (s1 : HeapShape) (os1 : List Nat)
    (h : RepShape s1 os1) (hne : os1 ≠ []) (e heapEnd : Nat)
    (he : e < heapEnd) :
    addIsLast s1 e heapEnd = true ↔ addIsFinalSpec os1 e heapEnd := by
  have hrep := h
  obtain ⟨c1, c2, c3, c4⟩ := h
  rcases c4 with c4 | c4
  · exact absurd c4 hne
  · match os1, c4, hrep with
    | k :: rest, c4, hrep =>
      have hk : k = s1.smallestTreeSize := by simpa using c4
      have ht1 := rep_test1 s1 (k :: rest) hrep
      rw [List.tail_cons] at ht1
      unfold addIsLast addIsFinalSpec mergeNeed
      rw [← hk] at ht1 ⊢
      rcases k with _ | _ | n
      · simp only
        constructor
        · intro hh
          have : e + 1 = heapEnd := by simpa using hh
          omega
        · intro hh
          have : e + 1 = heapEnd := by omega
          simpa using this
      · simp only
        rw [ht1]
        by_cases hr2 : rest.head? = some 2
        · rw [if_pos hr2]
          simp only [show (1 : Nat) + 1 = 2 from rfl, hr2]
          constructor
          · intro hh
            rcases Bool.or_eq_true_iff.mp hh with h1 | h1
            · have : e + 1 = heapEnd := by simpa using h1
              omega
            · simp at h1
          · intro hh
            have : e + 1 = heapEnd := by omega
            apply Bool.or_eq_true_iff.mpr
            exact Or.inl (by simpa using this)
        · rw [if_neg hr2]
          simp only [show (1 : Nat) + 1 = 2 from rfl, hr2]
          constructor
          · intro hh
            rcases Bool.or_eq_true_iff.mp hh with h1 | h1
            · have : e + 1 = heapEnd := by simpa using h1
              omega
            · rcases Bool.and_eq_true_iff.mp h1 with ⟨h2, _⟩
              have : e + 2 = heapEnd := by simpa using h2
              omega
          · intro hh
            have : e + 1 = heapEnd ∨ e + 2 = heapEnd := by omega
            apply Bool.or_eq_true_iff.mpr
            rcases this with h1 | h1
            · exact Or.inl (by simpa using h1)
            · refine Or.inr (Bool.and_eq_true_iff.mpr ⟨by simpa using h1, ?_⟩)
              simp [hr2]
      · simp only
        constructor
        · intro hh
          rcases Bool.and_eq_true_iff.mp hh with ⟨_, h2⟩
          exact of_decide_eq_true h2
        · intro hh
          exact Bool.and_eq_true_iff.mpr
            ⟨decide_eq_true (by omega), decide_eq_true hh⟩

/-- C5 (amended): under the shape well-formedness that `Smoothsort`
maintains (ascending orders with adjacent orders only in the two
smallest trees, an order-0 tree only next to an order-1 tree, orders
within the table, and at least one unprocessed element),
`LeonardoHeapAdd` updates the forest shape by exactly one of the
claim's four mutually exclusive cases in priority order - formalized by
`addOrders` on the ascending order list - and afterwards performs a
full rectify of the whole active prefix if and only if the remaining
unprocessed length is smaller than the SOURCE'S threshold `mergeNeed`,
performing only a single-tree rebalance otherwise.  `mergeNeed` is not
the claim's "what the next possible merge needs": for a new or merged
rightmost tree of order at least 2 the source demands `L (k - 1) + 1`
elements even when an adjacent order-(k + 1) neighbour would merge with
it on the very next insert. -/
theorem claim_C5 {β : Type} [LinearOrder β] [Inhabited β] (a : Array β)
    (b e heapEnd : Nat) (s : HeapShape) (os : List Nat) (h : RepShape s os)
    (hb : ∀ o ∈ os, o ≤ 45)
    (hgap : List.Chain' (fun x y => x + 2 ≤ y) os.tail)
    (h0 : os.head? = some 0 → os.tail.head? = some 1)
    (he : e < heapEnd) :
    RepShape (addShape s) (addOrders os) ∧
    LeonardoHeapAdd a b e heapEnd s =
      (if addIsFinalSpec (addOrders os) e heapEnd then
        (LeonardoHeapRectify a b (e + 1) (addShape s)).map
          (fun a2 => (a2, addShape s))
      else
        some (RebalanceSingleHeap a e (addShape s).smallestTreeSize,
          addShape s)) := by
  have hrep1 := addShape_rep s os h hb hgap h0
  refine ⟨hrep1, ?_⟩
  unfold LeonardoHeapAdd
  have hiff := addIsLast_iff_spec (addShape s) (addOrders os) hrep1
    (addOrders_ne_nil os) e heapEnd he
  by_cases hf : addIsFinalSpec (addOrders os) e heapEnd
  · rw [if_pos (hiff.mpr hf), if_pos hf]
    cases LeonardoHeapRectify a b (e + 1) (addShape s) <;> rfl
  · rw [if_neg (fun hh => hf (hiff.mp hh)), if_neg hf]

/-- C5 (witness): the theorem applied to the two-singleton forest of
orders 0 and 1 with one unprocessed element. -/
theorem claim_C5_witness :
    RepShape ⟨3, 0⟩ [0, 1] ∧
    (RepShape (addShape ⟨3, 0⟩) (addOrders [0, 1]) ∧
      LeonardoHeapAdd (#[1, 2, 3] : Array Nat) 0 2 3 ⟨3, 0⟩ =
        (if addIsFinalSpec (addOrders [0, 1]) 2 3 then
          (LeonardoHeapRectify (#[1, 2, 3] : Array Nat) 0 3
            (addShape ⟨3, 0⟩)).map (fun a2 => (a2, addShape ⟨3, 0⟩))
        else
          some (RebalanceSingleHeap (#[1, 2, 3] : Array Nat) 2
            (addShape ⟨3, 0⟩).smallestTreeSize, addShape ⟨3, 0⟩))) :=
  ⟨⟨by decide, by simp, by decide, by decide⟩,
    claim_C5 (#[1, 2, 3] : Array Nat) 0 2 3 ⟨3, 0⟩ [0, 1]
      ⟨by decide, by simp, by decide, by decide⟩
      (by decide) (by simp) (by decide) (by decide)⟩

/-- Total number of array slots of a forest with the given tree orders. -/
def sumL (os : List Nat) : Nat := (os.map L).sum

theorem sumL_nil : sumL [] = 0 := rfl

theorem sumL_cons (k : Nat) (os : List Nat) : sumL (k :: os) = L k + sumL os := rfl

/-- All trees of the forest are max-heaps; the orders are listed from the
rightmost (smallest) tree, whose root is at `e - 1`, leftward. -/
def ForestHeaps (a : Array α) : Nat → List Nat → Prop
  | _, [] => True
  | e, k :: os => IsHeap a k (e - 1) ∧ ForestHeaps a (e - L k) os

/-- The roots of the forest are non-decreasing from left to right,
i.e. each root dominates the root of the tree to its left; orders are
listed from the rightmost tree, whose root is at `e - 1`. -/
def RootsAsc (a : Array α) : Nat → List Nat → Prop
  | _, [] => True
  | _, [_] => True
  | e, k :: k' :: os =>
    aget a (e - L k - 1) ≤ aget a (e - 1) ∧ RootsAsc a (e - L k) (k' :: os)

instance decForestHeaps (a : Array α) : ∀ (e : Nat) (os : List Nat),
    Decidable (ForestHeaps a e os)
  | _, [] => .isTrue trivial
  | e, k :: os =>
    have := decIsHeap a k (e - 1)
    have := decForestHeaps a (e - L k) os
    inferInstanceAs (Decidable (_ ∧ _))

instance decRootsAsc (a : Array α) : ∀ (e : Nat) (os : List Nat),
    Decidable (RootsAsc a e os)
  | _, [] => .isTrue trivial
  | _, [_] => .isTrue trivial
  | e, k :: k' :: os =>
    have := decRootsAsc a (e - L k) (k' :: os)
    inferInstanceAs (Decidable (_ ∧ _))

theorem forestHeaps_congr (a a' : Array α) : ∀ (e : Nat) (os : List Nat),
    (∀ o ∈ os, o ≤ 45) → sumL os ≤ e →
    (∀ i, e - sumL os ≤ i → i < e → aget a' i = aget a i) →
    ForestHeaps a e os → ForestHeaps a' e os
  | _, [] => fun _ _ _ _ => trivial
  | e, k :: os => fun hb hsum hcong hh => by
    rw [sumL_cons] at hsum
    have hk := hb k (List.mem_cons_self _ _)
    have hL1 := L_pos k (by omega)
    refine ⟨?_, ?_⟩
    · refine isHeap_congr a a' k (e - 1) (by omega) (by omega) ?_ hh.1
      intro i hi1 hi2
      rw [sumL_cons] at hcong
      exact hcong i (by omega) (by omega)
    · refine forestHeaps_congr a a' (e - L k) os
        (fun o ho => hb o (List.mem_cons_of_mem _ ho)) (by omega) ?_ hh.2
      intro i hi1 hi2
      rw [sumL_cons] at hcong
      exact hcong i (by omega) (by omega)

theorem rootsAsc_congr (a a' : Array α) : ∀ (e : Nat) (os : List Nat),
    (∀ o ∈ os, o ≤ 45) → sumL os ≤ e →
    (∀ i, e - sumL os ≤ i → i < e → aget a' i = aget a i) →
    RootsAsc a e os → RootsAsc a' e os
  | _, [] => fun _ _ _ _ => trivial
  | _, [_] => fun _ _ _ _ => trivial
  | e, k :: k' :: os => fun hb hsum hcong hh => by
    rw [sumL_cons, sumL_cons] at hsum
    have hL1 := L_pos k (by have := hb k (List.mem_cons_self _ _); omega)
    have hL2 := L_pos k' (by
      have := hb k' (List.mem_cons_of_mem _ (List.mem_cons_self _ _)); omega)
    refine ⟨?_, ?_⟩
    · rw [hcong (e - L k - 1) (by rw [sumL_cons, sumL_cons]; omega) (by omega),
        hcong (e - 1) (by rw [sumL_cons]; omega) (by omega)]
      exact hh.1
    · refine rootsAsc_congr a a' (e - L k) (k' :: os)
        (fun o ho => hb o (List.mem_cons_of_mem _ ho)) (by rw [sumL_cons]; omega) ?_ hh.2
      intro i hi1 hi2
      rw [sumL_cons] at hi1
      exact hcong i (by rw [sumL_cons, sumL_cons]; omega) (by omega)

theorem forest_dominance (a : Array α) : ∀ (e : Nat) (os : List Nat),
    (∀ o ∈ os, o ≤ 45) → sumL os ≤ e →
    ForestHeaps a e os → RootsAsc a e os →
    ∀ i, e - sumL os ≤ i → i < e → aget a i ≤ aget a (e - 1)
  | e, [] => fun _ _ _ _ i hi1 hi2 => by
    rw [sumL_nil] at hi1
    omega
  | e, [k] => fun hb hsum hh _ i hi1 hi2 => by
    have hk := hb k (List.mem_cons_self _ _)
    rw [sumL_cons, sumL_nil] at hi1 hsum
    exact isHeap_le_root a k (e - 1) (by omega) (by omega) hh.1 i
      (by omega) (by omega)
  | e, k :: k' :: os => fun hb hsum hh hr i hi1 hi2 => by
    have hk := hb k (List.mem_cons_self _ _)
    have hL1 := L_pos k (by omega)
    have hL2 := L_pos k' (by
      have := hb k' (List.mem_cons_of_mem _ (List.mem_cons_self _ _)); omega)
    rw [sumL_cons] at hi1 hsum
    rcases le_or_lt (e - L k) i with hin | hout
    · exact isHeap_le_root a k (e - 1) (by omega) (by omega) hh.1 i
        (by omega) (by omega)
    · have hrec := forest_dominance a (e - L k) (k' :: os)
        (fun o ho => hb o (List.mem_cons_of_mem _ ho)) (by omega)
        hh.2 hr.2 i (by omega) (by omega)
      calc aget a i ≤ aget a (e - L k - 1) := hrec
        _ ≤ aget a (e - 1) := hr.1

theorem aget_oob (a : Array α) (i : Nat) (h : a.size ≤ i) : aget a i = default := by
  unfold aget Array.getD
  split
  · omega
  · rfl

theorem aget_aswap_mem (a : Array α) (i j k : Nat) :
    aget (aswap a i j) k = aget a i ∨ aget (aswap a i j) k = aget a j ∨
      aget (aswap a i j) k = aget a k := by
  by_cases hk : k < a.size
  · by_cases hkj : k = j
    · subst hkj
      exact Or.inl (aget_aswap_snd a i k hk)
    · by_cases hki : k = i
      · subst hki
        exact Or.inr (Or.inl (aget_aswap_fst a k j hk))
      · exact Or.inr (Or.inr (aget_aswap_other a i j k hki hkj))
  · right; right
    rw [aget_oob _ _ (by rw [size_aswap]; omega), aget_oob _ _ (by omega)]

theorem rebalance_exists (a : Array α) : ∀ (k r i : Nat), k ≤ 45 →
    L k ≤ r + 1 → r + 1 - L k ≤ i → i ≤ r →
    ∃ j, r + 1 - L k ≤ j ∧ j ≤ r ∧
      aget (RebalanceSingleHeap a r k) i = aget a j
  | 0, r, i => fun _ _ h1 h2 => ⟨i, h1, h2, rfl⟩
  | 1, r, i => fun _ _ h1 h2 => ⟨i, h1, h2, rfl⟩
  | k + 2, r, i => fun hk hr hi1 hi2 => by
    obtain ⟨sp1, sp2, sp3, sp4, sp5, sp6, sp7, sp8, sp9⟩ :=
      child_spans (k + 2) r (by omega) hk hr
    simp only [addSubRed1, addSubRed2] at sp1 sp2 sp4 sp5 sp6 sp7 sp8
    unfold RebalanceSingleHeap
    dsimp only
    split_ifs with hA hB hC
    · -- swap with the second child, then recurse there
      by_cases hin : r + 1 - L (k + 2) ≤ i ∧ i ≤ SecondChild r ∧
          SecondChild r + 1 - L k ≤ i
      · obtain ⟨j, hj1, hj2, hj3⟩ := rebalance_exists (aswap a r (SecondChild r))
          k (SecondChild r) i (by omega) (by omega) hin.2.2 hin.2.1
        rcases aget_aswap_mem a r (SecondChild r) j with hm | hm | hm
        · exact ⟨r, by omega, by omega, by rw [hj3, hm]⟩
        · exact ⟨SecondChild r, by omega, by omega, by rw [hj3, hm]⟩
        · exact ⟨j, by omega, by omega, by rw [hj3, hm]⟩
      · have hout : aget (RebalanceSingleHeap (aswap a r (SecondChild r))
            (SecondChild r) k) i = aget (aswap a r (SecondChild r)) i := by
          refine rebalance_outside _ k (SecondChild r) i (by omega) (by omega) ?_
          omega
        rw [hout]
        rcases aget_aswap_mem a r (SecondChild r) i with hm | hm | hm
        · exact ⟨r, by omega, by omega, hm⟩
        · exact ⟨SecondChild r, by omega, by omega, hm⟩
        · exact ⟨i, by omega, by omega, hm⟩
    · exact ⟨i, hi1, hi2, rfl⟩
    · -- swap with the first child, then recurse there
      by_cases hin : i ≤ FirstChild r (k + 2)
      · obtain ⟨j, hj1, hj2, hj3⟩ := rebalance_exists (aswap a r (FirstChild r (k + 2)))
          (k + 1) (FirstChild r (k + 2)) i (by omega) (by omega) (by omega) hin
        rcases aget_aswap_mem a r (FirstChild r (k + 2)) j with hm | hm | hm
        · exact ⟨r, by omega, by omega, by rw [hj3, hm]⟩
        · exact ⟨FirstChild r (k + 2), by omega, by omega, by rw [hj3, hm]⟩
        · exact ⟨j, by omega, by omega, by rw [hj3, hm]⟩
      · have hout : aget (RebalanceSingleHeap (aswap a r (FirstChild r (k + 2)))
            (FirstChild r (k + 2)) (k + 1)) i =
            aget (aswap a r (FirstChild r (k + 2))) i := by
          refine rebalance_outside _ (k + 1) (FirstChild r (k + 2)) i
            (by omega) (by omega) ?_
          omega
        rw [hout]
        rcases aget_aswap_mem a r (FirstChild r (k + 2)) i with hm | hm | hm
        · exact ⟨r, by omega, by omega, hm⟩
        · exact ⟨FirstChild r (k + 2), by omega, by omega, hm⟩
        · exact ⟨i, by omega, by omega, hm⟩
    · exact ⟨i, hi1, hi2, rfl⟩

theorem rebalance_bound (a : Array α) (k r : Nat) (M : α) (hk : k ≤ 45)
    (hr : L k ≤ r + 1)
    (hbd : ∀ j, r + 1 - L k ≤ j → j ≤ r → aget a j ≤ M) :
    ∀ i, r + 1 - L k ≤ i → i ≤ r → aget (RebalanceSingleHeap a r k) i ≤ M := by
  intro i hi1 hi2
  obtain ⟨j, hj1, hj2, hj3⟩ := rebalance_exists a k r i hk hr hi1 hi2
  rw [hj3]
  exact hbd j hj1 hj2

theorem toCompare_val (a : Array α) (itr size : Nat) :
    aget a (if size > 1 then
      (if aget a itr < aget a (LargerChild a itr size) then
        LargerChild a itr size else itr)
     else itr) = maxTop a size itr := by
  match size with
  | 0 => rfl
  | 1 => rfl
  | k + 2 =>
    rw [if_pos (by omega)]
    simp only [maxTop]
    rw [largerChild_val]
    split_ifs with h
    · rw [largerChild_val, max_eq_right (le_of_lt h)]
    · rw [max_eq_left (le_of_not_lt h)]

theorem bsTest0_iff (t : Nat) : bsTest t 0 = true ↔ t % 2 = 1 := by
  unfold bsTest
  simp

theorem nextTreeAux_bits (k' : Nat) (rest : List Nat)
    (hlb : ∀ x ∈ rest, k' + 1 ≤ x) :
    ∀ (fuel s t : Nat), t / 2 = bitsOf (s + 1) (k' :: rest) → s + 1 ≤ k' →
      k' - s ≤ fuel →
      nextTreeAux fuel t s = some (bitsOf k' (k' :: rest), k')
  | 0, s, t => fun _ hs hf => by omega
  | fuel + 1, s, t => fun ht hs hf => by
    unfold nextTreeAux
    dsimp only
    rcases Nat.eq_or_lt_of_le hs with he | hlt
    · have hodd : bitsOf (s + 1) (k' :: rest) % 2 = 1 := by
        rw [← he] at hlb ⊢
        rw [bitsOf_head (s + 1) rest hlb]
        omega
      rw [if_pos (by rw [bsTest0_iff, ht]; exact hodd), ht, ← he]
    · have heven : bitsOf (s + 1) (k' :: rest) % 2 = 0 := by
        rw [bitsOf_shift (s + 1) (k' :: rest) (by
          intro x hx
          rcases List.mem_cons.mp hx with rfl | hx2
          · omega
          · have := hlb x hx2
            omega)]
        omega
      rw [if_neg (by rw [bsTest0_iff, ht]; omega)]
      refine nextTreeAux_bits k' rest hlb fuel (s + 1) (t / 2) ?_ (by omega) (by omega)
      rw [ht, bitsOf_shift (s + 1) (k' :: rest) (by
        intro x hx
        rcases List.mem_cons.mp hx with rfl | hx2
        · omega
        · have := hlb x hx2
          omega)]
      omega

theorem nextTree_rep (size k' : Nat) (rest : List Nat) (hs : size < k')
    (hlb : ∀ x ∈ rest, k' + 1 ≤ x) (hb : k' ≤ 45) :
    nextTree (bitsOf size (size :: k' :: rest)) size =
      some (bitsOf k' (k' :: rest), k') := by
  unfold nextTree
  refine nextTreeAux_bits k' rest hlb 46 size _ ?_ (by omega) (by omega)
  rw [bitsOf_head size (k' :: rest) (by
    intro x hx
    rcases List.mem_cons.mp hx with rfl | hx2
    · omega
    · have := hlb x hx2
      omega)]
  have : bitsOf (size + 1) (k' :: rest) = bitsOf (size + 1) (k' :: rest) := rfl
  omega

theorem isHeap_of_le_one (a : Array α) (k r : Nat) (hk : k ≤ 1) : IsHeap a k r := by
  match k with
  | 0 => trivial
  | 1 => trivial

theorem sumL_append (xs ys : List Nat) : sumL (xs ++ ys) = sumL xs + sumL ys := by
  simp [sumL]

theorem sumL_take_drop (n : Nat) (l : List Nat) :
    sumL (l.take n) + sumL (l.drop n) = sumL l := by
  rw [← sumL_append, List.take_append_drop]

theorem fc_le_maxTop (a : Array α) (k r : Nat) (hk2 : 2 ≤ k) :
    aget a (FirstChild r k) ≤ maxTop a k r := by
  obtain ⟨k', rfl⟩ : ∃ k', k = k' + 2 := ⟨k - 2, by omega⟩
  simp only [maxTop]
  exact le_max_of_le_right (le_max_left _ _)

theorem sc_le_maxTop (a : Array α) (k r : Nat) (hk2 : 2 ≤ k) :
    aget a (SecondChild r) ≤ maxTop a k r := by
  obtain ⟨k', rfl⟩ : ∃ k', k = k' + 2 := ⟨k - 2, by omega⟩
  simp only [maxTop]
  exact le_max_of_le_right (le_max_right _ _)

/-- The walk of `LeonardoHeapRectify`, fully characterised: starting from a
forest on `[b, itr]` with orders `size :: osr` (rightmost first) whose trees
are heaps except that the rightmost root may be out of order, and whose
leftmost `length - d` tree boundaries are already sorted, the walk succeeds
and yields a forest of heaps with the same sorted zone; when `d = 1` the
whole root sequence ends up non-decreasing. -/
theorem rectify_walk (b : Nat) :
    ∀ (fuel : Nat) (a : Array α) (itr size : Nat) (osr : List Nat) (d : Nat),
      itr < fuel → itr < a.size →
      List.Chain' (· < ·) (size :: osr) →
      (∀ o ∈ size :: osr, o ≤ 45) →
      sumL (size :: osr) = itr + 1 - b →
      b ≤ itr →
      (2 ≤ size → IsHeap a (size - 1) (FirstChild itr size) ∧
        IsHeap a (size - 2) (SecondChild itr)) →
      ForestHeaps a (itr + 1 - L size) osr →
      1 ≤ d → d ≤ (size :: osr).length →
      RootsAsc a (itr + 1 - sumL ((size :: osr).take d)) ((size :: osr).drop d) →
      ∃ a2,
        LeonardoHeapRectifyAux b fuel a itr (bitsOf size (size :: osr)) size
          = some a2 ∧
        ForestHeaps a2 (itr + 1) (size :: osr) ∧
        RootsAsc a2 (itr + 1 - sumL ((size :: osr).take d))
          ((size :: osr).drop d) ∧
        (d = 1 → RootsAsc a2 (itr + 1) (size :: osr)) ∧
        (∀ i, i < b ∨ itr < i → aget a2 i = aget a i) ∧
        a2.toList.Perm a.toList ∧
        (∀ i, b ≤ i → i ≤ itr → ∃ j, b ≤ j ∧ j ≤ itr ∧ aget a2 i = aget a j)
  | 0, a, itr, size, osr, d => by
    intro hfuel
    omega
  | fuel + 1, a, itr, size, osr, d => by
    intro hfuel hsz hchain hb45 hsum hble hch hfh hd hdlen hasc
    have hs45 : size ≤ 45 := hb45 size (List.mem_cons_self _ _)
    have hLs : 1 ≤ L size := L_pos size (by omega)
    rw [sumL_cons] at hsum
    unfold LeonardoHeapRectifyAux
    dsimp only
    by_cases hstop : itr - b = L size - 1
    · -- the walk has reached the leftmost tree: rebalance it and stop
      rw [if_pos hstop]
      have hosr : osr = [] := by
        cases osr with
        | nil => rfl
        | cons o rest =>
          have hLo : 1 ≤ L o := L_pos o (by have := hb45 o (by simp); omega)
          rw [sumL_cons] at hsum
          omega
      subst hosr
      rw [sumL_nil] at hsum
      obtain rfl : d = 1 := by
        simp only [List.length_cons, List.length_nil] at hdlen
        omega
      have hLr : L size ≤ itr + 1 := by omega
      refine ⟨RebalanceSingleHeap a itr size, rfl, ?_, ?_, ?_, ?_, ?_, ?_⟩
      · exact ⟨rebalance_isHeap a size itr hs45 hLr hsz
          (fun h2 => (hch h2).1) (fun h2 => (hch h2).2), trivial⟩
      · rw [(show ([size] : List Nat).drop 1 = [] from rfl)]
        trivial
      · intro _
        trivial
      · intro i hi
        exact rebalance_outside a size itr i hs45 hLr (by omega)
      · exact rebalance_perm a size itr hsz
      · intro i hb1 hb2
        obtain ⟨j, hj1, hj2, hj3⟩ :=
          rebalance_exists a size itr i hs45 hLr (by omega) hb2
        exact ⟨j, by omega, hj2, hj3⟩
    · -- there is a tree to the left
      rw [if_neg hstop]
      obtain ⟨k', osr2, rfl⟩ : ∃ k' osr2, osr = k' :: osr2 := by
        cases osr with
        | nil =>
          rw [sumL_nil] at hsum
          omega
        | cons o rest => exact ⟨o, rest, rfl⟩
      rw [sumL_cons] at hsum
      have hk45 : k' ≤ 45 := hb45 k' (by simp)
      have hLk : 1 ≤ L k' := L_pos k' (by omega)
      have hb45' : ∀ o ∈ k' :: osr2, o ≤ 45 :=
        fun o ho => hb45 o (List.mem_cons_of_mem _ ho)
      have hLr : L size ≤ itr + 1 := by omega
      have hble' : b ≤ itr - L size := by omega
      obtain ⟨dd, rfl⟩ : ∃ dd, d = dd + 1 := ⟨d - 1, by omega⟩
      rw [toCompare_val]
      by_cases hc : maxTop a size itr < aget a (itr - L size)
      · -- the left root is larger: swap and walk on
        rw [if_pos hc]
        have hlt : size < k' := (List.chain'_cons.mp hchain).1
        have hch2 : List.Chain' (· < ·) (k' :: osr2) := (List.chain'_cons.mp hchain).2
        rw [nextTree_rep size k' osr2 hlt (fun x hx => chain_lt_head hch2 x hx) hk45]
        have hfuel' : itr - L size < fuel := by omega
        have hszw : itr - L size < (aswap a itr (itr - L size)).size := by
          rw [size_aswap]; omega
        have hsum' : sumL (k' :: osr2) = itr - L size + 1 - b := by
          rw [sumL_cons]; omega
        have hheapk : IsHeap a k' (itr - L size) := by
          have h1 := hfh.1
          rwa [(show itr + 1 - L size - 1 = itr - L size from by omega)] at h1
        have hLkp : L k' ≤ (itr - L size) + 1 := by omega
        have hchw : 2 ≤ k' →
            IsHeap (aswap a itr (itr - L size)) (k' - 1)
              (FirstChild (itr - L size) k') ∧
            IsHeap (aswap a itr (itr - L size)) (k' - 2)
              (SecondChild (itr - L size)) := by
          intro h2
          obtain ⟨sp1, sp2, sp3, sp4, sp5, sp6, sp7, sp8, sp9⟩ :=
            child_spans k' (itr - L size) h2 hk45 hLkp
          constructor
          · refine isHeap_congr a _ (k' - 1) (FirstChild (itr - L size) k')
              (by omega) sp1 ?_ (isHeap_children_first a hheapk h2)
            intro i hi1 hi2
            exact aget_aswap_other a itr (itr - L size) i (by omega) (by omega)
          · refine isHeap_congr a _ (k' - 2) (SecondChild (itr - L size))
              (by omega) sp4 ?_ (isHeap_children_second a hheapk h2)
            intro i hi1 hi2
            exact aget_aswap_other a itr (itr - L size) i (by omega) (by omega)
        have hfhw : ForestHeaps (aswap a itr (itr - L size))
            (itr - L size + 1 - L k') osr2 := by
          have h2 := hfh.2
          rw [(show itr + 1 - L size - L k' = itr - L size + 1 - L k' from by omega)] at h2
          refine forestHeaps_congr a _ _ osr2
            (fun o ho => hb45 o (by simp [ho])) (by omega) ?_ h2
          intro i hi1 hi2
          exact aget_aswap_other a itr (itr - L size) i (by omega) (by omega)
        -- heap property of the merged rightmost tree after the swap
        have hH1 : IsHeap (aswap a itr (itr - L size)) size itr := by
          rcases Nat.lt_or_ge size 2 with hs2 | hs2
          · exact isHeap_of_le_one _ _ _ (by omega)
          · obtain ⟨sp1, sp2, sp3, sp4, sp5, sp6, sp7, sp8, sp9⟩ :=
              child_spans size itr hs2 hs45 (by omega)
            have hv_itr : aget (aswap a itr (itr - L size)) itr
                = aget a (itr - L size) := aget_aswap_fst a itr (itr - L size) hsz
            refine isHeap_build _ hs2 ?_ ?_ ?_ ?_
            · rw [hv_itr,
                aget_aswap_other a itr (itr - L size) (SecondChild itr)
                  (by omega) (by omega)]
              exact le_of_lt (lt_of_le_of_lt (sc_le_maxTop a size itr hs2) hc)
            · rw [hv_itr,
                aget_aswap_other a itr (itr - L size) (FirstChild itr size)
                  (by omega) (by omega)]
              exact le_of_lt (lt_of_le_of_lt (fc_le_maxTop a size itr hs2) hc)
            · refine isHeap_congr a _ (size - 2) (SecondChild itr)
                (by omega) sp4 ?_ ((hch hs2).2)
              intro i hi1 hi2
              exact aget_aswap_other a itr (itr - L size) i (by omega) (by omega)
            · refine isHeap_congr a _ (size - 1) (FirstChild itr size)
                (by omega) sp1 ?_ ((hch hs2).1)
              intro i hi1 hi2
              exact aget_aswap_other a itr (itr - L size) i (by omega) (by omega)
        rcases Nat.eq_zero_or_pos dd with rfl | hdpos
        · -- d = 1 : everything to the left of the walk is sorted
          rw [(show (size :: k' :: osr2).take (0 + 1) = [size] from rfl),
            (show (size :: k' :: osr2).drop (0 + 1) = k' :: osr2 from rfl),
            (show sumL [size] = L size from by rw [sumL_cons, sumL_nil]; omega),
            (show itr + 1 - L size = itr - L size + 1 from by omega)] at hasc
          have htail : RootsAsc a (itr - L size + 1 - L k') osr2 := by
            cases osr2 with
            | nil => trivial
            | cons o2 r2 => exact hasc.2
          have hascw : RootsAsc (aswap a itr (itr - L size))
              (itr - L size + 1 - sumL ((k' :: osr2).take 1))
              ((k' :: osr2).drop 1) := by
            rw [(show (k' :: osr2).take 1 = [k'] from rfl),
              (show (k' :: osr2).drop 1 = osr2 from rfl),
              (show sumL [k'] = L k' from by rw [sumL_cons, sumL_nil]; omega)]
            refine rootsAsc_congr a _ _ osr2
              (fun o ho => hb45 o (by simp [ho])) (by omega) ?_ htail
            intro i hi1 hi2
            exact aget_aswap_other a itr (itr - L size) i (by omega) (by omega)
          obtain ⟨a2, heq2, hFH2, hAsc2, hFull2, hUn2, hPerm2, hEx2⟩ :=
            rectify_walk b fuel (aswap a itr (itr - L size)) (itr - L size) k'
              osr2 1 hfuel' hszw hch2 hb45' hsum' hble' hchw hfhw (le_refl 1)
              (by simp) hascw
          refine ⟨a2, heq2, ?_, ?_, ?_, ?_, ?_, ?_⟩
          · refine ⟨?_, ?_⟩
            · exact isHeap_congr _ a2 size itr hs45 (by omega)
                (fun i hi1 hi2 => hUn2 i (Or.inr (by omega))) hH1
            · rw [(show itr + 1 - L size = itr - L size + 1 from by omega)]
              exact hFH2
          · rw [(show (size :: k' :: osr2).take (0 + 1) = [size] from rfl),
              (show (size :: k' :: osr2).drop (0 + 1) = k' :: osr2 from rfl),
              (show sumL [size] = L size from by rw [sumL_cons, sumL_nil]; omega),
              (show itr + 1 - L size = itr - L size + 1 from by omega)]
            exact hFull2 rfl
          · intro _
            refine ⟨?_, ?_⟩
            · rw [(show itr + 1 - L size - 1 = itr - L size from by omega),
                (show itr + 1 - 1 = itr from rfl)]
              have hv2 : aget a2 itr = aget a (itr - L size) := by
                rw [hUn2 itr (Or.inr (by omega)),
                  aget_aswap_fst a itr (itr - L size) hsz]
              obtain ⟨j, hj1, hj2, hj3⟩ := hEx2 (itr - L size) (by omega) (le_refl _)
              rw [hj3, hv2]
              rcases Nat.eq_or_lt_of_le hj2 with hjp | hjp
              · rw [hjp, aget_aswap_snd a itr (itr - L size) (by omega)]
                exact le_of_lt (lt_of_le_of_lt (le_maxTop a size itr) hc)
              · rw [aget_aswap_other a itr (itr - L size) j (by omega) (by omega)]
                have hdom := forest_dominance a (itr - L size + 1) (k' :: osr2)
                  hb45' (by rw [sumL_cons]; omega)
                  (by
                    have h2 : ForestHeaps a (itr + 1 - L size) (k' :: osr2) := hfh
                    rwa [(show itr + 1 - L size = itr - L size + 1 from by omega)]
                      at h2)
                  hasc j (by rw [sumL_cons]; omega) (by omega)
                exact hdom
            · rw [(show itr + 1 - L size = itr - L size + 1 from by omega)]
              exact hFull2 rfl
          · intro i hi
            rw [hUn2 i (by omega)]
            exact aget_aswap_other a itr (itr - L size) i (by omega) (by omega)
          · exact hPerm2.trans (aswap_perm a itr (itr - L size) hsz (by omega))
          · intro i hi1 hi2
            rcases le_or_lt i (itr - L size) with hle | hgt
            · obtain ⟨j, hj1, hj2, hj3⟩ := hEx2 i hi1 hle
              rcases aget_aswap_mem a itr (itr - L size) j with hm | hm | hm
              · exact ⟨itr, by omega, le_refl _, by rw [hj3, hm]⟩
              · exact ⟨itr - L size, by omega, by omega, by rw [hj3, hm]⟩
              · exact ⟨j, hj1, by omega, by rw [hj3, hm]⟩
            · have h1 : aget a2 i = aget (aswap a itr (itr - L size)) i :=
                hUn2 i (Or.inr hgt)
              rcases aget_aswap_mem a itr (itr - L size) i with hm | hm | hm
              · exact ⟨itr, by omega, le_refl _, by rw [h1, hm]⟩
              · exact ⟨itr - L size, by omega, by omega, by rw [h1, hm]⟩
              · exact ⟨i, hi1, hi2, by rw [h1, hm]⟩
        · -- d ≥ 2 : the sorted zone lies strictly left of the walk
          obtain ⟨ee, rfl⟩ : ∃ ee, dd = ee + 1 := ⟨dd - 1, by omega⟩
          rw [(show (size :: k' :: osr2).take (ee + 1 + 1)
                = size :: (k' :: osr2).take (ee + 1) from rfl),
            (show (size :: k' :: osr2).drop (ee + 1 + 1)
                = (k' :: osr2).drop (ee + 1) from rfl),
            sumL_cons,
            (show itr + 1 - (L size + sumL ((k' :: osr2).take (ee + 1)))
                = itr - L size + 1 - sumL ((k' :: osr2).take (ee + 1)) from
              by omega)] at hasc
          have hS : sumL ((k' :: osr2).take (ee + 1))
              = L k' + sumL (osr2.take ee) := by
            rw [(show (k' :: osr2).take (ee + 1) = k' :: osr2.take ee from rfl),
              sumL_cons]
          have hTD := sumL_take_drop (ee + 1) (k' :: osr2)
          have hKC : sumL (k' :: osr2) = L k' + sumL osr2 := sumL_cons _ _
          have hascw : RootsAsc (aswap a itr (itr - L size))
              (itr - L size + 1 - sumL ((k' :: osr2).take (ee + 1)))
              ((k' :: osr2).drop (ee + 1)) := by
            refine rootsAsc_congr a _ _ _
              (fun o ho => hb45' o (List.mem_of_mem_drop ho)) (by omega) ?_ hasc
            intro i hi1 hi2
            exact aget_aswap_other a itr (itr - L size) i (by omega) (by omega)
          obtain ⟨a2, heq2, hFH2, hAsc2, hFull2, hUn2, hPerm2, hEx2⟩ :=
            rectify_walk b fuel (aswap a itr (itr - L size)) (itr - L size) k'
              osr2 (ee + 1) hfuel' hszw hch2 hb45' hsum' hble' hchw hfhw
              (by omega)
              (by
                simp only [List.length_cons] at hdlen ⊢
                omega)
              hascw
          refine ⟨a2, heq2, ?_, ?_, ?_, ?_, ?_, ?_⟩
          · refine ⟨?_, ?_⟩
            · exact isHeap_congr _ a2 size itr hs45 (by omega)
                (fun i hi1 hi2 => hUn2 i (Or.inr (by omega))) hH1
            · rw [(show itr + 1 - L size = itr - L size + 1 from by omega)]
              exact hFH2
          · rw [(show (size :: k' :: osr2).take (ee + 1 + 1)
                  = size :: (k' :: osr2).take (ee + 1) from rfl),
              (show (size :: k' :: osr2).drop (ee + 1 + 1)
                  = (k' :: osr2).drop (ee + 1) from rfl),
              sumL_cons,
              (show itr + 1 - (L size + sumL ((k' :: osr2).take (ee + 1)))
                  = itr - L size + 1 - sumL ((k' :: osr2).take (ee + 1)) from
                by omega)]
            exact hAsc2
          · intro h1
            exact absurd h1 (by omega)
          · intro i hi
            rw [hUn2 i (by omega)]
            exact aget_aswap_other a itr (itr - L size) i (by omega) (by omega)
          · exact hPerm2.trans (aswap_perm a itr (itr - L size) hsz (by omega))
          · intro i hi1 hi2
            rcases le_or_lt i (itr - L size) with hle | hgt
            · obtain ⟨j, hj1, hj2, hj3⟩ := hEx2 i hi1 hle
              rcases aget_aswap_mem a itr (itr - L size) j with hm | hm | hm
              · exact ⟨itr, by omega, le_refl _, by rw [hj3, hm]⟩
              · exact ⟨itr - L size, by omega, by omega, by rw [hj3, hm]⟩
              · exact ⟨j, hj1, by omega, by rw [hj3, hm]⟩
            · have h1 : aget a2 i = aget (aswap a itr (itr - L size)) i :=
                hUn2 i (Or.inr hgt)
              rcases aget_aswap_mem a itr (itr - L size) i with hm | hm | hm
              · exact ⟨itr, by omega, le_refl _, by rw [h1, hm]⟩
              · exact ⟨itr - L size, by omega, by omega, by rw [h1, hm]⟩
              · exact ⟨i, hi1, hi2, by rw [h1, hm]⟩
      · -- the prior root is not larger: rebalance and stop
        rw [if_neg hc]
        have hKC : sumL (k' :: osr2) = L k' + sumL osr2 := sumL_cons _ _
        have htrans : ∀ (e : Nat) (l : List Nat), (∀ o ∈ l, o ≤ 45) →
            sumL l ≤ e → e ≤ itr + 1 - L size → RootsAsc a e l →
            RootsAsc (RebalanceSingleHeap a itr size) e l := by
          intro e l hbl hsl hel hr
          refine rootsAsc_congr a _ e l hbl hsl ?_ hr
          intro i hi1 hi2
          exact rebalance_outside a size itr i hs45 hLr (Or.inl (by omega))
        have hS : sumL ((size :: k' :: osr2).take (dd + 1))
            = L size + sumL ((k' :: osr2).take dd) := by
          rw [(show (size :: k' :: osr2).take (dd + 1)
              = size :: (k' :: osr2).take dd from rfl), sumL_cons]
        have hTD := sumL_take_drop dd (k' :: osr2)
        have hDR : (size :: k' :: osr2).drop (dd + 1) = (k' :: osr2).drop dd := rfl
        refine ⟨RebalanceSingleHeap a itr size, rfl, ?_, ?_, ?_, ?_, ?_, ?_⟩
        · refine ⟨rebalance_isHeap a size itr hs45 hLr hsz
            (fun h2 => (hch h2).1) (fun h2 => (hch h2).2), ?_⟩
          refine forestHeaps_congr a _ (itr + 1 - L size) (k' :: osr2) hb45'
            (by omega) ?_ hfh
          intro i hi1 hi2
          exact rebalance_outside a size itr i hs45 hLr (Or.inl (by omega))
        · refine htrans _ _
            (fun o ho => hb45 o (List.mem_of_mem_drop ho)) ?_ ?_ hasc
          · rw [hDR]
            omega
          · omega
        · intro hd1
          obtain rfl : dd = 0 := by omega
          rw [(show (size :: k' :: osr2).take (0 + 1) = [size] from rfl),
            (show (size :: k' :: osr2).drop (0 + 1) = k' :: osr2 from rfl),
            (show sumL [size] = L size from by rw [sumL_cons, sumL_nil]; omega)] at hasc
          refine ⟨?_, ?_⟩
          · rw [(show itr + 1 - L size - 1 = itr - L size from by omega),
              (show itr + 1 - 1 = itr from rfl),
              rebalance_outside a size itr (itr - L size) hs45 hLr
                (Or.inl (by omega)),
              rebalance_root a size itr hs45 hLr hsz]
            exact le_of_not_lt hc
          · exact htrans _ _ hb45' (by omega) (le_refl _) hasc
        · intro i hi
          exact rebalance_outside a size itr i hs45 hLr (by omega)
        · exact rebalance_perm a size itr hsz
        · intro i hi1 hi2
          rcases le_or_lt (itr + 1 - L size) i with hge | hlt2
          · obtain ⟨j, hj1, hj2, hj3⟩ :=
              rebalance_exists a size itr i hs45 hLr (by omega) hi2
            exact ⟨j, by omega, hj2, hj3⟩
          · exact ⟨i, hi1, hi2,
              rebalance_outside a size itr i hs45 hLr (Or.inl (by omega))⟩

theorem forestHeaps_drop (a : Array α) : ∀ (d : Nat) (os : List Nat) (e : Nat),
    ForestHeaps a e os →
    ForestHeaps a (e - sumL (os.take d)) (os.drop d)
  | 0, os, e => fun h => h
  | d + 1, [], e => fun _ => trivial
  | d + 1, k :: os, e => fun h => by
    have ih := forestHeaps_drop a d os (e - L k) h.2
    rw [(show (k :: os).take (d + 1) = k :: os.take d from rfl),
      (show (k :: os).drop (d + 1) = os.drop d from rfl), sumL_cons,
      (show e - (L k + sumL (os.take d)) = e - L k - sumL (os.take d) from
        by omega)]
    exact ih

theorem rootsAsc_drop (a : Array α) : ∀ (d : Nat) (os : List Nat) (e : Nat),
    RootsAsc a e os →
    RootsAsc a (e - sumL (os.take d)) (os.drop d)
  | 0, os, e => fun h => h
  | d + 1, [], e => fun _ => trivial
  | d + 1, [k], e => fun _ => by
    rw [(show ([k] : List Nat).drop (d + 1) = [].drop d from rfl)]
    cases d <;> trivial
  | d + 1, k :: k' :: os, e => fun h => by
    have ih := rootsAsc_drop a d (k' :: os) (e - L k) h.2
    rw [(show (k :: k' :: os).take (d + 1) = k :: (k' :: os).take d from rfl),
      (show (k :: k' :: os).drop (d + 1) = (k' :: os).drop d from rfl), sumL_cons,
      (show e - (L k + sumL ((k' :: os).take d))
          = e - L k - sumL ((k' :: os).take d) from by omega)]
    exact ih

/-- Structural invariant of every forest shape reachable in a run
(rightmost-first order list): orders strictly ascend leftward, orders are
at least two apart except possibly the bottom pair, an order-0 tree only
appears next to an order-1 tree, and all orders are within the Leonardo
table. -/
def SI (os : List Nat) : Prop :=
  List.Chain' (· < ·) os ∧
  List.Chain' (fun x y => x + 2 ≤ y) os.tail ∧
  (os.head? = some 0 → os.tail.head? = some 1) ∧
  (∀ o ∈ os, o ≤ 45)

/-- The shape update of `LeonardoHeapRemove` at the order-list level:
dequeue pops the rightmost tree, splitting it into its two subtrees when
its order is at least 2. -/
def removeOrders (os : List Nat) : List Nat :=
  match os with
  | [] => []
  | k :: rest => if k ≤ 1 then rest else (k - 2) :: (k - 1) :: rest

theorem L_mono : ∀ x ≤ 45, ∀ y ≤ 45, x ≤ y → L x ≤ L y := by decide

theorem L_pair_step : ∀ b ≤ 43, 1 ≤ b → L b + L (b - 1) + 1 ≤ L (b + 1) := by
  decide

theorem L_big : 4294967295 < L 44 + L 45 + 1 := by decide

theorem getLastD_spec : ∀ (l : List Nat) (b : Nat),
    (b :: l).getLast? = some ((b :: l).getLastD 0)
  | [], b => rfl
  | c :: l, b => by
    rw [List.getLast?_cons_cons]
    exact getLastD_spec l c

theorem getLastD_mem : ∀ (l : List Nat) (b : Nat), (b :: l).getLastD 0 ∈ b :: l
  | [], b => by simp
  | c :: l, b => List.mem_cons_of_mem b (getLastD_mem l c)

theorem chain_le_getLastD : ∀ (l : List Nat) (x : Nat), x ∈ l →
    List.Chain' (· < ·) l → x ≤ l.getLastD 0
  | [], x => fun hx _ => absurd hx (List.not_mem_nil x)
  | [y], x => fun hx _ => by
    simp at hx
    simp [hx, List.getLastD]
  | y :: z :: rest, x => fun hx hc => by
    have htail := (List.chain'_cons.mp hc).2
    have hyz := (List.chain'_cons.mp hc).1
    have hglast : ((y :: z :: rest).getLastD 0) = ((z :: rest).getLastD 0) := rfl
    rw [hglast]
    rcases List.mem_cons.mp hx with rfl | hx2
    · have hz := chain_le_getLastD (z :: rest) z (List.mem_cons_self _ _) htail
      omega
    · exact chain_le_getLastD (z :: rest) x hx2 htail

theorem ascBound2 : ∀ (l : List Nat) (b : Nat),
    List.Chain' (fun x y => x + 2 ≤ y) (b :: l) →
    (∀ o ∈ b :: l, o ≤ 45) →
    sumL (b :: l) + (if b = 0 then 0 else L (b - 1)) ≤
      L ((b :: l).getLastD 0) + L ((b :: l).getLastD 0 - 1)
  | [], b => fun _ hb => by
    rw [sumL_cons, sumL_nil, (show ([b] : List Nat).getLastD 0 = b from rfl)]
    have h1 : 1 ≤ L (b - 1) := L_pos (b - 1) (by have := hb b (by simp); omega)
    split_ifs with h0 <;> omega
  | c :: rest, b => fun hc hb => by
    have hbc : b + 2 ≤ c := (List.chain'_cons.mp hc).1
    have hb45 : b ≤ 45 := hb b (List.mem_cons_self _ _)
    have hc45 : c ≤ 45 := hb c (by simp)
    have ih := ascBound2 rest c (List.chain'_cons.mp hc).2
      (fun o ho => hb o (List.mem_cons_of_mem _ ho))
    have hglast : ((b :: c :: rest).getLastD 0) = ((c :: rest).getLastD 0) := rfl
    rw [hglast, sumL_cons]
    have hcne : ¬ c = 0 := by omega
    rw [if_neg hcne] at ih
    split_ifs with h0
    · have h1 : 1 ≤ L (c - 1) := L_pos (c - 1) (by omega)
      have h2 : L 0 = 1 := L_one.1
      subst h0
      rw [h2]
      omega
    · have hstep : L b + L (b - 1) + 1 ≤ L (b + 1) :=
        L_pair_step b (by omega) (by omega)
      have hmono : L (b + 1) ≤ L (c - 1) := L_mono (b + 1) (by omega) (c - 1)
        (by omega) (by omega)
      omega

theorem ascBound1 (l : List Nat) (a : Nat)
    (hc : List.Chain' (· < ·) (a :: l))
    (hg : List.Chain' (fun x y => x + 2 ≤ y) l)
    (hb : ∀ o ∈ a :: l, o ≤ 45) :
    sumL (a :: l) ≤ L ((a :: l).getLastD 0) + L ((a :: l).getLastD 0 - 1) := by
  cases l with
  | nil =>
    rw [sumL_cons, sumL_nil, (show ([a] : List Nat).getLastD 0 = a from rfl)]
    have : 1 ≤ L (a - 1) := L_pos (a - 1) (by have := hb a (by simp); omega)
    omega
  | cons b rest =>
    have hab : a < b := (List.chain'_cons.mp hc).1
    have ih := ascBound2 rest b hg
      (fun o ho => hb o (List.mem_cons_of_mem _ ho))
    have hglast : ((a :: b :: rest).getLastD 0) = ((b :: rest).getLastD 0) := rfl
    rw [hglast, sumL_cons]
    have hbne : ¬ b = 0 := by omega
    rw [if_neg hbne] at ih
    have hmono : L a ≤ L (b - 1) := L_mono a
      (by have := hb a (by simp); omega) (b - 1)
      (by have := hb b (by simp); omega) (by omega)
    omega

theorem mergeNeed_pos (os1 : List Nat) : 1 ≤ mergeNeed os1 := by
  rcases os1 with _ | ⟨k, rest⟩
  · exact le_refl 1
  · rcases k with _ | _ | n
    · exact le_refl 1
    · rw [(show mergeNeed (1 :: rest) = if rest.head? = some 2 then 1 else 2
        from rfl)]
      split_ifs <;> omega
    · rw [(show mergeNeed ((n + 2) :: rest) = L (n + 2 - 1) + 1 from rfl)]
      omega

/-- The right-part bound: in a structurally valid forest, the trees to the
right of any tree are too small to let that tree merge again.  Hence a
tree that coincides with a tree of the final forest always passes the
source's `isLast` test. -/
theorem finalSuffixBound (pre : List Nat) (k : Nat) (tl : List Nat)
    (hc : List.Chain' (· < ·) (pre ++ k :: tl))
    (hg : List.Chain' (fun x y => x + 2 ≤ y) (pre ++ k :: tl).tail)
    (hb : ∀ o ∈ pre ++ k :: tl, o ≤ 45) :
    sumL pre < mergeNeed (k :: tl) := by
  rcases pre with _ | ⟨a, pre1⟩
  · rw [sumL_nil]
    exact mergeNeed_pos _
  rcases pre1 with _ | ⟨b, pre2⟩
  · -- a single tree to the right of the matched tree
    have hak : a < k := by
      have := (List.chain'_cons.mp hc).1
      simpa using this
    rw [sumL_cons, sumL_nil]
    rcases k with _ | _ | kk
    · omega
    · -- k = 1: the single right tree has order 0, and the left neighbour of
      -- the order-1 tree in a valid shape cannot have order 2
      have ha0 : a = 0 := by omega
      subst ha0
      have htl : tl.head? ≠ some 2 := by
        rw [(show (([0] : List Nat) ++ 1 :: tl).tail = 1 :: tl from rfl)] at hg
        rcases tl with _ | ⟨t, tl2⟩
        · simp
        · have := (List.chain'_cons.mp hg).1
          simp
          omega
      rw [(show mergeNeed (1 :: tl) = if tl.head? = some 2 then 1 else 2
          from rfl), if_neg htl]
      have : L 0 = 1 := L_one.1
      omega
    · rw [(show mergeNeed ((kk + 2) :: tl) = L (kk + 2 - 1) + 1 from rfl)]
      have hmono : L a ≤ L (kk + 2 - 1) := L_mono a
        (by have := hb a (by simp); omega) (kk + 2 - 1)
        (by have := hb (kk + 2) (by simp); omega) (by omega)
      omega
  · -- at least two trees to the right: the junction pair has gap ≥ 2
    have htail : ((a :: b :: pre2) ++ k :: tl).tail
        = (b :: pre2) ++ k :: tl := rfl
    rw [htail] at hg
    obtain ⟨hg1, hg2, hg3⟩ := List.chain'_append.mp hg
    have hcpre : List.Chain' (· < ·) (a :: b :: pre2) :=
      (List.chain'_append.mp hc).1
    have hbpre : ∀ o ∈ a :: b :: pre2, o ≤ 45 :=
      fun o ho => hb o (List.mem_append_left _ ho)
    have hbound := ascBound1 (b :: pre2) a hcpre hg1 hbpre
    have hgeq : ((a :: b :: pre2).getLastD 0) = ((b :: pre2).getLastD 0) := rfl
    rw [hgeq] at hbound
    have hjunction : (b :: pre2).getLastD 0 + 2 ≤ k := by
      refine hg3 ((b :: pre2).getLastD 0) ?_ k (by simp)
      rw [Option.mem_def, getLastD_spec pre2 b]
    have hg45 : (b :: pre2).getLastD 0 ≤ 45 :=
      hbpre _ (List.mem_cons_of_mem a (getLastD_mem pre2 b))
    obtain ⟨kk, rfl⟩ : ∃ kk, k = kk + 2 :=
      ⟨k - 2, by omega⟩
    have hk45 : kk + 2 ≤ 45 := hb (kk + 2) (by simp)
    rw [(show mergeNeed ((kk + 2) :: tl) = L (kk + 2 - 1) + 1 from rfl)]
    rcases Nat.lt_or_ge ((b :: pre2).getLastD 0) 1 with hgs | hgs
    · -- the rightmost right-part tree has order 0: impossible below two
      -- ascending orders
      have hble : b ≤ (b :: pre2).getLastD 0 :=
        chain_le_getLastD (b :: pre2) b (List.mem_cons_self _ _)
          (List.chain'_cons.mp hcpre).2
      have hab2 : a < b := (List.chain'_cons.mp hcpre).1
      omega
    · have hstep : L ((b :: pre2).getLastD 0) + L ((b :: pre2).getLastD 0 - 1)
          + 1 ≤ L ((b :: pre2).getLastD 0 + 1) :=
        L_pair_step _ (by omega) (by omega)
      have hmono : L ((b :: pre2).getLastD 0 + 1) ≤ L (kk + 2 - 1) :=
        L_mono _ (by omega) _ (by have := hb (kk + 2) (by simp); omega)
          (by omega)
      omega

theorem SI_addOrders (os : List Nat) (h : SI os)
    (hn : sumL os + 1 ≤ 4294967295) :
    SI (addOrders os) ∧ sumL (addOrders os) = sumL os + 1 := by
  obtain ⟨hchain, hgap, h0, hb⟩ := h
  rcases os with _ | ⟨k0, _ | ⟨k1, rest⟩⟩
  · refine ⟨⟨?_, ?_, ?_, ?_⟩, ?_⟩
    · simp [addOrders]
    · simp [addOrders]
    · intro hh
      simp [addOrders] at hh
    · intro o ho
      simp [addOrders] at ho
      omega
    · rw [(show addOrders [] = [1] from rfl), sumL_cons, sumL_nil]
      have := L_one.2
      omega
  · have hk0 : k0 ≤ 45 := hb k0 (by simp)
    have hk00 : k0 ≠ 0 := by
      intro hh
      have := h0 (by simp [hh])
      simp at this
    by_cases h1 : k0 = 1
    · subst h1
      rw [(show addOrders [1] = [0, 1] from rfl)]
      refine ⟨⟨?_, ?_, ?_, ?_⟩, ?_⟩
      · simp
      · simp
      · intro _; simp
      · intro o ho
        simp at ho
        omega
      · rw [sumL_cons, sumL_cons, sumL_nil]
        have h2 := L_one.1
        have h3 := L_one.2
        omega
    · rw [(show addOrders [k0] = if k0 = 1 then [0, k0] else [1, k0] from rfl),
        if_neg h1]
      refine ⟨⟨?_, ?_, ?_, ?_⟩, ?_⟩
      · simp
        omega
      · simp
      · intro hh
        simp at hh
      · intro o ho
        simp at ho
        rcases ho with rfl | rfl
        · omega
        · exact hk0
      · rw [sumL_cons, sumL_cons, sumL_nil]
        have := L_one.2
        omega
  · have hk0 : k0 ≤ 45 := hb k0 (by simp)
    have hk1 : k1 ≤ 45 := hb k1 (by simp)
    have h01 : k0 < k1 := (List.chain'_cons.mp hchain).1
    rw [List.tail_cons] at hgap h0
    by_cases hadj : k1 = k0 + 1
    · subst hadj
      rw [addOrders_adj]
      have hbound : k0 + 2 ≤ 45 := by
        by_contra hgt
        have hk044 : k0 = 44 := by omega
        subst hk044
        rw [sumL_cons, sumL_cons] at hn
        have := L_big
        have heq : (44 : Nat) + 1 = 45 := rfl
        rw [heq] at hn
        omega
      have hrec : L (k0 + 2) = L (k0 + 1) + L k0 + 1 := L_rec k0 (by omega)
      refine ⟨⟨?_, ?_, ?_, ?_⟩, ?_⟩
      · rcases rest with _ | ⟨r, rest2⟩
        · simp
        · have hgr : k0 + 1 + 2 ≤ r := (List.chain'_cons.mp hgap).1
          refine List.chain'_cons'.mpr ⟨?_, ?_⟩
          · intro y hy
            simp at hy
            subst hy
            omega
          · exact ((List.chain'_cons.mp hchain).2).tail
      · exact hgap.tail
      · intro hh
        simp at hh
      · intro o ho
        rcases List.mem_cons.mp ho with rfl | ho2
        · exact hbound
        · exact hb o (by simp [ho2])
      · rw [sumL_cons, sumL_cons, sumL_cons, hrec]
        omega
    · have hgk : k0 + 2 ≤ k1 := by omega
      by_cases hk01 : k0 = 1
      · subst hk01
        rw [addOrders_nonadj 1 (k1 :: rest) (by simp; omega), if_pos rfl]
        refine ⟨⟨?_, ?_, ?_, ?_⟩, ?_⟩
        · exact List.chain'_cons.mpr ⟨by omega, hchain⟩
        · rw [List.tail_cons]
          exact List.chain'_cons.mpr ⟨by omega, hgap⟩
        · intro _
          simp
        · intro o ho
          rcases List.mem_cons.mp ho with rfl | ho2
          · omega
          · exact hb o ho2
        · rw [sumL_cons]
          have := L_one.1
          omega
      · have hk00 : k0 ≠ 0 := by
          intro hh
          subst hh
          have := h0 (by simp)
          simp at this
          omega
        have hk02 : 2 ≤ k0 := by omega
        rw [addOrders_nonadj k0 (k1 :: rest) (by simp; omega), if_neg hk01]
        refine ⟨⟨?_, ?_, ?_, ?_⟩, ?_⟩
        · exact List.chain'_cons.mpr ⟨by omega, hchain⟩
        · rw [List.tail_cons]
          exact List.chain'_cons.mpr ⟨by omega, hgap⟩
        · intro hh
          simp at hh
        · intro o ho
          rcases List.mem_cons.mp ho with rfl | ho2
          · omega
          · exact hb o ho2
        · rw [sumL_cons]
          have := L_one.2
          omega

theorem SI_removeOrders (os : List Nat) (h : SI os) (hne : os ≠ []) :
    SI (removeOrders os) ∧ sumL (removeOrders os) + 1 = sumL os := by
  obtain ⟨hchain, hgap, h0, hb⟩ := h
  rcases os with _ | ⟨k, rest⟩
  · exact absurd rfl hne
  rw [List.tail_cons] at hgap h0
  have hk45 : k ≤ 45 := hb k (by simp)
  by_cases hk1 : k ≤ 1
  · rw [(show removeOrders (k :: rest) = if k ≤ 1 then rest
      else (k - 2) :: (k - 1) :: rest from rfl), if_pos hk1]
    refine ⟨⟨?_, ?_, ?_, ?_⟩, ?_⟩
    · exact hchain.tail
    · exact hgap.tail
    · intro hh
      rcases rest with _ | ⟨r, rest2⟩
      · simp at hh
      · have : k < r := (List.chain'_cons.mp hchain).1
        simp at hh
        omega
    · exact fun o ho => hb o (by simp [ho])
    · rw [sumL_cons]
      have h1 := L_one.1
      have h2 := L_one.2
      interval_cases k
      · omega
      · omega
  · rw [(show removeOrders (k :: rest) = if k ≤ 1 then rest
      else (k - 2) :: (k - 1) :: rest from rfl), if_neg hk1]
    have hrec : L (k - 2 + 2) = L (k - 2 + 1) + L (k - 2) + 1 :=
      L_rec (k - 2) (by omega)
    refine ⟨⟨?_, ?_, ?_, ?_⟩, ?_⟩
    · refine List.chain'_cons.mpr ⟨by omega, ?_⟩
      rcases rest with _ | ⟨r, rest2⟩
      · simp
      · have : k < r := (List.chain'_cons.mp hchain).1
        exact List.chain'_cons.mpr ⟨by omega, (List.chain'_cons.mp hchain).2⟩
    · rw [List.tail_cons]
      rcases rest with _ | ⟨r, rest2⟩
      · simp
      · have : k < r := (List.chain'_cons.mp hchain).1
        exact List.chain'_cons.mpr ⟨by omega, hgap⟩
    · intro hh
      simp at hh ⊢
      omega
    · intro o ho
      rcases List.mem_cons.mp ho with rfl | ho2
      · omega
      · rcases List.mem_cons.mp ho2 with rfl | ho3
        · omega
        · exact hb o (by simp [ho3])
    · rw [sumL_cons, sumL_cons, sumL_cons]
      have hke : k - 2 + 2 = k := by omega
      have h21 : k - 2 + 1 = k - 1 := by omega
      rw [hke, h21] at hrec
      omega

/-- The pure shape run of the build phase: the order list after `i`
inserts, a function of `i` alone (the shape updates never inspect the
data). -/
def ordersRun : Nat → List Nat
  | 0 => []
  | i + 1 => addOrders (ordersRun i)

theorem ordersRun_SI : ∀ i, i ≤ 4294967295 →
    SI (ordersRun i) ∧ sumL (ordersRun i) = i
  | 0 => fun _ => ⟨⟨by simp [ordersRun], by simp [ordersRun],
      by simp [ordersRun], by simp [ordersRun]⟩, rfl⟩
  | i + 1 => fun hi => by
    obtain ⟨hSI, hsum⟩ := ordersRun_SI i (by omega)
    obtain ⟨h1, h2⟩ := SI_addOrders (ordersRun i) hSI (by omega)
    exact ⟨h1, by rw [(show ordersRun (i + 1) = addOrders (ordersRun i)
      from rfl), h2, hsum]⟩

/-- C5 (counterexample): the build state reached after 7 inserts has
forest orders 0, 1, 3 (shape bits 11, smallest order 0).  With 9
elements in total, the 8th insert merges the two smallest trees into
one of order 2 whose left neighbour has order 3, so the claim's next
possible merge - its own adjacent-orders case (2) - needs just 1
further element, and exactly 1 remains: by the claim's criterion no
full rectify is due.  The source's `isLast`, however, ignores the
adjacent neighbour for orders at least 2 and demands `L (1) + 1 = 2`
elements, so it runs a full rectify, which here moves the element at
index 4; the claim's prescribed single-tree rebalance would leave the
array unchanged. -/
theorem claim_C5_counterexample :
    ordersRun 7 = [0, 1, 3] ∧
    RepShape ⟨11, 0⟩ [0, 1, 3] ∧
    addOrders [0, 1, 3] = [2, 3] ∧
    ¬ addIsFinalClaim (addOrders [0, 1, 3]) 7 9 ∧
    addIsLast (addShape ⟨11, 0⟩) 7 9 = true ∧
    LeonardoHeapAdd (#[1, 2, 3, 4, 100, 5, 6, 7, 9] : Array Nat) 0 7 9
        ⟨11, 0⟩ ≠
      some (RebalanceSingleHeap (#[1, 2, 3, 4, 100, 5, 6, 7, 9] : Array Nat)
        7 (addShape ⟨11, 0⟩).smallestTreeSize, addShape ⟨11, 0⟩) :=
  ⟨by decide, ⟨by decide, by simp, by decide, Or.inr (by decide)⟩,
    by decide, by decide, by decide, by decide⟩

theorem dropTreesAux_found (k' : Nat) (rest : List Nat)
    (hlb : ∀ x ∈ rest, k' + 1 ≤ x) :
    ∀ (fuel s t : Nat), t / 2 = bitsOf (s + 1) (k' :: rest) → s + 1 ≤ k' →
      k' - s ≤ fuel →
      dropTreesAux fuel t s = (bitsOf k' (k' :: rest), k')
  | 0, s, t => fun _ hs hf => by omega
  | fuel + 1, s, t => fun ht hs hf => by
    unfold dropTreesAux
    dsimp only
    rcases Nat.eq_or_lt_of_le hs with he | hlt
    · have hodd : bitsOf (s + 1) (k' :: rest) % 2 = 1 := by
        rw [← he] at hlb ⊢
        rw [bitsOf_head (s + 1) rest hlb]
        omega
      rw [if_neg (by
        rw [ht]
        simp [bsTest]
        omega)]
      rw [ht, ← he]
    · have heven : bitsOf (s + 1) (k' :: rest) % 2 = 0 := by
        rw [bitsOf_shift (s + 1) (k' :: rest) (by
          intro x hx
          rcases List.mem_cons.mp hx with rfl | hx2
          · omega
          · have := hlb x hx2
            omega)]
        omega
      have hpos : 0 < bitsOf (s + 1) (k' :: rest) := by
        rw [bitsOf_cons]
        exact Nat.lt_of_lt_of_le (Nat.pos_pow_of_pos _ (by omega))
          (Nat.le_add_right _ _)
      rw [if_pos (by
        constructor
        · rw [ht]; omega
        · rw [ht]
          simp [bsTest]
          omega)]
      refine dropTreesAux_found k' rest hlb fuel (s + 1) (t / 2) ?_ (by omega)
        (by omega)
      rw [ht, bitsOf_shift (s + 1) (k' :: rest) (by
        intro x hx
        rcases List.mem_cons.mp hx with rfl | hx2
        · omega
        · have := hlb x hx2
          omega)]
      omega

theorem dropTreesAux_empty (fuel t s : Nat) (hf : 1 ≤ fuel) (ht : t / 2 = 0) :
    dropTreesAux fuel t s = (0, s + 1) := by
  obtain ⟨f, rfl⟩ : ∃ f, fuel = f + 1 := ⟨fuel - 1, by omega⟩
  unfold dropTreesAux
  dsimp only
  rw [if_neg (by rw [ht]; simp)]
  rw [ht]

theorem removeShape2_bits (m : Nat) (rest : List Nat) (hm : 2 ≤ m)
    (hch : List.Chain' (· < ·) (m :: rest))
    (hb : ∀ o ∈ m :: rest, o ≤ 45) :
    bsSet1 (bsSet0 (bsShl (bsClear0 (bitsOf m (m :: rest))) 2))
        = bitsOf (m - 2) ((m - 2) :: (m - 1) :: rest) ∧
    bsSet1 (bsSet0 (bsShl (bsClear0 (bitsOf m (m :: rest))) 2)) / 2
        = bitsOf (m - 1) ((m - 1) :: rest) := by
  have hlb : ∀ x ∈ rest, m + 1 ≤ x := fun x hx => chain_lt_head hch x hx
  have hhead := bitsOf_head m rest hlb
  have hlt : bitsOf (m + 1) rest < 2 ^ (46 - (m + 1)) := by
    refine bitsOf_lt (m + 1) rest ((List.chain'_cons'.mp hch).2) ?_
    intro o ho
    exact ⟨hlb o ho, hb o (by simp [ho])⟩
  have hsm : 8 * bitsOf (m + 1) rest < 2 ^ 46 := by
    have h1 : (8 : Nat) = 2 ^ 3 := by norm_num
    have h2 : 2 ^ 3 * bitsOf (m + 1) rest < 2 ^ 3 * 2 ^ (46 - (m + 1)) := by
      have := Nat.mul_lt_mul_of_lt_of_le (le_refl (2 ^ 3)) hlt
        (by norm_num)
      omega
    have h3 : (2 : Nat) ^ 3 * 2 ^ (46 - (m + 1)) ≤ 2 ^ 46 := by
      rw [← Nat.pow_add]
      exact Nat.pow_le_pow_right (by norm_num) (by omega)
    omega
  have hclear : bsClear0 (bitsOf m (m :: rest)) = 2 * bitsOf (m + 1) rest := by
    unfold bsClear0
    rw [hhead]
    omega
  have hshl : bsShl (2 * bitsOf (m + 1) rest) 2 = 8 * bitsOf (m + 1) rest := by
    unfold bsShl
    rw [Nat.mod_eq_of_lt (by omega)]
    ring
  have hset0 : bsSet0 (8 * bitsOf (m + 1) rest)
      = 8 * bitsOf (m + 1) rest + 1 := by
    unfold bsSet0
    omega
  have hset1 : bsSet1 (8 * bitsOf (m + 1) rest + 1)
      = 8 * bitsOf (m + 1) rest + 3 := by
    unfold bsSet1
    omega
  have hrest2 : bitsOf (m - 2) rest = 8 * bitsOf (m + 1) rest := by
    rw [bitsOf_factor (m + 1) (m - 2) (by omega) rest hlb]
    have : m + 1 - (m - 2) = 3 := by omega
    rw [this]
    norm_num
  have hrest1 : bitsOf (m - 1) rest = 4 * bitsOf (m + 1) rest := by
    rw [bitsOf_factor (m + 1) (m - 1) (by omega) rest hlb]
    have : m + 1 - (m - 1) = 2 := by omega
    rw [this]
    norm_num
  constructor
  · rw [hclear, hshl, hset0, hset1, bitsOf_cons, bitsOf_cons, hrest2]
    have e1 : m - 2 - (m - 2) = 0 := by omega
    have e2 : m - 1 - (m - 2) = 1 := by omega
    rw [e1, e2]
    norm_num
    omega
  · rw [hclear, hshl, hset0, hset1, bitsOf_cons, hrest1]
    have e1 : m - 1 - (m - 1) = 0 := by omega
    rw [e1]
    omega

theorem dropShape_rep (s : HeapShape) (k : Nat) (rest : List Nat)
    (hrep : RepShape s (k :: rest)) (hb : ∀ o ∈ k :: rest, o ≤ 45) :
    RepShape ⟨(dropTreesAux 46 s.trees s.smallestTreeSize).1,
      (dropTreesAux 46 s.trees s.smallestTreeSize).2⟩ rest := by
  have hch := hrep.2.1
  rcases rep_parity s (k :: rest) hrep with ⟨h1, _⟩ | ⟨h1, h2⟩
  · simp at h1
  rw [List.tail_cons] at h2
  have ht : s.trees / 2 = bitsOf (s.smallestTreeSize + 1) rest := by omega
  rcases rest with _ | ⟨k', r2⟩
  · rw [dropTreesAux_empty 46 s.trees s.smallestTreeSize (by omega)
      (by rw [ht, bitsOf_nil])]
    exact ⟨by simp [bitsOf_nil], by simp, by simp, Or.inl rfl⟩
  · have hk : k = s.smallestTreeSize := by simpa using h1
    have hkk : k < k' := (List.chain'_cons.mp hch).1
    have hk45 : k' ≤ 45 := hb k' (by simp)
    have hlb : ∀ x ∈ r2, k' + 1 ≤ x :=
      fun x hx => chain_lt_head (List.chain'_cons.mp hch).2 x hx
    rw [dropTreesAux_found k' r2 hlb 46 s.smallestTreeSize s.trees ht
      (by omega) (by omega)]
    exact ⟨rfl, (List.chain'_cons.mp hch).2,
      fun o ho => by
        rcases List.mem_cons.mp ho with rfl | ho2
        · exact le_refl _
        · exact le_of_lt (chain_lt_head (List.chain'_cons.mp hch).2 o ho2),
      Or.inr (by simp)⟩

theorem shape2_rep (m : Nat) (rest : List Nat) (hm : 2 ≤ m)
    (hch : List.Chain' (· < ·) (m :: rest))
    (hb : ∀ o ∈ m :: rest, o ≤ 45) :
    RepShape ⟨bsSet1 (bsSet0 (bsShl (bsClear0 (bitsOf m (m :: rest))) 2)),
        m - 2⟩ ((m - 2) :: (m - 1) :: rest) ∧
    RepShape ⟨bsSet1 (bsSet0 (bsShl (bsClear0 (bitsOf m (m :: rest))) 2)) / 2,
        m - 1⟩ ((m - 1) :: rest) := by
  obtain ⟨hb1, hb2⟩ := removeShape2_bits m rest hm hch hb
  have hlb : ∀ x ∈ rest, m + 1 ≤ x := fun x hx => chain_lt_head hch x hx
  constructor
  · refine ⟨hb1, ?_, ?_, Or.inr (by simp)⟩
    · refine List.chain'_cons.mpr ⟨by omega, ?_⟩
      refine List.chain'_cons'.mpr ⟨?_, (List.chain'_cons'.mp hch).2⟩
      intro y hy
      have := hlb y (List.mem_of_mem_head? hy)
      omega
    · intro o ho
      show m - 2 ≤ o
      rcases List.mem_cons.mp ho with rfl | ho2
      · exact le_refl _
      · rcases List.mem_cons.mp ho2 with rfl | ho3
        · omega
        · have := hlb o ho3
          omega
  · refine ⟨hb2, ?_, ?_, Or.inr (by simp)⟩
    · refine List.chain'_cons'.mpr ⟨?_, (List.chain'_cons'.mp hch).2⟩
      intro y hy
      have := hlb y (List.mem_of_mem_head? hy)
      omega
    · intro o ho
      show m - 1 ≤ o
      rcases List.mem_cons.mp ho with rfl | ho2
      · exact le_refl _
      · have := hlb o ho2
        omega

/-- Build-phase invariant: all trees are heaps, and every tail segment of
the forest that coincides with a tail segment of the final forest `F`
(matching orders, hence matching root positions) has non-decreasing roots
from left to right. -/
def BuildInv (F : List Nat) (a : Array α) (i : Nat) (os : List Nat) : Prop :=
  ForestHeaps a i os ∧
  ∀ d, List.IsSuffix (os.drop d) F →
    RootsAsc a (i - sumL (os.take d)) (os.drop d)

theorem size_of_perm (a2 a : Array α) (h : a2.toList.Perm a.toList) :
    a2.size = a.size := by
  have := h.length_eq
  simpa using this

/-- A forest that coincides with a tail segment of the final forest always
passes the source's `isLast` test: the elements remaining to its right are
fewer than the next merge would need. -/
theorem suffix_isLast (os' F : List Nat) (e n : Nat) (s1 : HeapShape)
    (hrep1 : RepShape s1 os') (hne : os' ≠ [])
    (hSIF : SI F) (hsumF : sumL F = n) (hsum' : sumL os' = e + 1)
    (he : e < n) (hsfx : List.IsSuffix os' F) :
    addIsLast s1 e n = true := by
  rw [addIsLast_iff_spec s1 os' hrep1 hne e n he]
  obtain ⟨pre, hpre⟩ := hsfx
  obtain ⟨k, tl, rfl⟩ : ∃ k tl, os' = k :: tl := by
    rcases os' with _ | ⟨k, tl⟩
    · exact absurd rfl hne
    · exact ⟨k, tl, rfl⟩
  have hsplit : sumL pre + sumL (k :: tl) = n := by
    rw [← sumL_append, hpre, hsumF]
  obtain ⟨hcF, hgF, _, hbF⟩ := hSIF
  rw [← hpre] at hcF hgF hbF
  have hfb := finalSuffixBound pre k tl hcF hgF hbF
  unfold addIsFinalSpec
  omega

theorem rootsAsc_short (a : Array α) (e : Nat) : ∀ (l : List Nat),
    l.length ≤ 1 → RootsAsc a e l
  | [], _ => trivial
  | [_], _ => trivial
  | _ :: _ :: _, h => by simp at h

theorem add_bundle (a : Array α) (e : Nat) (os F : List Nat)
    (hSI : SI os) (hsum : sumL os = e) (hSI' : SI (addOrders os))
    (hInv : BuildInv F a e os) :
    ∃ size' osr', addOrders os = size' :: osr' ∧
      (2 ≤ size' → IsHeap a (size' - 1) (FirstChild e size') ∧
        IsHeap a (size' - 2) (SecondChild e)) ∧
      ForestHeaps a (e + 1 - L size') osr' ∧
      (∀ d', 1 ≤ d' → List.IsSuffix ((addOrders os).drop d') F →
        RootsAsc a (e + 1 - sumL ((addOrders os).take d'))
          ((addOrders os).drop d')) := by
  have hL0 := L_one.1
  have hL1 := L_one.2
  rcases os with _ | ⟨k0, _ | ⟨k1, rest⟩⟩
  · -- empty forest: a fresh order-1 tree
    refine ⟨1, [], rfl, by omega, trivial, ?_⟩
    intro d' hd hsfx
    refine rootsAsc_short a _ _ ?_
    rw [(show addOrders [] = [1] from rfl)]
    simp
  · -- a single tree: a fresh unit tree appears at its right
    have hc : ∃ c, addOrders [k0] = c :: [k0] ∧ c ≤ 1 := by
      rw [(show addOrders [k0] = if k0 = 1 then [0, k0] else [1, k0] from rfl)]
      split_ifs
      · exact ⟨0, rfl, by omega⟩
      · exact ⟨1, rfl, by omega⟩
    obtain ⟨c, hc1, hc2⟩ := hc
    refine ⟨c, [k0], hc1, by intro h2; omega, ?_, ?_⟩
    · have hLc : L c = 1 := by interval_cases c <;> omega
      rw [(show e + 1 - L c = e from by omega)]
      exact hInv.1
    · intro d' hd hsfx
      refine rootsAsc_short a _ _ ?_
      rw [hc1]
      simp
      omega
  · rw [sumL_cons, sumL_cons] at hsum
    by_cases hadj : k1 = k0 + 1
    · -- merge of the two rightmost trees
      subst hadj
      rw [addOrders_adj] at hSI' ⊢
      have hb2 : k0 + 2 ≤ 45 := hSI'.2.2.2 (k0 + 2) (by simp)
      have hrec : L (k0 + 2) = L (k0 + 1) + L k0 + 1 := L_rec k0 (by omega)
      have hLk0 : 1 ≤ L k0 := L_pos k0 (by omega)
      have hLk1 : 1 ≤ L (k0 + 1) := L_pos (k0 + 1) (by omega)
      refine ⟨k0 + 2, rest, rfl, ?_, ?_, ?_⟩
      · intro _
        constructor
        · have h1 := hInv.1.2.1
          rw [FirstChild_eq, addSubRed1]
          rw [(show e - L k0 - 1 = e - 1 - L k0 from by omega)] at h1
          exact h1
        · have h1 := hInv.1.1
          rw [SecondChild_eq, addSubRed2]
          exact h1
      · have h1 := hInv.1.2.2
        rw [(show e + 1 - L (k0 + 2) = e - L k0 - L (k0 + 1) from by omega)]
        exact h1
      · intro d' hd hsfx
        obtain ⟨dd, rfl⟩ : ∃ dd, d' = dd + 1 := ⟨d' - 1, by omega⟩
        have hdrop : ((k0 + 2) :: rest).drop (dd + 1)
            = (k0 :: (k0 + 1) :: rest).drop (dd + 2) := rfl
        have htk : ((k0 + 2) :: rest).take (dd + 1)
            = (k0 + 2) :: rest.take dd := rfl
        have htk2 : (k0 :: (k0 + 1) :: rest).take (dd + 2)
            = k0 :: (k0 + 1) :: rest.take dd := rfl
        rw [hdrop] at hsfx ⊢
        have hiv := hInv.2 (dd + 2) hsfx
        rw [htk2, sumL_cons, sumL_cons] at hiv
        rw [htk, sumL_cons,
          (show e + 1 - (L (k0 + 2) + sumL (rest.take dd))
            = e - (L k0 + (L (k0 + 1) + sumL (rest.take dd))) from by omega)]
        exact hiv
    · -- no merge: a fresh unit tree
      have hc : ∃ c, addOrders (k0 :: k1 :: rest) = c :: k0 :: k1 :: rest ∧
          c ≤ 1 := by
        rw [addOrders_nonadj k0 (k1 :: rest) (by simp; omega)]
        split_ifs
        · exact ⟨0, rfl, by omega⟩
        · exact ⟨1, rfl, by omega⟩
      obtain ⟨c, hc1, hc2⟩ := hc
      have hLc : L c = 1 := by interval_cases c <;> omega
      rw [hc1]
      refine ⟨c, k0 :: k1 :: rest, rfl, by intro h2; omega, ?_, ?_⟩
      · rw [(show e + 1 - L c = e from by omega)]
        exact hInv.1
      · intro d' hd hsfx
        obtain ⟨dd, rfl⟩ : ∃ dd, d' = dd + 1 := ⟨d' - 1, by omega⟩
        have hdrop : (c :: k0 :: k1 :: rest).drop (dd + 1)
            = (k0 :: k1 :: rest).drop dd := rfl
        have htk : (c :: k0 :: k1 :: rest).take (dd + 1)
            = c :: (k0 :: k1 :: rest).take dd := rfl
        rw [hdrop] at hsfx ⊢
        have hiv := hInv.2 dd hsfx
        rw [htk, sumL_cons,
          (show e + 1 - (L c + sumL ((k0 :: k1 :: rest).take dd))
            = e - sumL ((k0 :: k1 :: rest).take dd) from by omega)]
        exact hiv

/-- One build-phase insertion preserves the invariant. -/
theorem add_step (a : Array α) (n e : Nat) (os F : List Nat) (s : HeapShape)
    (hsz : a.size = n) (hn : n ≤ 4294967295) (he : e < n)
    (hSI : SI os) (hsum : sumL os = e)
    (hSIF : SI F) (hsumF : sumL F = n)
    (hrep : RepShape s os)
    (hInv : BuildInv F a e os) :
    ∃ a2, LeonardoHeapAdd a 0 e n s = some (a2, addShape s) ∧
      a2.size = n ∧
      BuildInv F a2 (e + 1) (addOrders os) ∧
      a2.toList.Perm a.toList ∧
      (∀ j, e < j → aget a2 j = aget a j) := by
  obtain ⟨hSI', hsum'⟩ := SI_addOrders os hSI (by omega)
  have hrep1 : RepShape (addShape s) (addOrders os) :=
    addShape_rep s os hrep hSI.2.2.2 hSI.2.1 hSI.2.2.1
  have hne' : addOrders os ≠ [] := addOrders_ne_nil os
  obtain ⟨size', osr', hos', hch', hfh', hzone'⟩ :=
    add_bundle a e os F hSI hsum hSI' hInv
  have hsum2 : sumL (size' :: osr') = e + 1 := by
    rw [← hos', hsum', hsum]
  have hs45 : size' ≤ 45 := hSI'.2.2.2 size' (by rw [hos']; simp)
  have hLs1 : L size' ≤ e + 1 := by
    rw [sumL_cons] at hsum2
    omega
  have hsmall : (addShape s).smallestTreeSize = size' := by
    rcases hrep1.2.2.2 with h | h
    · rw [hos'] at h
      simp at h
    · rw [hos'] at h
      simp at h
      omega
  have htrees : (addShape s).trees = bitsOf size' (size' :: osr') := by
    rw [hrep1.1, hsmall, hos']
  have hesz : e < a.size := by omega
  unfold LeonardoHeapAdd
  dsimp only
  by_cases hlast : addIsLast (addShape s) e n = true
  · rw [if_pos hlast]
    have hwalk : ∀ d, 1 ≤ d → d ≤ (size' :: osr').length →
        RootsAsc a (e + 1 - sumL ((size' :: osr').take d))
          ((size' :: osr').drop d) →
        ∃ a2, LeonardoHeapRectifyAux 0 (e + 1) a e
            (bitsOf size' (size' :: osr')) size' = some a2 ∧
          ForestHeaps a2 (e + 1) (size' :: osr') ∧
          RootsAsc a2 (e + 1 - sumL ((size' :: osr').take d))
            ((size' :: osr').drop d) ∧
          (d = 1 → RootsAsc a2 (e + 1) (size' :: osr')) ∧
          (∀ i, i < 0 ∨ e < i → aget a2 i = aget a i) ∧
          a2.toList.Perm a.toList ∧
          (∀ i, 0 ≤ i → i ≤ e → ∃ j, 0 ≤ j ∧ j ≤ e ∧ aget a2 i = aget a j) :=
      fun d hd1 hd2 hasc =>
        rectify_walk 0 (e + 1) a e size' osr' d (by omega) hesz
          (by rw [← hos']; exact hSI'.1)
          (by rw [← hos']; exact hSI'.2.2.2)
          (by rw [hsum2]; omega) (Nat.zero_le e) hch' hfh' hd1 hd2 hasc
    obtain ⟨a2, heq2, hFH2, hA2, hF2, hUn2, hPerm2, hEx2⟩ :=
      hwalk ((size' :: osr').length) (by simp) (le_refl _)
        (by rw [List.drop_length]; trivial)
    have hrect : LeonardoHeapRectify a 0 (e + 1) (addShape s) = some a2 := by
      unfold LeonardoHeapRectify
      rw [(show e + 1 - 1 = e from rfl), htrees, hsmall]
      exact heq2
    rw [hrect]
    refine ⟨a2, rfl, ?_, ⟨?_, ?_⟩, hPerm2, ?_⟩
    · rw [size_of_perm a2 a hPerm2, hsz]
    · rw [hos']
      exact hFH2
    · intro d hsfx
      rcases Nat.eq_zero_or_pos d with rfl | hd1
      · -- the whole forest matches the final forest: fully sorted roots
        have hsfx1 : List.IsSuffix ((addOrders os).drop 1) F := by
          simp only [List.drop_zero] at hsfx
          exact (List.drop_suffix 1 (addOrders os)).trans hsfx
        have hasc1 := hzone' 1 (le_refl 1) hsfx1
        rw [hos'] at hasc1
        obtain ⟨a2', heq2', _, _, hFull', _, _, _⟩ :=
          hwalk 1 (le_refl 1) (by simp) hasc1
        have ha22 : a2 = a2' := by
          have := heq2.symm.trans heq2'
          simpa using this
        subst ha22
        show RootsAsc a2 (e + 1) (addOrders os)
        rw [hos']
        exact hFull' rfl
      · rcases le_or_lt d ((addOrders os).length) with hdl | hdl
        · have hasc := hzone' d hd1 hsfx
          rw [hos'] at hasc
          obtain ⟨a2', heq2', _, hA', _, _, _, _⟩ :=
            hwalk d hd1 (by rw [← hos']; exact hdl) hasc
          have ha22 : a2 = a2' := by
            have := heq2.symm.trans heq2'
            simpa using this
          subst ha22
          rw [hos']
          exact hA'
        · rw [List.drop_eq_nil_of_le (by omega)]
          trivial
    · intro j hj
      exact hUn2 j (Or.inr hj)
  · rw [if_neg hlast]
    have hnotsfx : ¬ List.IsSuffix (addOrders os) F := by
      intro hsfx
      exact hlast (suffix_isLast (addOrders os) F e n (addShape s) hrep1 hne'
        hSIF hsumF (by rw [hsum', hsum]) he hsfx)
    refine ⟨RebalanceSingleHeap a e (addShape s).smallestTreeSize, rfl, ?_,
      ⟨?_, ?_⟩, ?_, ?_⟩
    · rw [hsmall, size_rebalance, hsz]
    · rw [hsmall, hos']
      refine ⟨rebalance_isHeap a size' e hs45 hLs1 hesz
        (fun h2 => (hch' h2).1) (fun h2 => (hch' h2).2), ?_⟩
      refine forestHeaps_congr a _ (e + 1 - L size') osr'
        (fun o ho => hSI'.2.2.2 o (by rw [hos']; simp [ho])) ?_ ?_ hfh'
      · rw [sumL_cons] at hsum2
        omega
      · intro i hi1 hi2
        exact rebalance_outside a size' e i hs45 hLs1 (Or.inl (by omega))
    · intro d hsfx
      rcases Nat.eq_zero_or_pos d with rfl | hd1
      · simp only [List.drop_zero] at hsfx
        exact absurd hsfx hnotsfx
      · rcases le_or_lt d ((addOrders os).length) with hdl | hdl
        · have hasc := hzone' d hd1 hsfx
          rw [hsmall]
          have hTD := sumL_take_drop d (addOrders os)
          have hS1 : L size' ≤ sumL ((addOrders os).take d) := by
            obtain ⟨dd, rfl⟩ : ∃ dd, d = dd + 1 := ⟨d - 1, by omega⟩
            rw [hos', (show ((size' :: osr').take (dd + 1))
              = size' :: osr'.take dd from rfl), sumL_cons]
            omega
          have hsum3 : sumL (addOrders os) = e + 1 := by rw [hsum', hsum]
          refine rootsAsc_congr a _ _ _
            (fun o ho => hSI'.2.2.2 o (List.mem_of_mem_drop ho)) ?_ ?_ hasc
          · omega
          · intro i hi1 hi2
            exact rebalance_outside a size' e i hs45 hLs1 (Or.inl (by omega))
        · rw [List.drop_eq_nil_of_le (by omega)]
          trivial
    · rw [hsmall]
      exact rebalance_perm a size' e hesz
    · intro j hj
      rw [hsmall]
      exact rebalance_outside a size' e j hs45 hLs1 (Or.inr hj)

/-- The build loop establishes the invariant at the full length, ending
with the final forest. -/
theorem buildLoop_inv (n : Nat) (hn : n ≤ 4294967295)
    (hSIF : SI (ordersRun n)) (hsumF : sumL (ordersRun n) = n) :
    ∀ (count : Nat) (a : Array α) (e : Nat) (s : HeapShape),
    a.size = n → e + count = n →
    SI (ordersRun e) → sumL (ordersRun e) = e →
    RepShape s (ordersRun e) →
    BuildInv (ordersRun n) a e (ordersRun e) →
    ∃ a2 s2, buildLoop 0 n count a e s = some (a2, s2) ∧
      a2.size = n ∧ RepShape s2 (ordersRun n) ∧
      BuildInv (ordersRun n) a2 n (ordersRun n) ∧
      a2.toList.Perm a.toList
  | 0, a, e, s => fun hsz hcount hSI hsum hrep hInv => by
    have he : e = n := by omega
    subst he
    exact ⟨a, s, rfl, hsz, hrep, hInv, List.Perm.refl _⟩
  | count + 1, a, e, s => fun hsz hcount hSI hsum hrep hInv => by
    have he : e < n := by omega
    obtain ⟨a1, heq1, hsz1, hInv1, hPerm1, _⟩ :=
      add_step a n e (ordersRun e) (ordersRun n) s hsz hn he hSI hsum
        hSIF hsumF hrep hInv
    obtain ⟨hSI', hsum'⟩ := SI_addOrders (ordersRun e) hSI (by omega)
    have hrep1 : RepShape (addShape s) (addOrders (ordersRun e)) :=
      addShape_rep s (ordersRun e) hrep hSI.2.2.2 hSI.2.1 hSI.2.2.1
    have hrun : addOrders (ordersRun e) = ordersRun (e + 1) := rfl
    rw [hrun] at hInv1 hrep1 hSI' hsum'
    obtain ⟨a2, s2, heq2, hsz2, hrep2, hInv2, hPerm2⟩ :=
      buildLoop_inv n hn hSIF hsumF count a1 (e + 1) (addShape s) hsz1
        (by omega) hSI' (by rw [hsum', hsum]) hrep1 hInv1
    refine ⟨a2, s2, ?_, hsz2, hrep2, hInv2, hPerm2.trans hPerm1⟩
    unfold buildLoop
    rw [heq1]
    exact heq2

/-- One extraction-phase dequeue preserves the invariant: the rightmost
root (the maximum of the active range) is left in place at `e - 1`, the
two orphaned subtrees are rectified back into the forest, and the active
range shrinks by one. -/
theorem remove_step (a : Array α) (n e : Nat) (os : List Nat) (s : HeapShape)
    (hsz : a.size = n) (he1 : 1 ≤ e) (hen : e ≤ n)
    (hSI : SI os) (hsum : sumL os = e)
    (hrep : RepShape s os)
    (hFH : ForestHeaps a e os) (hRA : RootsAsc a e os)
    (hsuf : ∀ i j, e ≤ i → i ≤ j → j < n → aget a i ≤ aget a j)
    (hdom : ∀ i j, i < e → e ≤ j → j < n → aget a i ≤ aget a j) :
    ∃ a2 s2, LeonardoHeapRemove a 0 e s = some (a2, s2) ∧
      a2.size = n ∧
      RepShape s2 (removeOrders os) ∧
      ForestHeaps a2 (e - 1) (removeOrders os) ∧
      RootsAsc a2 (e - 1) (removeOrders os) ∧
      (∀ i j, e - 1 ≤ i → i ≤ j → j < n → aget a2 i ≤ aget a2 j) ∧
      (∀ i j, i < e - 1 → e - 1 ≤ j → j < n → aget a2 i ≤ aget a2 j) ∧
      a2.toList.Perm a.toList ∧
      (∀ j, e - 1 ≤ j → aget a2 j = aget a j) := by
  obtain ⟨k, rest, rfl⟩ : ∃ k rest, os = k :: rest := by
    rcases os with _ | ⟨k, rest⟩
    · rw [sumL_nil] at hsum
      omega
    · exact ⟨k, rest, rfl⟩
  have hk : k = s.smallestTreeSize := by
    rcases hrep.2.2.2 with h | h
    · simp at h
    · simpa using h
  have hb45 := hSI.2.2.2
  have hk45 : k ≤ 45 := hb45 k (by simp)
  have hLkpos : 1 ≤ L k := L_pos k (by omega)
  rw [sumL_cons] at hsum
  have hMax : ∀ i, i < e → aget a i ≤ aget a (e - 1) := by
    intro i hi
    exact forest_dominance a e (k :: rest) hb45 (by rw [sumL_cons]; omega)
      hFH hRA i (by rw [sumL_cons]; omega) hi
  unfold LeonardoHeapRemove
  dsimp only
  by_cases hsmall : s.smallestTreeSize ≤ 1
  · rw [if_pos hsmall]
    have hk1 : k ≤ 1 := by omega
    have hLk1 : L k = 1 := by
      interval_cases k
      · exact L_one.1
      · exact L_one.2
    have hro : removeOrders (k :: rest) = rest := by
      rw [(show removeOrders (k :: rest) = if k ≤ 1 then rest
        else (k - 2) :: (k - 1) :: rest from rfl), if_pos hk1]
    refine ⟨a, _, rfl, hsz, ?_, ?_, ?_, ?_, ?_, List.Perm.refl _, fun _ _ => rfl⟩
    · rw [hro]
      exact dropShape_rep s k rest hrep hb45
    · rw [hro, (show e - 1 = e - L k from by omega)]
      exact hFH.2
    · rw [hro]
      rcases rest with _ | ⟨r, r2⟩
      · trivial
      · have := hRA.2
        rw [(show e - 1 = e - L k from by omega)]
        exact this
    · intro i j hi hij hj
      rcases le_or_lt e i with hie | hie
      · exact hsuf i j hie hij hj
      · have hie1 : i = e - 1 := by omega
        subst hie1
        rcases le_or_lt e j with hje | hje
        · exact hdom (e - 1) j (by omega) hje hj
        · have : j = e - 1 := by omega
          rw [this]
    · intro i j hi hj hjn
      rcases le_or_lt e j with hje | hje
      · exact hdom i j (by omega) hje hjn
      · have : j = e - 1 := by omega
        subst this
        exact hMax i (by omega)
  · rw [if_neg hsmall]
    have hk2 : 2 ≤ k := by omega
    obtain ⟨mm, rfl⟩ : ∃ mm, k = mm + 2 := ⟨k - 2, by omega⟩
    have hrec : L (mm + 2) = L (mm + 1) + L mm + 1 := L_rec mm (by omega)
    have hLmm : 1 ≤ L mm := L_pos mm (by omega)
    have hLmm1 : 1 ≤ L (mm + 1) := L_pos (mm + 1) (by omega)
    have he3 : 3 ≤ e := by omega
    have htr : s.trees = bitsOf (mm + 2) ((mm + 2) :: rest) := by
      have h1 := hrep.1
      rw [← hk] at h1
      exact h1
    have h2r := shape2_rep (mm + 2) rest (by omega) hSI.1 hb45
    rw [(show mm + 2 - 2 = mm from rfl), (show mm + 2 - 1 = mm + 1 from rfl)]
      at h2r
    obtain ⟨hrepS2, hrepABL⟩ := h2r
    have hS2trees : bsSet1 (bsSet0 (bsShl (bsClear0
        (bitsOf (mm + 2) ((mm + 2) :: rest))) 2))
        = bitsOf mm (mm :: (mm + 1) :: rest) := hrepS2.1
    have hABLtrees : bsSet1 (bsSet0 (bsShl (bsClear0
        (bitsOf (mm + 2) ((mm + 2) :: rest))) 2)) / 2
        = bitsOf (mm + 1) ((mm + 1) :: rest) := hrepABL.1
    obtain ⟨hSI2, hsum2⟩ := SI_removeOrders ((mm + 2) :: rest) hSI (by simp)
    rw [(show removeOrders ((mm + 2) :: rest) = mm :: (mm + 1) :: rest
      from rfl)] at hSI2 hsum2
    have hb45' : ∀ o ∈ (mm + 1) :: rest, o ≤ 45 :=
      fun o ho => hSI2.2.2.2 o (by simp [ho])
    have hfc : FirstChild (e - 1) (mm + 2) = e - 2 - L mm := by
      rw [FirstChild_eq]
      omega
    have hsc : SecondChild (e - 1) = e - 2 := by
      rw [SecondChild_eq]
      omega
    have hLmmle : L mm ≤ e - 2 := by
      rw [sumL_cons] at hsum2
      rw [sumL_cons] at hsum2
      omega
    -- children of the left subtree, a full heap in the original array
    have hheapL : IsHeap a (mm + 1) (e - 2 - L mm) := by
      have h1 := isHeap_children_first a hFH.1 (by omega)
      rw [(show mm + 2 - 1 = mm + 1 from rfl), hfc] at h1
      exact h1
    have hheapS : IsHeap a mm (e - 2) := by
      have h1 := isHeap_children_second a hFH.1 (by omega)
      rw [(show mm + 2 - 2 = mm from rfl), hsc] at h1
      exact h1
    -- the first rectify: reinstate the left subtree as the rightmost tree
    obtain ⟨a1, heq1, hFH1, _, hFull1, hUn1, hPerm1, hEx1⟩ :=
      rectify_walk 0 (e - 2 - L mm + 1) a (e - 2 - L mm) (mm + 1) rest 1
        (by omega) (by omega) ((List.chain'_cons.mp hSI2.1).2) hb45'
        (by rw [sumL_cons]; omega) (Nat.zero_le _)
        (fun h2 => ⟨isHeap_children_first a hheapL h2,
          isHeap_children_second a hheapL h2⟩)
        (by
          rw [(show e - 2 - L mm + 1 - L (mm + 1) = e - L (mm + 2) from
            by omega)]
          exact hFH.2)
        (le_refl 1) (by simp)
        (by
          rw [(show ((mm + 1) :: rest).take 1 = [mm + 1] from rfl),
            (show ((mm + 1) :: rest).drop 1 = rest from rfl),
            (show sumL [mm + 1] = L (mm + 1) from by
              rw [sumL_cons, sumL_nil]; omega),
            (show e - 2 - L mm + 1 - L (mm + 1) = e - L (mm + 2) from
              by omega)]
          rcases rest with _ | ⟨r, r2⟩
          · trivial
          · exact hRA.2)
    -- the heap of the right subtree, untouched by the first rectify
    have hheapS1 : IsHeap a1 mm (e - 2) := by
      refine isHeap_congr a a1 mm (e - 2) (by omega) (by omega) ?_ hheapS
      intro i hi1 hi2
      exact hUn1 i (Or.inr (by omega))
    -- the second rectify: reinstate the right subtree
    obtain ⟨a2, heq2, hFH2, _, hFull2, hUn2, hPerm2, hEx2⟩ :=
      rectify_walk 0 (e - 2 + 1) a1 (e - 2) mm ((mm + 1) :: rest) 1
        (by omega) (by rw [size_of_perm a1 a hPerm1]; omega) hSI2.1
        hSI2.2.2.2 (by rw [sumL_cons, sumL_cons] at hsum2 ⊢; omega)
        (Nat.zero_le _)
        (fun h2 => ⟨isHeap_children_first a1 hheapS1 h2,
          isHeap_children_second a1 hheapS1 h2⟩)
        (by
          rw [(show e - 2 + 1 - L mm = e - 2 - L mm + 1 from by omega)]
          exact hFH1)
        (le_refl 1) (by simp)
        (by
          rw [(show (mm :: (mm + 1) :: rest).take 1 = [mm] from rfl),
            (show (mm :: (mm + 1) :: rest).drop 1 = (mm + 1) :: rest from rfl),
            (show sumL [mm] = L mm from by rw [sumL_cons, sumL_nil]; omega),
            (show e - 2 + 1 - L mm = e - 2 - L mm + 1 from by omega)]
          exact hFull1 rfl)
    -- assemble the result
    have hrect1 : LeonardoHeapRectify a 0 (FirstChild (e - 1)
        s.smallestTreeSize + 1)
        ⟨bsSet1 (bsSet0 (bsShl (bsClear0 s.trees) 2)) / 2,
          s.smallestTreeSize - 2 + 1⟩ = some a1 := by
      unfold LeonardoHeapRectify
      dsimp only
      rw [← hk, hfc, htr,
        (show mm + 2 - 2 + 1 = mm + 1 from rfl),
        (show e - 2 - L mm + 1 - 1 = e - 2 - L mm from rfl), hABLtrees]
      exact heq1
    have hrect2 : LeonardoHeapRectify a1 0 (SecondChild (e - 1) + 1)
        ⟨bsSet1 (bsSet0 (bsShl (bsClear0 s.trees) 2)),
          s.smallestTreeSize - 2⟩ = some a2 := by
      unfold LeonardoHeapRectify
      dsimp only
      rw [← hk, hsc, htr,
        (show mm + 2 - 2 = mm from rfl),
        (show e - 2 + 1 - 1 = e - 2 from rfl), hS2trees]
      exact heq2
    rw [hrect1]
    dsimp only
    rw [hrect2]
    have hU : ∀ j, e - 1 ≤ j → aget a2 j = aget a j := by
      intro j hj
      rw [hUn2 j (Or.inr (by omega)), hUn1 j (Or.inr (by omega))]
    have hBound : ∀ i, i ≤ e - 2 → aget a2 i ≤ aget a (e - 1) := by
      intro i hi
      obtain ⟨j2, _, hj2e, hv2⟩ := hEx2 i (Nat.zero_le _) hi
      rw [hv2]
      rcases le_or_lt j2 (e - 2 - L mm) with hj2l | hj2l
      · obtain ⟨j1, _, hj1e, hv1⟩ := hEx1 j2 (Nat.zero_le _) hj2l
        rw [hv1]
        exact hMax j1 (by omega)
      · rw [hUn1 j2 (Or.inr hj2l)]
        exact hMax j2 (by omega)
    refine ⟨a2, _, rfl, ?_, ?_, ?_, ?_, ?_, ?_, hPerm2.trans hPerm1, hU⟩
    · rw [size_of_perm a2 a1 hPerm2, size_of_perm a1 a hPerm1, hsz]
    · rw [(show removeOrders ((mm + 2) :: rest) = mm :: (mm + 1) :: rest
        from rfl), ← hk, htr]
      exact hrepS2
    · rw [(show removeOrders ((mm + 2) :: rest) = mm :: (mm + 1) :: rest
        from rfl), (show e - 1 = e - 2 + 1 from by omega)]
      exact hFH2
    · rw [(show removeOrders ((mm + 2) :: rest) = mm :: (mm + 1) :: rest
        from rfl), (show e - 1 = e - 2 + 1 from by omega)]
      exact hFull2 rfl
    · intro i j hi hij hj
      rcases le_or_lt e i with hie | hie
      · rw [hU i (by omega), hU j (by omega)]
        exact hsuf i j hie hij hj
      · have hie1 : i = e - 1 := by omega
        subst hie1
        rcases le_or_lt e j with hje | hje
        · rw [hU (e - 1) (le_refl _), hU j (by omega)]
          exact hdom (e - 1) j (by omega) hje hj
        · have : j = e - 1 := by omega
          rw [this]
    · intro i j hi hj hjn
      have h2 : aget a (e - 1) ≤ aget a2 j := by
        rcases le_or_lt e j with hje | hje
        · rw [hU j (by omega)]
          exact hdom (e - 1) j (by omega) hje hjn
        · have : j = e - 1 := by omega
          subst this
          rw [hU (e - 1) (le_refl _)]
      exact le_trans (hBound i (by omega)) h2

/-- The extraction loop turns the invariant into full sortedness. -/
theorem extractLoop_inv (n : Nat) :
    ∀ (count : Nat) (a : Array α) (s : HeapShape) (os : List Nat),
    a.size = n → count ≤ n →
    SI os → sumL os = count →
    RepShape s os →
    ForestHeaps a count os → RootsAsc a count os →
    (∀ i j, count ≤ i → i ≤ j → j < n → aget a i ≤ aget a j) →
    (∀ i j, i < count → count ≤ j → j < n → aget a i ≤ aget a j) →
    ∃ a2 s2, extractLoop 0 count a s = some (a2, s2) ∧
      a2.size = n ∧
      (∀ i j, i ≤ j → j < n → aget a2 i ≤ aget a2 j) ∧
      a2.toList.Perm a.toList
  | 0, a, s, os => fun hsz hcount hSI hsum hrep hFH hRA hsuf hdom =>
    ⟨a, s, rfl, hsz, fun i j hij hj => hsuf i j (Nat.zero_le i) hij hj,
      List.Perm.refl _⟩
  | count + 1, a, s, os => fun hsz hcount hSI hsum hrep hFH hRA hsuf hdom => by
    obtain ⟨a1, s1, heq1, hsz1, hrep1, hFH1, hRA1, hsuf1, hdom1, hPerm1, _⟩ :=
      remove_step a n (count + 1) os s hsz (by omega) hcount hSI hsum hrep
        hFH hRA hsuf hdom
    obtain ⟨hSI1, hsum1⟩ := SI_removeOrders os hSI (by
      intro hh
      rw [hh, sumL_nil] at hsum
      omega)
    obtain ⟨a2, s2, heq2, hsz2, hsorted, hPerm2⟩ :=
      extractLoop_inv n count a1 s1 (removeOrders os) hsz1 (by omega) hSI1
        (by omega) hrep1 hFH1 hRA1 hsuf1 hdom1
    refine ⟨a2, s2, ?_, hsz2, hsorted, hPerm2.trans hPerm1⟩
    unfold extractLoop
    rw [Nat.zero_add, heq1]
    exact heq2

/-- The full specification of the embedded `Smoothsort`: for inputs within
the documented 32-bit size range it succeeds, permutes the contents, and
sorts them in non-descending order. -/
theorem smoothsort_spec (a : Array α) (hsize : a.size ≤ 4294967295) :
    ∃ a2, smoothsort a = some a2 ∧ a2.toList.Perm a.toList ∧
      (∀ i j, i ≤ j → j < a2.size → aget a2 i ≤ aget a2 j) := by
  unfold smoothsort
  by_cases h1 : a.size ≤ 1
  · rw [if_pos h1]
    refine ⟨a, rfl, List.Perm.refl _, ?_⟩
    intro i j hij hj
    have : i = j := by omega
    rw [this]
  · rw [if_neg h1]
    obtain ⟨hSIF, hsumF⟩ := ordersRun_SI a.size hsize
    obtain ⟨hSI0, hsum0⟩ := ordersRun_SI 0 (by omega)
    obtain ⟨a1, s1, heq1, hsz1, hrep1, hInv1, hPerm1⟩ :=
      buildLoop_inv a.size hsize hSIF hsumF a.size a 0 ⟨0, 0⟩ rfl
        (by omega) hSI0 hsum0
        ⟨rfl, by simp [ordersRun], by simp [ordersRun], Or.inl rfl⟩
        ⟨trivial, fun d _ => by
          rw [(show (ordersRun 0).drop d = ([] : List Nat).drop d from rfl),
            List.drop_nil]
          trivial⟩
    have hRA1 : RootsAsc a1 a.size (ordersRun a.size) := by
      have := hInv1.2 0 (List.suffix_refl _)
      simpa using this
    obtain ⟨a2, s2, heq2, hsz2, hsorted, hPerm2⟩ :=
      extractLoop_inv a.size a.size a1 s1 (ordersRun a.size) hsz1 (le_refl _)
        hSIF hsumF hrep1 hInv1.1 hRA1
        (fun i j hi hij hj => absurd hj (by omega))
        (fun i j hi hj hjn => absurd hjn (by omega))
    rw [heq1]
    dsimp only
    rw [heq2]
    exact ⟨a2, rfl, hPerm2.trans hPerm1, fun i j hij hj => hsorted i j hij
      (by rw [← hsz2]; exact hj)⟩

/-- C1: for every input range whose length is within the documented
32-bit domain of the Leonardo-number table, and every element type whose
comparator is a strict total order (modelled by a `LinearOrder`),
`Smoothsort` succeeds, leaves a permutation of the original multiset, and
arranges it in non-descending order. -/
theorem claim_C1 {α : Type} [LinearOrder α] [Inhabited α] (a : Array α)
    (hsize : a.size ≤ 4294967295) :
    ∃ a2, smoothsort a = some a2 ∧ a2.toList.Perm a.toList ∧
      List.Pairwise (· ≤ ·) a2.toList := by
  obtain ⟨a2, heq, hperm, hsort⟩ := smoothsort_spec a hsize
  refine ⟨a2, heq, hperm, ?_⟩
  rw [List.pairwise_iff_getElem]
  intro i j hi hj hij
  have hlen : a2.toList.length = a2.size := by simp
  have h1 := hsort i j (by omega) (by omega)
  rw [aget_eq_toList_get a2 i (by omega), aget_eq_toList_get a2 j (by omega)]
    at h1
  exact h1

/-- C1 (witness): the theorem applied at a concrete input. -/
theorem claim_C1_witness :
    (#[3, 1, 2] : Array Nat).size ≤ 4294967295 ∧
    ∃ a2, smoothsort (#[3, 1, 2] : Array Nat) = some a2 ∧
      a2.toList.Perm (#[3, 1, 2] : Array Nat).toList ∧
      List.Pairwise (· ≤ ·) a2.toList :=
  ⟨by decide, claim_C1 (#[3, 1, 2] : Array Nat) (by decide)⟩

/-- C8: `Smoothsort` is total on its documented domain: every internal
loop terminates and the whole run produces a result (the embedding
returns `none` exactly when a source loop would fail to terminate). -/
theorem claim_C8 {α : Type} [LinearOrder α] [Inhabited α] (a : Array α)
    (hsize : a.size ≤ 4294967295) :
    (smoothsort a).isSome = true := by
  obtain ⟨a2, heq, _, _⟩ := smoothsort_spec a hsize
  rw [heq]
  rfl

/-- C8 (witness): the theorem applied at a concrete input. -/
theorem claim_C8_witness :
    (#[5, 4, 3, 2, 1] : Array Nat).size ≤ 4294967295 ∧
    (smoothsort (#[5, 4, 3, 2, 1] : Array Nat)).isSome = true :=
  ⟨by decide, claim_C8 (#[5, 4, 3, 2, 1] : Array Nat) (by decide)⟩

/-- C2 (counterexample): in the `Smoothsort` run on `#[1, 2]`, after the
second completed insert the forest has an order-1 tree rooted at index 0
and an order-0 tree rooted at index 1 (shape bits 3, smallest order 0);
reading the roots from left to right gives 1 then 2, which is strictly
increasing — not non-increasing as claimed. -/
theorem claim_C2_counterexample :
    buildLoop 0 2 2 (#[1, 2] : Array Nat) 0 ⟨0, 0⟩
      = some (#[1, 2], ⟨3, 0⟩) ∧
    RepShape ⟨3, 0⟩ [0, 1] ∧
    ForestHeaps (#[1, 2] : Array Nat) 2 [0, 1] ∧
    ¬ (aget (#[1, 2] : Array Nat) (2 - 1)
        ≤ aget (#[1, 2] : Array Nat) (2 - L 0 - 1)) := by
  refine ⟨by decide, ⟨by decide, by simp, by decide, Or.inr (by decide)⟩,
    by decide, by decide⟩

/-- C2 (amended): after every completed insert and every completed remove
the max-heap property does hold in every tree of the forest; the roots,
however, are non-DECREASING from left to right (the maximum is at the
rightmost root), and mid-build this is only guaranteed for the part of the
forest that already coincides with the final forest — after every
completed remove the whole root sequence is non-decreasing. -/
theorem claim_C2 {α : Type} [LinearOrder α] [Inhabited α] :
    (∀ (a : Array α) (n e : Nat) (os F : List Nat) (s : HeapShape),
      a.size = n → n ≤ 4294967295 → e < n →
      SI os → sumL os = e → SI F → sumL F = n →
      RepShape s os → BuildInv F a e os →
      ∃ a2, LeonardoHeapAdd a 0 e n s = some (a2, addShape s) ∧
        ForestHeaps a2 (e + 1) (addOrders os) ∧
        BuildInv F a2 (e + 1) (addOrders os)) ∧
    (∀ (a : Array α) (n e : Nat) (os : List Nat) (s : HeapShape),
      a.size = n → 1 ≤ e → e ≤ n →
      SI os → sumL os = e → RepShape s os →
      ForestHeaps a e os → RootsAsc a e os →
      (∀ i j, e ≤ i → i ≤ j → j < n → aget a i ≤ aget a j) →
      (∀ i j, i < e → e ≤ j → j < n → aget a i ≤ aget a j) →
      ∃ a2 s2, LeonardoHeapRemove a 0 e s = some (a2, s2) ∧
        ForestHeaps a2 (e - 1) (removeOrders os) ∧
        RootsAsc a2 (e - 1) (removeOrders os)) := by
  constructor
  · intro a n e os F s hsz hn he hSI hsum hSIF hsumF hrep hInv
    obtain ⟨a2, h1, _, hInv2, _, _⟩ :=
      add_step a n e os F s hsz hn he hSI hsum hSIF hsumF hrep hInv
    exact ⟨a2, h1, hInv2.1, hInv2⟩
  · intro a n e os s hsz he1 hen hSI hsum hrep hFH hRA hsuf hdom
    obtain ⟨a2, s2, heq, _, _, hFH2, hRA2, _, _, _, _⟩ :=
      remove_step a n e os s hsz he1 hen hSI hsum hrep hFH hRA hsuf hdom
    exact ⟨a2, s2, heq, hFH2, hRA2⟩

/-- C2 (witness): both parts applied at concrete states. -/
theorem claim_C2_witness :
    (∃ a2, LeonardoHeapAdd (#[2, 1] : Array Nat) 0 0 2 ⟨0, 0⟩
        = some (a2, addShape ⟨0, 0⟩) ∧
      ForestHeaps a2 1 (addOrders []) ∧
      BuildInv (ordersRun 2) a2 1 (addOrders [])) ∧
    (∃ a2 s2, LeonardoHeapRemove (#[7] : Array Nat) 0 1 ⟨1, 1⟩
        = some (a2, s2) ∧
      ForestHeaps a2 0 (removeOrders [1]) ∧
      RootsAsc a2 0 (removeOrders [1])) := by
  constructor
  · exact claim_C2.1 (#[2, 1] : Array Nat) 2 0 [] (ordersRun 2) ⟨0, 0⟩ rfl
      (by decide) (by decide)
      ⟨by simp, by simp, by simp, by simp⟩ rfl
      ⟨by simp [ordersRun, addOrders], by simp [ordersRun, addOrders],
        by decide, by decide⟩
      (by decide)
      ⟨rfl, by simp, by simp, Or.inl rfl⟩
      ⟨trivial, fun d _ => by
        rw [(show (([] : List Nat)).drop d = [] from List.drop_nil)]
        trivial⟩
  · exact claim_C2.2 (#[7] : Array Nat) 1 1 [1] ⟨1, 1⟩ rfl (le_refl 1)
      (le_refl 1)
      ⟨by simp, by simp, by decide, by decide⟩ (by decide)
      ⟨by decide, by simp, by decide, Or.inr (by decide)⟩
      (by decide) trivial
      (fun i j hi hij hj => absurd hj (by omega))
      (fun i j hi hj hjn => absurd hjn (by omega))

/-- C3: whenever the driver invokes `LeonardoHeapRemove` on a non-empty
active range `[0, e)` in a state satisfying the run invariant, the element
at `e - 1` is a maximum of the active range, and the remove leaves every
position from `e - 1` on unchanged: the maximum stays in place at its
final output position. -/
theorem claim_C3 {α : Type} [LinearOrder α] [Inhabited α] (a : Array α)
    (n e : Nat) (os : List Nat) (s : HeapShape)
    (hsz : a.size = n) (he1 : 1 ≤ e) (hen : e ≤ n)
    (hSI : SI os) (hsum : sumL os = e) (hrep : RepShape s os)
    (hFH : ForestHeaps a e os) (hRA : RootsAsc a e os)
    (hsuf : ∀ i j, e ≤ i → i ≤ j → j < n → aget a i ≤ aget a j)
    (hdom : ∀ i j, i < e → e ≤ j → j < n → aget a i ≤ aget a j) :
    (∀ i, i < e → aget a i ≤ aget a (e - 1)) ∧
    ∃ a2 s2, LeonardoHeapRemove a 0 e s = some (a2, s2) ∧
      ∀ j, e - 1 ≤ j → aget a2 j = aget a j := by
  constructor
  · intro i hi
    refine forest_dominance a e os hSI.2.2.2 (by omega) hFH hRA i
      (by omega) hi
  · obtain ⟨a2, s2, heq, _, _, _, _, _, _, _, hU⟩ :=
      remove_step a n e os s hsz he1 hen hSI hsum hrep hFH hRA hsuf hdom
    exact ⟨a2, s2, heq, hU⟩

/-- C3 (witness): the theorem applied at a concrete one-element state. -/
theorem claim_C3_witness :
    ((∀ i, i < 1 → aget (#[7] : Array Nat) i
        ≤ aget (#[7] : Array Nat) (1 - 1)) ∧
    ∃ a2 s2, LeonardoHeapRemove (#[7] : Array Nat) 0 1 ⟨1, 1⟩
        = some (a2, s2) ∧
      ∀ j, 1 - 1 ≤ j → aget a2 j = aget (#[7] : Array Nat) j) :=
  claim_C3 (#[7] : Array Nat) 1 1 [1] ⟨1, 1⟩ rfl (le_refl 1) (le_refl 1)
    ⟨by simp, by simp, by decide, by decide⟩ (by decide)
    ⟨by decide, by simp, by decide, Or.inr (by decide)⟩
    (by decide) trivial
    (fun i j hi hij hj => absurd hj (by omega))
    (fun i j hi hj hjn => absurd hjn (by omega))

end Smoothsort

namespace Binaryquicksort

open Smoothsort (aget aswap bsTest size_aswap aget_aswap_fst aget_aswap_snd
  aget_aswap_other aswap_perm aget_eq_toList_get size_of_perm bsTest0_iff
  aget_oob)

/-- The inner `while (begin < end && !(*begin & bitmask)) ++begin;` scan of
`PartitionAtBit`: march `begin` rightward over elements with a clear bit.
Fuelled with the range length, which the loop can never exceed. -/
def scanBeginAux (a : Array Nat) (e bit : Nat) : Nat → Nat → Nat
  | 0, b => b
  | fuel + 1, b =>
    if b < e ∧ bsTest (aget a b) bit = false then
      scanBeginAux a e bit fuel (b + 1)
    else b

/-- The `do { --end; } while (begin < end && !!(*end & bitmask));` scan of
`PartitionAtBit`: march `end` leftward over elements with a set bit. -/
def scanEndAux (a : Array Nat) (b bit : Nat) : Nat → Nat → Nat
  | 0, e => e - 1
  | fuel + 1, e =>
    if b < e - 1 ∧ bsTest (aget a (e - 1)) bit = true then
      scanEndAux a b bit fuel (e - 1)
    else e - 1

/-- The outer collision loop of `PartitionAtBit`. -/
def partAux (bit : Nat) : Nat → Array Nat → Nat → Nat → Option (Array Nat × Nat)
  | 0, _, _, _ => none
  | fuel + 1, a, b, e =>
    let b1 := scanBeginAux a e bit (e - b) b
    if b1 = e then some (a, b1)
    else
      let e1 := scanEndAux a b1 bit (e - b1) e
      if b1 = e1 then some (a, b1)
      else partAux bit fuel (aswap a b1 e1) b1 e1

/-- Source `PartitionAtBit`: move elements with bit `bit` clear to the
left and those with it set to the right, returning the crossover index. -/
def PartitionAtBit (a : Array Nat) (b e bit : Nat) : Option (Array Nat × Nat) :=
  partAux bit (e - b + 1) a b e

/-- Source `BinaryQuicksortAtBit`, on the count `bitp` of remaining bit
positions (the source's `bit` is `bitp - 1`; its loop over decreasing bits
is the tail call on the retained half). -/
def BinaryQuicksortAtBit : Nat → Array Nat → Nat → Nat → Option (Array Nat)
  | 0, a, _, _ => some a
  | bitp + 1, a, b, e =>
    if 1 < e - b then
      match PartitionAtBit a b e bitp with
      | none => none
      | some (a1, p) =>
        if p - b < e - p then
          match BinaryQuicksortAtBit bitp a1 b p with
          | none => none
          | some a2 => BinaryQuicksortAtBit bitp a2 p e
        else
          match BinaryQuicksortAtBit bitp a1 p e with
          | none => none
          | some a2 => BinaryQuicksortAtBit bitp a2 b p
    else some a

/-- The scan of `RotateNegativeValues` for the first negative value: on
`w`-bit two's-complement patterns, negative means the sign bit `w - 1` is
set. -/
def findNegAux (w : Nat) (a : Array Nat) : Nat → Nat → Option Nat
  | _, 0 => none
  | i, cnt + 1 =>
    if bsTest (aget a i) (w - 1) = true then some i
    else findNegAux w a (i + 1) cnt

/-- `std::rotate(begin, itr, end)` on the whole array. -/
def rotateAt (a : Array Nat) (i : Nat) : Array Nat :=
  (a.toList.drop i ++ a.toList.take i).toArray

/-- Source `RotateNegativeValues`. -/
def RotateNegativeValues (w : Nat) (a : Array Nat) : Array Nat :=
  match findNegAux w a 0 a.size with
  | none => a
  | some i => rotateAt a i

/-- Two's-complement reading of a `w`-bit pattern. -/
def toSigned (w x : Nat) : Int :=
  if x < 2 ^ (w - 1) then (x : Int) else (x : Int) - 2 ^ w

/-- Source `BinaryQuicksort` on `w`-bit patterns (`kNumBits = w`); the
final rotation runs exactly when the element type is signed. -/
def BinaryQuicksort (w : Nat) (signed : Bool) (a : Array Nat) :
    Option (Array Nat) :=
  match BinaryQuicksortAtBit w a 0 a.size with
  | none => none
  | some a1 => some (if signed then RotateNegativeValues w a1 else a1)

theorem scanBegin_spec (a : Array Nat) (e bit : Nat) :
    ∀ (fuel b : Nat), e ≤ b + fuel → b ≤ e →
      b ≤ scanBeginAux a e bit fuel b ∧
      scanBeginAux a e bit fuel b ≤ e ∧
      (∀ i, b ≤ i → i < scanBeginAux a e bit fuel b →
        bsTest (aget a i) bit = false) ∧
      (scanBeginAux a e bit fuel b < e →
        bsTest (aget a (scanBeginAux a e bit fuel b)) bit = true)
  | 0, b => fun hf hb => by
    unfold scanBeginAux
    exact ⟨le_refl _, hb, fun i h1 h2 => absurd h2 (by omega),
      fun h => absurd h (by omega)⟩
  | fuel + 1, b => fun hf hb => by
    unfold scanBeginAux
    split_ifs with hc
    · obtain ⟨ih1, ih2, ih3, ih4⟩ := scanBegin_spec a e bit fuel (b + 1)
        (by omega) (by omega)
      refine ⟨by omega, ih2, ?_, ih4⟩
      intro i h1 h2
      rcases Nat.eq_or_lt_of_le h1 with rfl | h1'
      · exact hc.2
      · exact ih3 i (by omega) h2
    · refine ⟨le_refl _, hb, fun i h1 h2 => absurd h2 (by omega), ?_⟩
      intro hlt
      rcases Bool.eq_false_or_eq_true (bsTest (aget a b) bit) with hh | hh
      · exact hh
      · exact absurd ⟨hlt, hh⟩ hc

theorem scanEnd_spec (a : Array Nat) (b bit : Nat) :
    ∀ (fuel e : Nat), b < e → e - b ≤ fuel + 1 →
      b ≤ scanEndAux a b bit fuel e ∧
      scanEndAux a b bit fuel e < e ∧
      (∀ i, scanEndAux a b bit fuel e < i → i < e →
        bsTest (aget a i) bit = true) ∧
      (b < scanEndAux a b bit fuel e →
        bsTest (aget a (scanEndAux a b bit fuel e)) bit = false)
  | 0, e => fun he hf => by
    unfold scanEndAux
    have : e = b + 1 := by omega
    exact ⟨by omega, by omega, fun i h1 h2 => absurd h2 (by omega),
      fun h => absurd h (by omega)⟩
  | fuel + 1, e => fun he hf => by
    unfold scanEndAux
    split_ifs with hc
    · obtain ⟨ih1, ih2, ih3, ih4⟩ := scanEnd_spec a b bit fuel (e - 1)
        (by omega) (by omega)
      refine ⟨ih1, by omega, ?_, ih4⟩
      intro i h1 h2
      rcases lt_or_le i (e - 1) with h3 | h3
      · exact ih3 i h1 h3
      · have : i = e - 1 := by omega
        rw [this]
        exact hc.2
    · refine ⟨by omega, by omega, fun i h1 h2 => absurd h2 (by omega), ?_⟩
      intro hlt
      rcases Bool.eq_false_or_eq_true (bsTest (aget a (e - 1)) bit) with hh | hh
      · exact absurd ⟨hlt, hh⟩ hc
      · exact hh

theorem partAux_spec (bit : Nat) : ∀ (fuel : Nat) (a : Array Nat) (b e : Nat),
    b ≤ e → e ≤ a.size → e - b < fuel →
    ∃ a1 p, partAux bit fuel a b e = some (a1, p) ∧
      b ≤ p ∧ p ≤ e ∧
      a1.size = a.size ∧
      a1.toList.Perm a.toList ∧
      (∀ i, i < b ∨ e ≤ i → aget a1 i = aget a i) ∧
      (∀ i, b ≤ i → i < e → ∃ j, b ≤ j ∧ j < e ∧ aget a1 i = aget a j) ∧
      (∀ i, b ≤ i → i < p → bsTest (aget a1 i) bit = false) ∧
      (∀ i, p ≤ i → i < e → bsTest (aget a1 i) bit = true)
  | 0, a, b, e => fun hbe hsz hf => by omega
  | fuel + 1, a, b, e => fun hbe hsz hf => by
    unfold partAux
    dsimp only
    obtain ⟨hs1, hs2, hs3, hs4⟩ :=
      scanBegin_spec a e bit (e - b) b (by omega) hbe
    by_cases hb1 : scanBeginAux a e bit (e - b) b = e
    · rw [if_pos hb1]
      refine ⟨a, scanBeginAux a e bit (e - b) b, rfl, hs1, hs2, rfl,
        List.Perm.refl _, fun _ _ => rfl, fun i h1 h2 => ⟨i, h1, h2, rfl⟩,
        ?_, ?_⟩
      · intro i h1 h2
        exact hs3 i h1 h2
      · intro i h1 h2
        omega
    · rw [if_neg hb1]
      have hblt : scanBeginAux a e bit (e - b) b < e := by omega
      obtain ⟨ht1, ht2, ht3, ht4⟩ :=
        scanEnd_spec a (scanBeginAux a e bit (e - b) b) bit
          (e - scanBeginAux a e bit (e - b) b) e hblt (by omega)
      by_cases hb2 : scanBeginAux a e bit (e - b) b
          = scanEndAux a (scanBeginAux a e bit (e - b) b) bit
            (e - scanBeginAux a e bit (e - b) b) e
      · rw [if_pos hb2]
        refine ⟨a, scanBeginAux a e bit (e - b) b, rfl, hs1, le_of_lt hblt,
          rfl, List.Perm.refl _, fun _ _ => rfl,
          fun i h1 h2 => ⟨i, h1, h2, rfl⟩, ?_, ?_⟩
        · intro i h1 h2
          exact hs3 i h1 h2
        · intro i h1 h2
          rcases Nat.eq_or_lt_of_le h1 with rfl | h1'
          · exact hs4 hblt
          · exact ht3 i (by omega) h2
      · rw [if_neg hb2]
        have hlt2 : scanBeginAux a e bit (e - b) b
            < scanEndAux a (scanBeginAux a e bit (e - b) b) bit
              (e - scanBeginAux a e bit (e - b) b) e := by omega
        obtain ⟨a1, p, heq, hp1, hp2, hsz1, hperm1, hout1, hex1, h01, h11⟩ :=
          partAux_spec bit fuel
            (aswap a (scanBeginAux a e bit (e - b) b)
              (scanEndAux a (scanBeginAux a e bit (e - b) b) bit
                (e - scanBeginAux a e bit (e - b) b) e))
            (scanBeginAux a e bit (e - b) b)
            (scanEndAux a (scanBeginAux a e bit (e - b) b) bit
              (e - scanBeginAux a e bit (e - b) b) e)
            (by omega) (by rw [size_aswap]; omega) (by omega)
      -- abbreviations to keep the assembly readable
        set b1 := scanBeginAux a e bit (e - b) b with hb1d
        set e1 := scanEndAux a b1 bit (e - b1) e with he1d
        have hb1sz : b1 < a.size := by omega
        have he1sz : e1 < a.size := by omega
        refine ⟨a1, p, heq, by omega, by omega, ?_, ?_, ?_, ?_, ?_, ?_⟩
        · rw [hsz1, size_aswap]
        · exact hperm1.trans (aswap_perm a b1 e1 hb1sz he1sz)
        · intro i hi
          rw [hout1 i (by omega)]
          exact aget_aswap_other a b1 e1 i (by omega) (by omega)
        · intro i h1 h2
          rcases le_or_lt b1 i with hi1 | hi1
          · rcases lt_or_le i e1 with hi2 | hi2
            · obtain ⟨j, hj1, hj2, hj3⟩ := hex1 i hi1 hi2
              rcases Smoothsort.aget_aswap_mem a b1 e1 j with hm | hm | hm
              · exact ⟨b1, by omega, by omega, by rw [hj3, hm]⟩
              · exact ⟨e1, by omega, by omega, by rw [hj3, hm]⟩
              · exact ⟨j, by omega, by omega, by rw [hj3, hm]⟩
            · rw [hout1 i (by omega)]
              rcases Smoothsort.aget_aswap_mem a b1 e1 i with hm | hm | hm
              · exact ⟨b1, by omega, by omega, by rw [hm]⟩
              · exact ⟨e1, by omega, by omega, by rw [hm]⟩
              · exact ⟨i, h1, h2, by rw [hm]⟩
          · rw [hout1 i (by omega)]
            rcases Smoothsort.aget_aswap_mem a b1 e1 i with hm | hm | hm
            · exact ⟨b1, by omega, by omega, by rw [hm]⟩
            · exact ⟨e1, by omega, by omega, by rw [hm]⟩
            · exact ⟨i, h1, h2, by rw [hm]⟩
        · intro i h1 h2
          rcases le_or_lt b1 i with hi1 | hi1
          · exact h01 i hi1 h2
          · rw [hout1 i (by omega),
              aget_aswap_other a b1 e1 i (by omega) (by omega)]
            exact hs3 i h1 hi1
        · intro i h1 h2
          rcases lt_or_le i e1 with hi2 | hi2
          · exact h11 i h1 hi2
          · rcases Nat.eq_or_lt_of_le hi2 with hie | hi3
            · subst hie
              rw [hout1 e1 (by omega), aget_aswap_snd a b1 e1 he1sz]
              exact hs4 hblt
            · rw [hout1 i (by omega),
                aget_aswap_other a b1 e1 i (by omega) (by omega)]
              exact ht3 i hi3 h2

theorem bsTest_iff (x k : Nat) : bsTest x k = true ↔ x / 2 ^ k % 2 = 1 := by
  simp [Smoothsort.bsTest]

theorem mod_pow_succ (x k : Nat) :
    x % 2 ^ (k + 1) = 2 ^ k * (x / 2 ^ k % 2) + x % 2 ^ k := by
  rw [pow_succ, Nat.mod_mul]
  omega

theorem mod_succ_of_false (x k : Nat) (h : bsTest x k = false) :
    x % 2 ^ (k + 1) = x % 2 ^ k := by
  have h2 : x / 2 ^ k % 2 = 0 := by
    rcases Nat.mod_two_eq_zero_or_one (x / 2 ^ k) with h0 | h1
    · exact h0
    · rw [(bsTest_iff x k).mpr h1] at h
      exact Bool.noConfusion h
  rw [mod_pow_succ, h2, Nat.mul_zero, Nat.zero_add]

theorem mod_succ_of_true (x k : Nat) (h : bsTest x k = true) :
    x % 2 ^ (k + 1) = 2 ^ k + x % 2 ^ k := by
  rw [mod_pow_succ, (bsTest_iff x k).mp h, Nat.mul_one]

theorem mod_pow_lt (x k : Nat) : x % 2 ^ k < 2 ^ k :=
  Nat.mod_lt _ (Nat.pos_pow_of_pos _ (by omega))

theorem bq_glue (bitp b p e : Nat) (a3 : Array Nat)
    (h0 : ∀ i, b ≤ i → i < p → bsTest (aget a3 i) bitp = false)
    (h1 : ∀ i, p ≤ i → i < e → bsTest (aget a3 i) bitp = true)
    (hs0 : ∀ i j, b ≤ i → i ≤ j → j < p →
      aget a3 i % 2 ^ bitp ≤ aget a3 j % 2 ^ bitp)
    (hs1 : ∀ i j, p ≤ i → i ≤ j → j < e →
      aget a3 i % 2 ^ bitp ≤ aget a3 j % 2 ^ bitp) :
    ∀ i j, b ≤ i → i ≤ j → j < e →
      aget a3 i % 2 ^ (bitp + 1) ≤ aget a3 j % 2 ^ (bitp + 1) := by
  intro i j hi hij hj
  rcases lt_or_le i p with hip | hip
  · rcases lt_or_le j p with hjp | hjp
    · rw [mod_succ_of_false _ _ (h0 i hi hip),
        mod_succ_of_false _ _ (h0 j (by omega) hjp)]
      exact hs0 i j hi hij hjp
    · rw [mod_succ_of_false _ _ (h0 i hi hip),
        mod_succ_of_true _ _ (h1 j hjp hj)]
      have := mod_pow_lt (aget a3 i) bitp
      omega
  · rw [mod_succ_of_true _ _ (h1 i hip (by omega)),
      mod_succ_of_true _ _ (h1 j (by omega) hj)]
    have := hs1 i j hip hij hj
    omega

theorem bq_spec : ∀ (bitp : Nat) (a : Array Nat) (b e : Nat),
    b ≤ e → e ≤ a.size →
    ∃ a2, BinaryQuicksortAtBit bitp a b e = some a2 ∧
      a2.size = a.size ∧
      a2.toList.Perm a.toList ∧
      (∀ i, i < b ∨ e ≤ i → aget a2 i = aget a i) ∧
      (∀ i, b ≤ i → i < e → ∃ j, b ≤ j ∧ j < e ∧ aget a2 i = aget a j) ∧
      (∀ i j, b ≤ i → i ≤ j → j < e →
        aget a2 i % 2 ^ bitp ≤ aget a2 j % 2 ^ bitp)
  | 0, a, b, e => fun hbe hsz => by
    refine ⟨a, rfl, rfl, List.Perm.refl _, fun _ _ => rfl,
      fun i h1 h2 => ⟨i, h1, h2, rfl⟩, ?_⟩
    intro i j _ _ _
    simp [Nat.mod_one]
  | bitp + 1, a, b, e => fun hbe hsz => by
    unfold BinaryQuicksortAtBit
    by_cases hlen : 1 < e - b
    · rw [if_pos hlen]
      obtain ⟨a1, p, heqP, hp1, hp2, hsz1, hperm1, hout1, hex1, h01, h11⟩ :=
        partAux_spec bitp (e - b + 1) a b e hbe hsz (by omega)
      rw [(show PartitionAtBit a b e bitp = partAux bitp (e - b + 1) a b e
        from rfl), heqP]
      dsimp only
      by_cases hside : p - b < e - p
      · rw [if_pos hside]
        obtain ⟨a2, heq2, hsz2, hperm2, hout2, hex2, hsort2⟩ :=
          bq_spec bitp a1 b p hp1 (by omega)
        rw [heq2]
        dsimp only
        obtain ⟨a3, heq3, hsz3, hperm3, hout3, hex3, hsort3⟩ :=
          bq_spec bitp a2 p e hp2 (by omega)
        have hv0 : ∀ i, b ≤ i → i < p → bsTest (aget a3 i) bitp = false := by
          intro i hi1 hi2
          rw [hout3 i (Or.inl hi2)]
          obtain ⟨j, hj1, hj2, hj3⟩ := hex2 i hi1 hi2
          rw [hj3]
          exact h01 j hj1 hj2
        have hv1 : ∀ i, p ≤ i → i < e → bsTest (aget a3 i) bitp = true := by
          intro i hi1 hi2
          obtain ⟨j, hj1, hj2, hj3⟩ := hex3 i hi1 hi2
          rw [hj3, hout2 j (Or.inr hj1)]
          exact h11 j hj1 hj2
        refine ⟨a3, heq3, by rw [hsz3, hsz2, hsz1],
          (hperm3.trans hperm2).trans hperm1, ?_, ?_, ?_⟩
        · intro i hi
          rw [hout3 i (by omega), hout2 i (by omega), hout1 i hi]
        · intro i h1 h2
          rcases lt_or_le i p with hip | hip
          · rw [hout3 i (Or.inl hip)]
            obtain ⟨j, hj1, hj2, hj3⟩ := hex2 i h1 hip
            obtain ⟨l, hl1, hl2, hl3⟩ := hex1 j hj1 (by omega)
            exact ⟨l, hl1, hl2, by rw [hj3, hl3]⟩
          · obtain ⟨j, hj1, hj2, hj3⟩ := hex3 i hip h2
            rw [hout2 j (Or.inr hj1)] at hj3
            obtain ⟨l, hl1, hl2, hl3⟩ := hex1 j (by omega) hj2
            exact ⟨l, hl1, hl2, by rw [hj3, hl3]⟩
        · refine bq_glue bitp b p e a3 hv0 hv1 ?_ hsort3
          intro i j hi hij hj
          rw [hout3 i (Or.inl (by omega)), hout3 j (Or.inl hj)]
          exact hsort2 i j hi hij hj
      · rw [if_neg hside]
        obtain ⟨a2, heq2, hsz2, hperm2, hout2, hex2, hsort2⟩ :=
          bq_spec bitp a1 p e hp2 (by omega)
        rw [heq2]
        dsimp only
        obtain ⟨a3, heq3, hsz3, hperm3, hout3, hex3, hsort3⟩ :=
          bq_spec bitp a2 b p hp1 (by omega)
        have hv0 : ∀ i, b ≤ i → i < p → bsTest (aget a3 i) bitp = false := by
          intro i hi1 hi2
          obtain ⟨j, hj1, hj2, hj3⟩ := hex3 i hi1 hi2
          rw [hj3, hout2 j (Or.inl hj2)]
          exact h01 j hj1 hj2
        have hv1 : ∀ i, p ≤ i → i < e → bsTest (aget a3 i) bitp = true := by
          intro i hi1 hi2
          rw [hout3 i (Or.inr hi1)]
          obtain ⟨j, hj1, hj2, hj3⟩ := hex2 i hi1 hi2
          rw [hj3]
          exact h11 j hj1 hj2
        refine ⟨a3, heq3, by rw [hsz3, hsz2, hsz1],
          (hperm3.trans hperm2).trans hperm1, ?_, ?_, ?_⟩
        · intro i hi
          rw [hout3 i (by omega), hout2 i (by omega), hout1 i hi]
        · intro i h1 h2
          rcases lt_or_le i p with hip | hip
          · obtain ⟨j, hj1, hj2, hj3⟩ := hex3 i h1 hip
            rw [hout2 j (Or.inl hj2)] at hj3
            obtain ⟨l, hl1, hl2, hl3⟩ := hex1 j hj1 (by omega)
            exact ⟨l, hl1, hl2, by rw [hj3, hl3]⟩
          · rw [hout3 i (Or.inr hip)]
            obtain ⟨j, hj1, hj2, hj3⟩ := hex2 i hip h2
            obtain ⟨l, hl1, hl2, hl3⟩ := hex1 j (by omega) hj2
            exact ⟨l, hl1, hl2, by rw [hj3, hl3]⟩
        · refine bq_glue bitp b p e a3 hv0 hv1 hsort3 ?_
          intro i j hi hij hj
          rw [hout3 i (Or.inr hi), hout3 j (Or.inr (by omega))]
          exact hsort2 i j hi hij hj
    · rw [if_neg hlen]
      refine ⟨a, rfl, rfl, List.Perm.refl _, fun _ _ => rfl,
        fun i h1 h2 => ⟨i, h1, h2, rfl⟩, ?_⟩
      intro i j hi hij hj
      have : i = j := by omega
      rw [this]

theorem findNegAux_some (w : Nat) (a : Array Nat) :
    ∀ (cnt i m : Nat), findNegAux w a i cnt = some m →
      i ≤ m ∧ m < i + cnt ∧ bsTest (aget a m) (w - 1) = true ∧
      (∀ l, i ≤ l → l < m → bsTest (aget a l) (w - 1) = false)
  | 0, i, m => fun h => by
    simp [findNegAux] at h
  | cnt + 1, i, m => fun h => by
    unfold findNegAux at h
    by_cases hb : bsTest (aget a i) (w - 1) = true
    · rw [if_pos hb] at h
      have him : i = m := by simpa using h
      subst him
      exact ⟨le_refl i, by omega, hb, fun l h1 h2 => absurd h1 (by omega)⟩
    · rw [if_neg hb] at h
      obtain ⟨h1, h2, h3, h4⟩ := findNegAux_some w a cnt (i + 1) m h
      refine ⟨by omega, by omega, h3, ?_⟩
      intro l hl1 hl2
      rcases Nat.eq_or_lt_of_le hl1 with hl | hl
      · rw [← hl]
        simpa using hb
      · exact h4 l (by omega) hl2

theorem findNegAux_none (w : Nat) (a : Array Nat) :
    ∀ (cnt i : Nat), findNegAux w a i cnt = none →
      ∀ l, i ≤ l → l < i + cnt → bsTest (aget a l) (w - 1) = false
  | 0, i => fun _ l h1 h2 => absurd h2 (by omega)
  | cnt + 1, i => fun h l h1 h2 => by
    unfold findNegAux at h
    by_cases hb : bsTest (aget a i) (w - 1) = true
    · rw [if_pos hb] at h
      exact Option.noConfusion h
    · rw [if_neg hb] at h
      rcases Nat.eq_or_lt_of_le h1 with hl | hl
      · rw [← hl]
        simpa using hb
      · exact findNegAux_none w a cnt (i + 1) h l (by omega) (by omega)

theorem bsTest_sign (w x : Nat) (hw : 1 ≤ w) (hx : x < 2 ^ w) :
    bsTest x (w - 1) = true ↔ 2 ^ (w - 1) ≤ x := by
  rw [bsTest_iff]
  have hsplit : 2 ^ w = 2 ^ (w - 1) * 2 := by
    rw [← pow_succ]
    congr 1
    omega
  have hd : x / 2 ^ (w - 1) < 2 := by
    rw [Nat.div_lt_iff_lt_mul (Nat.pos_pow_of_pos _ (by omega))]
    omega
  rw [Nat.mod_eq_of_lt hd]
  constructor
  · intro h1
    exact (Nat.one_le_div_iff (Nat.pos_pow_of_pos _ (by omega))).mp (by omega)
  · intro h1
    have h2 := (Nat.one_le_div_iff
      (Nat.pos_pow_of_pos (w - 1) (by omega))).mpr h1
    omega

theorem toSigned_low (w x : Nat) (h : x < 2 ^ (w - 1)) :
    toSigned w x = (x : Int) := by
  unfold toSigned
  rw [if_pos h]

theorem toSigned_high (w x : Nat) (h : 2 ^ (w - 1) ≤ x) :
    toSigned w x = (x : Int) - 2 ^ w := by
  unfold toSigned
  rw [if_neg (not_lt.mpr h)]

theorem toSigned_mono_low (w x y : Nat) (hx : x < 2 ^ (w - 1))
    (hy : y < 2 ^ (w - 1)) (hxy : x ≤ y) : toSigned w x ≤ toSigned w y := by
  rw [toSigned_low w x hx, toSigned_low w y hy]
  omega

theorem toSigned_mono_high (w x y : Nat) (hx : 2 ^ (w - 1) ≤ x)
    (hy : 2 ^ (w - 1) ≤ y) (hxy : x ≤ y) : toSigned w x ≤ toSigned w y := by
  rw [toSigned_high w x hx, toSigned_high w y hy]
  omega

theorem toSigned_cross (w x y : Nat) (hx : 2 ^ (w - 1) ≤ x)
    (hx2 : x < 2 ^ w) (hy : y < 2 ^ (w - 1)) :
    toSigned w x ≤ toSigned w y := by
  rw [toSigned_high w x hx, toSigned_low w y hy]
  have hcast : (x : Int) < 2 ^ w := by exact_mod_cast hx2
  omega

theorem toList_getElem (a : Array Nat) (i : Nat) (h : i < a.toList.length) :
    a.toList[i] = aget a i := by
  rw [aget_eq_toList_get a i (by simpa using h), List.get_eq_getElem]

theorem rotateNeg_spec (w : Nat) (hw : 1 ≤ w) (a1 : Array Nat)
    (hget1 : ∀ i, i < a1.size → aget a1 i < 2 ^ w)
    (hraw : ∀ i j, i ≤ j → j < a1.size → aget a1 i ≤ aget a1 j) :
    (RotateNegativeValues w a1).toList.Perm a1.toList ∧
    List.Pairwise (fun x y => toSigned w x ≤ toSigned w y)
      (RotateNegativeValues w a1).toList := by
  have hlen : a1.toList.length = a1.size := by simp
  unfold RotateNegativeValues
  rcases hfind : findNegAux w a1 0 a1.size with _ | m
  · dsimp only
    refine ⟨List.Perm.refl _, ?_⟩
    have hlow : ∀ i, i < a1.size → aget a1 i < 2 ^ (w - 1) := by
      intro i hi
      have hb := findNegAux_none w a1 a1.size 0 hfind i (Nat.zero_le _)
        (by omega)
      by_contra hcon
      push_neg at hcon
      rw [(bsTest_sign w (aget a1 i) hw (hget1 i hi)).mpr hcon] at hb
      exact Bool.noConfusion hb
    rw [List.pairwise_iff_getElem]
    intro i j hi hj hij
    rw [toList_getElem a1 i hi, toList_getElem a1 j hj]
    exact toSigned_mono_low w _ _ (hlow i (by omega)) (hlow j (by omega))
      (hraw i j (by omega) (by omega))
  · dsimp only
    obtain ⟨_, hm2, hm3, hm4⟩ := findNegAux_some w a1 a1.size 0 m hfind
    have hm : m < a1.size := by omega
    have hhigh : ∀ i, m ≤ i → i < a1.size → 2 ^ (w - 1) ≤ aget a1 i := by
      intro i hi1 hi2
      have h1 := (bsTest_sign w (aget a1 m) hw (hget1 m hm)).mp hm3
      exact le_trans h1 (hraw m i hi1 hi2)
    have hlowidx : ∀ i, i < m → aget a1 i < 2 ^ (w - 1) := by
      intro i hi
      have hb := hm4 i (Nat.zero_le _) hi
      by_contra hcon
      push_neg at hcon
      rw [(bsTest_sign w (aget a1 i) hw (hget1 i (by omega))).mpr hcon] at hb
      exact Bool.noConfusion hb
    have hrl : (rotateAt a1 m).toList =
        a1.toList.drop m ++ a1.toList.take m := by
      simp [rotateAt]
    rw [hrl]
    constructor
    · have h := List.take_append_drop m a1.toList
      exact List.Perm.trans List.perm_append_comm (by rw [h])
    · rw [List.pairwise_append]
      refine ⟨?_, ?_, ?_⟩
      · rw [List.pairwise_iff_getElem]
        intro i j hi hj hij
        have hi2 : m + i < a1.toList.length := by
          rw [List.length_drop] at hi
          omega
        have hj2 : m + j < a1.toList.length := by
          rw [List.length_drop] at hj
          omega
        rw [List.getElem_drop, List.getElem_drop,
          toList_getElem a1 (m + i) hi2, toList_getElem a1 (m + j) hj2]
        exact toSigned_mono_high w _ _ (hhigh (m + i) (by omega) (by omega))
          (hhigh (m + j) (by omega) (by omega))
          (hraw (m + i) (m + j) (by omega) (by omega))
      · rw [List.pairwise_iff_getElem]
        intro i j hi hj hij
        have hi2 : i < m := by
          rw [List.length_take] at hi
          omega
        have hj2 : j < m := by
          rw [List.length_take] at hj
          omega
        rw [List.getElem_take, List.getElem_take,
          toList_getElem a1 i (by omega), toList_getElem a1 j (by omega)]
        exact toSigned_mono_low w _ _ (hlowidx i hi2) (hlowidx j hj2)
          (hraw i j (by omega) (by omega))
      · intro x hx y hy
        obtain ⟨i, hi, hix⟩ := List.mem_iff_getElem.mp hx
        obtain ⟨j, hj, hjy⟩ := List.mem_iff_getElem.mp hy
        have hi2 : m + i < a1.toList.length := by
          rw [List.length_drop] at hi
          omega
        have hj2 : j < m := by
          rw [List.length_take] at hj
          omega
        rw [← hix, ← hjy, List.getElem_drop, List.getElem_take,
          toList_getElem a1 (m + i) hi2, toList_getElem a1 j (by omega)]
        exact toSigned_cross w _ _ (hhigh (m + i) (by omega) (by omega))
          (hget1 (m + i) (by omega)) (hlowidx j hj2)

/-- C10: for every sequence of `w`-bit two's-complement patterns (`w ≥ 1`),
signed `BinaryQuicksort` succeeds and returns a permutation of the input in
non-descending signed order: the MSD radix passes over all `w` bit
positions sort by raw bit pattern, which leaves the block of negative
values (sign bit set) after the non-negative ones, and the single final
rotation of `RotateNegativeValues` moves that block to the front. -/
theorem claim_C10 (w : Nat) (hw : 1 ≤ w) (a : Array Nat)
    (hval : ∀ x ∈ a.toList, x < 2 ^ w) :
    ∃ a2, BinaryQuicksort w true a = some a2 ∧
      a2.toList.Perm a.toList ∧
      List.Pairwise (fun x y => toSigned w x ≤ toSigned w y) a2.toList := by
  obtain ⟨a1, heq1, hsz1, hperm1, _, _, hsort1⟩ :=
    bq_spec w a 0 a.size (Nat.zero_le _) (le_refl _)
  have hval1 : ∀ x ∈ a1.toList, x < 2 ^ w := fun x hx =>
    hval x (hperm1.subset hx)
  have hget1 : ∀ i, i < a1.size → aget a1 i < 2 ^ w := by
    intro i hi
    have hlen : a1.toList.length = a1.size := by simp
    rw [← toList_getElem a1 i (by omega)]
    exact hval1 _ (List.mem_iff_getElem.mpr ⟨i, by omega, rfl⟩)
  have hraw : ∀ i j, i ≤ j → j < a1.size → aget a1 i ≤ aget a1 j := by
    intro i j hij hj
    have h1 := hsort1 i j (Nat.zero_le _) hij (by omega)
    rwa [Nat.mod_eq_of_lt (hget1 i (by omega)),
      Nat.mod_eq_of_lt (hget1 j hj)] at h1
  obtain ⟨hperm2, hpair⟩ := rotateNeg_spec w hw a1 hget1 hraw
  refine ⟨RotateNegativeValues w a1, ?_, hperm2.trans hperm1, hpair⟩
  unfold BinaryQuicksort
  rw [heq1]
  rfl

/-- C10 (witness): the theorem applied at a concrete signed-byte input. -/
theorem claim_C10_witness :
    1 ≤ 8 ∧
    (∀ x ∈ (#[5, 255, 3, 128, 0, 200, 7] : Array Nat).toList, x < 2 ^ 8) ∧
    ∃ a2, BinaryQuicksort 8 true (#[5, 255, 3, 128, 0, 200, 7] : Array Nat)
        = some a2 ∧
      a2.toList.Perm (#[5, 255, 3, 128, 0, 200, 7] : Array Nat).toList ∧
      List.Pairwise (fun x y => toSigned 8 x ≤ toSigned 8 y) a2.toList :=
  ⟨by decide, by decide, claim_C10 8 (by decide)
    (#[5, 255, 3, 128, 0, 200, 7] : Array Nat) (by decide)⟩

end Binaryquicksort
